import Mathlib

/-!
Shallow embedding of the `whitebox-aes-rs` repository (Baek–Cheon–Hong 2016
revisited white-box AES generator and runtime) and proofs about it.

Bytes are modelled as naturals below 256, machine words as naturals with
explicit truncation, bit-packed matrix rows as naturals read through
`Nat.testBit`, and the RNG as an abstract byte stream with a position.
Fallible operations (matrix inversion, rejection sampling with fuel)
return `Option`.
-/

set_option maxRecDepth 8000

namespace WbAes

/-- Parity of the `k` lowest bits of a natural number.  All values whose
popcount parity the source takes (`count_ones() & 1`) are masked below
`2^256`, so `parityTo 256` is the translation of that operation. -/
def parityTo : Nat → Nat → Bool
  | 0, _ => false
  | k+1, x => (parityTo k x).xor (x.testBit k)

/-- Popcount parity (`count_ones() & 1 == 1`) of a value below `2^256`. -/
def parity (x : Nat) : Bool := parityTo 256 x

/-- Assemble a natural number from its `k` lowest bits, little-endian. -/
def bitsToNat : Nat → (Nat → Bool) → Nat
  | 0, _ => 0
  | k+1, f => (if f 0 then 1 else 0) + 2 * bitsToNat k (fun i => f (i+1))

theorem bitsToNat_lt (k : Nat) (f : Nat → Bool) : bitsToNat k f < 2^k := by
  induction k generalizing f with
  | zero => simp [bitsToNat]
  | succ k ih =>
    have h := ih (fun i => f (i+1))
    by_cases hf : f 0 <;> simp [bitsToNat, hf, pow_succ] <;> omega

theorem testBit_bitsToNat (k : Nat) (f : Nat → Bool) (i : Nat) :
    (bitsToNat k f).testBit i = (decide (i < k) && f i) := by
  induction k generalizing f i with
  | zero => simp [bitsToNat]
  | succ k ih =>
    have hb : bitsToNat (k+1) f = (if f 0 then 1 else 0) + 2 * bitsToNat k (fun i => f (i+1)) := rfl
    cases i with
    | zero =>
      rw [hb, Nat.testBit_zero]
      by_cases hf : f 0 <;> simp [hf] <;> omega
    | succ i =>
      rw [hb, Nat.testBit_succ]
      have hdiv : ((if f 0 then 1 else 0) + 2 * bitsToNat k (fun i => f (i+1))) / 2
          = bitsToNat k (fun i => f (i+1)) := by
        by_cases hf : f 0 <;> simp [hf] <;> omega
      rw [hdiv, ih]
      simp [Nat.succ_lt_succ_iff]

theorem bitsToNat_congr (k : Nat) (f g : Nat → Bool) (h : ∀ i, i < k → f i = g i) :
    bitsToNat k f = bitsToNat k g := by
  induction k generalizing f g with
  | zero => rfl
  | succ k ih =>
    show (if f 0 then 1 else 0) + 2 * bitsToNat k (fun i => f (i+1))
        = (if g 0 then 1 else 0) + 2 * bitsToNat k (fun i => g (i+1))
    rw [h 0 (Nat.succ_pos k), ih _ _ (fun i hi => h (i+1) (Nat.succ_lt_succ hi))]

/-- A byte: a natural number below 256.  This is the translation of Rust `u8`. -/
structure Byte where
  val : Nat
  isLt : val < 256

theorem Byte.extVal {a b : Byte} (h : a.val = b.val) : a = b := by
  cases a; cases b; simpa using h

instance : DecidableEq Byte := fun a b =>
  decidable_of_iff (a.val = b.val) ⟨Byte.extVal, congrArg Byte.val⟩

/-- Byte XOR, the `^` of Rust `u8`. -/
def Byte.xor (a b : Byte) : Byte :=
  ⟨a.val ^^^ b.val, by
    have := Nat.xor_lt_two_pow (n := 8) a.isLt b.isLt
    omega⟩

/-- The zero byte. -/
def Byte.zero : Byte := ⟨0, by omega⟩

instance : Zero Byte := ⟨Byte.zero⟩

instance : Add Byte := ⟨Byte.xor⟩

instance : Neg Byte := ⟨id⟩

/-- Bytes form an additive group under XOR (each element is its own inverse). -/
instance : AddCommGroup Byte where
  nsmul := nsmulRec
  zsmul := zsmulRec
  add_assoc a b c := Byte.extVal (Nat.xor_assoc _ _ _)
  zero_add a := Byte.extVal (Nat.zero_xor _)
  add_zero a := Byte.extVal (Nat.xor_zero _)
  add_comm a b := Byte.extVal (Nat.xor_comm _ _)
  neg_add_cancel a := Byte.extVal (Nat.xor_self _)

theorem Byte.add_def (a b : Byte) : a + b = Byte.xor a b := rfl

theorem Byte.val_add (a b : Byte) : (a + b).val = a.val ^^^ b.val := rfl

theorem Byte.zero_def : (0 : Byte) = Byte.zero := rfl

theorem Byte.val_zero : (0 : Byte).val = 0 := rfl

theorem Byte.add_self_cancel (a : Byte) : a + a = 0 := Byte.extVal (Nat.xor_self _)

/-- Build a byte from a natural number, truncating as Rust `as u8` does. -/
def Byte.ofNat (n : Nat) : Byte := ⟨n % 256, Nat.mod_lt _ (by omega)⟩

/-- Decide equality of functions out of `Fin n` by comparing their value
lists; this reduces well inside the kernel. -/
instance decEqFinFun {n : Nat} {α : Type} [DecidableEq α] : DecidableEq (Fin n → α) :=
  fun f g => decidable_of_iff (List.ofFn f = List.ofFn g) List.ofFn_inj

instance : Fintype Byte :=
  Fintype.ofBijective (fun i : Fin 256 => (⟨i.val, i.isLt⟩ : Byte))
    ⟨fun a b h => by cases a; cases b; simpa [Fin.ext_iff] using congrArg Byte.val h,
     fun b => ⟨⟨b.val, b.isLt⟩, rfl⟩⟩

/-- The 32-byte extended state (two concatenated AES blocks), Rust `[u8; 32]`. -/
def Vec32 := Fin 32 → Byte

instance : AddCommGroup Vec32 := Pi.addCommGroup

instance : DecidableEq Vec32 := decEqFinFun

theorem Vec32.add_self (v : Vec32) : v + v = 0 := by
  funext i; exact Byte.add_self_cancel (v i)

/-- A 16-byte AES block, Rust `[u8; 16]`. -/
def Block16 := Fin 16 → Byte

instance : AddCommGroup Block16 := Pi.addCommGroup

instance : DecidableEq Block16 := decEqFinFun

/-- Bit `i` of `x` viewed in `GF(2)`. -/
def bitZ (x : Nat) (i : Nat) : ZMod 2 := if x.testBit i then 1 else 0

/-- Boolean to `GF(2)`. -/
def boolZ (b : Bool) : ZMod 2 := if b then 1 else 0

theorem boolZ_xor (a b : Bool) : boolZ (a.xor b) = boolZ a + boolZ b := by
  cases a <;> cases b <;> decide

theorem bitZ_xor (x y : Nat) (i : Nat) : bitZ (x ^^^ y) i = bitZ x i + bitZ y i := by
  have h := Nat.testBit_xor x y i
  unfold bitZ
  rw [h]
  cases hx : x.testBit i <;> cases hy : y.testBit i <;> decide

theorem bitZ_and (x y : Nat) (i : Nat) : bitZ (x &&& y) i = bitZ x i * bitZ y i := by
  have h := Nat.testBit_and x y i
  unfold bitZ
  rw [h]
  cases hx : x.testBit i <;> cases hy : y.testBit i <;> decide

theorem parityTo_eq_sum (k : Nat) (x : Nat) :
    boolZ (parityTo k x) = ∑ i ∈ Finset.range k, bitZ x i := by
  induction k with
  | zero => simp [parityTo, boolZ]
  | succ k ih =>
    rw [Finset.sum_range_succ, ← ih]
    show boolZ ((parityTo k x).xor (x.testBit k)) = _
    rw [boolZ_xor]
    rfl

theorem parity_eq_sum (x : Nat) :
    boolZ (parity x) = ∑ i ∈ Finset.range 256, bitZ x i := parityTo_eq_sum 256 x

theorem bitZ_of_lt {x k i : Nat} (hx : x < 2^k) (hi : k ≤ i) : bitZ x i = 0 := by
  unfold bitZ
  rw [Nat.testBit_lt_two_pow (lt_of_lt_of_le hx (Nat.pow_le_pow_right (by omega) hi))]
  rfl

/-!
RNG model.  The source is generic over `rand::RngCore`; we model it as an
infinite byte stream with a read position.  `next_u32` consumes four bytes
(little-endian), so `next_u32() as u8` is the byte at offset zero;
`fill_bytes(n)` consumes `n` bytes.
-/

/-- An RNG: an infinite stream of bytes and the current read position. -/
structure Rng where
  stream : Nat → Byte
  pos : Nat

/-- The byte at offset `k` from the current position. -/
def Rng.byteAt (rng : Rng) (k : Nat) : Byte := rng.stream (rng.pos + k)

/-- Advance the read position by `k` bytes. -/
def Rng.advance (rng : Rng) (k : Nat) : Rng := ⟨rng.stream, rng.pos + k⟩

/-- Read 32 bytes (`fill_bytes` on a `[u8; 32]` buffer) without advancing. -/
def Rng.read32 (rng : Rng) : Vec32 := fun i => rng.byteAt i.val

/-!
Generic bit-matrix Gaussian elimination, the common schema of
`Matrix8::invert` and `Matrix256::invert` (matrix.rs).  A row is a packed
natural number whose bit `j` is the entry in column `j`; the state is the
augmented pair `[left | right]` initialised to `[self | identity]`.
-/

/-- Elimination state: the two halves of the augmented matrix. -/
structure GaussState (n : Nat) where
  left : Fin n → Nat
  right : Fin n → Nat

/-- Pivot search: the first row at or below `col` whose bit `col` is set. -/
def pivotSearch (n : Nat) (left : Fin n → Nat) (col : Fin n) : Option (Fin n) :=
  (List.finRange n).find? (fun r => decide (col ≤ r) && (left r).testBit col.val)

/-- Swap rows `a` and `b`. -/
def swapRows {n : Nat} (f : Fin n → Nat) (a b : Fin n) : Fin n → Nat :=
  fun r => if r = a then f b else if r = b then f a else f r

/-- XOR row `col` into every other row whose bit `col` (of the left half,
`cond`) is set.  Each loop iteration of the source writes one row and reads
only row `col`, which it never writes, so the loop is this pointwise map. -/
def clearCol {n : Nat} (cond : Fin n → Nat) (col : Fin n) (f : Fin n → Nat) : Fin n → Nat :=
  fun r => if r ≠ col ∧ (cond r).testBit col.val then f r ^^^ f col else f r

/-- One column step of the elimination: pivot search, swap, clear. -/
def elimStep {n : Nat} (s : GaussState n) (col : Fin n) : Option (GaussState n) :=
  match pivotSearch n s.left col with
  | none => none
  | some p =>
    let l1 := swapRows s.left p col
    let r1 := swapRows s.right p col
    some ⟨clearCol l1 col l1, clearCol l1 col r1⟩

/-- Rows of the identity matrix: row `i` is `1 <<< i`. -/
def idRows (n : Nat) : Fin n → Nat := fun i => 2 ^ i.val

/-- Run the elimination over all columns in order. -/
def gaussSteps (n : Nat) (s : GaussState n) : Option (GaussState n) :=
  (List.finRange n).foldlM elimStep s

/-- Gaussian inversion of a packed bit matrix: on success the right half of
the augmented matrix is the inverse. -/
def gaussInvert (n : Nat) (rows : Fin n → Nat) : Option (Fin n → Nat) :=
  (gaussSteps n ⟨rows, idRows n⟩).map GaussState.right

/-!
8×8 GF(2) matrices (`Matrix8` in matrix.rs): one `u8` per row, bit `j` of
row `i` is the entry at `(i, j)`.
-/

/-- 8×8 binary matrix, one packed row per index. -/
structure Matrix8 where
  rows : Fin 8 → Nat

theorem Matrix8.ext8 {a b : Matrix8} (h : a.rows = b.rows) : a = b := by
  cases a; cases b; simpa using h

instance : DecidableEq Matrix8 := fun a b =>
  decidable_of_iff (a.rows = b.rows) ⟨Matrix8.ext8, congrArg Matrix8.rows⟩

/-- Row access with a `Nat` index (out-of-range reads return 0). -/
def Matrix8.row (m : Matrix8) (i : Nat) : Nat :=
  if h : i < 8 then m.rows ⟨i, h⟩ else 0

/-- The zero matrix. -/
def Matrix8.zero : Matrix8 := ⟨fun _ => 0⟩

/-- The identity matrix: row `i` is `1 << i`. -/
def Matrix8.identity : Matrix8 := ⟨idRows 8⟩

/-- Apply the matrix to a byte: result bit `i` is the parity of
`row_i AND v`. -/
def Matrix8.apply (m : Matrix8) (v : Byte) : Byte :=
  ⟨bitsToNat 8 (fun i => parity (m.row i &&& v.val)), by
    have := bitsToNat_lt 8 (fun i => parity (m.row i &&& v.val))
    omega⟩

/-- Matrix product `a * b`: each result row is the XOR, over the set bits
`j` of the corresponding row of `a`, of row `j` of `b` (the
`trailing_zeros` loop of the source). -/
def Matrix8.mul (a b : Matrix8) : Matrix8 :=
  ⟨fun r => (List.range 8).foldl
    (fun acc j => if (a.rows r).testBit j then acc ^^^ b.row j else acc) 0⟩

/-- Gaussian inversion (`Matrix8::invert`). -/
def Matrix8.invert (m : Matrix8) : Option Matrix8 :=
  (gaussInvert 8 m.rows).map Matrix8.mk

/-- Invertibility test (`Matrix8::is_invertible`). -/
def Matrix8.isInvertible (m : Matrix8) : Bool := m.invert.isSome

/-- Sample a uniformly random matrix: 8 rows, each a `next_u32() as u8`
draw (4 stream bytes consumed per row, low byte used). -/
def Matrix8.random (rng : Rng) : Matrix8 × Rng :=
  (⟨fun j => (rng.byteAt (4 * j.val)).val⟩, rng.advance 32)

/-- Rejection-sample an invertible matrix (`Matrix8::random_invertible`).
The source loops without bound; the embedding takes fuel and returns `none`
when the fuel is exhausted. -/
def Matrix8.randomInvertible : Nat → Rng → Option (Matrix8 × Rng)
  | 0, _ => none
  | fuel+1, rng =>
    let (candidate, rng1) := Matrix8.random rng
    if candidate.isInvertible then some (candidate, rng1)
    else Matrix8.randomInvertible fuel rng1

/-!
256×256 GF(2) matrices (`Matrix256` in matrix.rs).  The source stores each
row as four little-endian `u64` words; the embedding packs a row into one
natural number whose bit `c` is the entry in column `c`.
-/

/-- 256×256 binary matrix, one packed row per index. -/
structure Matrix256 where
  rows : Fin 256 → Nat

theorem Matrix256.ext256 {a b : Matrix256} (h : a.rows = b.rows) : a = b := by
  cases a; cases b; simpa using h

instance : DecidableEq Matrix256 := fun a b =>
  decidable_of_iff (a.rows = b.rows) ⟨Matrix256.ext256, congrArg Matrix256.rows⟩

/-- Row access with a `Nat` index (out-of-range reads return 0). -/
def Matrix256.row (m : Matrix256) (i : Nat) : Nat :=
  if h : i < 256 then m.rows ⟨i, h⟩ else 0

/-- The zero matrix. -/
def Matrix256.zero : Matrix256 := ⟨fun _ => 0⟩

/-- The identity matrix. -/
def Matrix256.identity : Matrix256 := ⟨idRows 256⟩

/-- Read the bit at `(row, col)` (`Matrix256::bit`). -/
def Matrix256.bit (m : Matrix256) (r c : Nat) : Bool := (m.row r).testBit c

/-- Clear bit `c` of a packed row (`rows[row][segment] &= !mask`). -/
def clearBitNat (n c : Nat) : Nat := if n.testBit c then n ^^^ 2^c else n

theorem testBit_clearBitNat (n c i : Nat) :
    (clearBitNat n c).testBit i = (n.testBit i && !(decide (c = i))) := by
  unfold clearBitNat
  by_cases h : n.testBit c
  · rw [if_pos h, Nat.testBit_xor, Nat.testBit_two_pow]
    by_cases hci : c = i
    · subst hci; rw [h]; simp
    · simp [hci]
  · rw [if_neg h]
    by_cases hci : c = i
    · subst hci; rw [Bool.eq_false_iff.mpr h]; simp
    · simp [hci]

/-- Write the 8 bits of `b` into a packed row at bit positions
`8*cb .. 8*cb+7`, after clearing that range (the per-row effect of
`Matrix256::clear_block` followed by the `set_bit` loop of
`Matrix256::set_block`). -/
def setBlockRow (row : Nat) (cb : Nat) (b : Nat) : Nat :=
  (List.range 8).foldl (fun acc c => if b.testBit c then acc ||| 2^(8*cb+c) else acc)
    ((List.range 8).foldl (fun acc c => clearBitNat acc (8*cb+c)) row)

/-- Replace the 8×8 block at `(rb, cb)` (`Matrix256::set_block`, which first
calls `clear_block`).  Rows outside `8*rb .. 8*rb+7` are untouched. -/
def Matrix256.setBlock (m : Matrix256) (rb cb : Nat) (blk : Matrix8) : Matrix256 :=
  ⟨fun r => if r.val / 8 = rb then setBlockRow (m.rows r) cb (blk.row (r.val % 8)) else m.rows r⟩

/-- Extract the 8×8 block at `(rb, cb)` (`Matrix256::block`). -/
def Matrix256.block (m : Matrix256) (rb cb : Nat) : Matrix8 :=
  ⟨fun ro => bitsToNat 8 (fun c => m.bit (8*rb + ro.val) (8*cb + c))⟩

/-- Matrix product `a * b`, as in `Matrix256::mul`: each result row is the
XOR over the set bits `j` of the source row of row `j` of `rhs`. -/
def Matrix256.mul (a b : Matrix256) : Matrix256 :=
  ⟨fun r => (List.range 256).foldl
    (fun acc j => if (a.rows r).testBit j then acc ^^^ b.row j else acc) 0⟩

/-- Gaussian inversion (`Matrix256::invert`). -/
def Matrix256.invert (m : Matrix256) : Option Matrix256 :=
  (gaussInvert 256 m.rows).map Matrix256.mk

/-- Invertibility test (`Matrix256::is_invertible`). -/
def Matrix256.isInvertible (m : Matrix256) : Bool := m.invert.isSome

/-- A 32-byte vector as a 256-bit natural, little-endian bytes and bits
(`bytes_to_segments`): bit `k` of the value is bit `k % 8` of byte `k / 8`. -/
def bytesToNat (v : Vec32) : Nat :=
  bitsToNat 256 (fun k => if h : k < 256 then (v ⟨k/8, by omega⟩).val.testBit (k % 8) else false)

/-- Apply the matrix to a 32-byte vector (`Matrix256::apply_to_bytes`):
result bit `r` is the parity of `row_r AND x`; the packed result is returned
as little-endian bytes (`segments_to_bytes`). -/
def Matrix256.applyToBytes (m : Matrix256) (v : Vec32) : Vec32 :=
  fun i => ⟨bitsToNat 8 (fun j => parity (m.row (8*i.val + j) &&& bytesToNat v)), by
    have := bitsToNat_lt 8 (fun j => parity (m.row (8*i.val + j) &&& bytesToNat v))
    omega⟩

/-- The 32-byte vector whose byte `i` is `1 << b` and whose other bytes are
zero (the basis inputs of `submatrix_byte_map`). -/
def unitVec (i : Fin 32) (b : Nat) : Vec32 :=
  fun k => if k = i then Byte.ofNat (1 <<< b) else 0

/-- Precomputed map `v ↦ M · (v at byte i)` (`Matrix256::submatrix_byte_map`):
the 8 basis outputs `M · (1 << b  at byte i)` are XOR-combined along the set
bits of `v`. -/
def Matrix256.submatrixByteMap (m : Matrix256) (i : Fin 32) : Byte → Vec32 :=
  fun v => (List.range 8).foldl
    (fun acc b => if v.val.testBit b then acc + m.applyToBytes (unitVec i b) else acc) 0

/-- One attempt of `Matrix256::random_sparse_unsplit`: the 32 diagonal
blocks, sampled invertible, in index order. -/
def sampleDiagBlocks (fuel : Nat) : List Nat → Matrix256 → Rng → Option (Matrix256 × Rng)
  | [], m, rng => some (m, rng)
  | k :: ks, m, rng =>
    match Matrix8.randomInvertible fuel rng with
    | none => none
    | some (d, rng1) => sampleDiagBlocks fuel ks (m.setBlock k k d) rng1

/-- The 31 super-diagonal blocks of one attempt, sampled arbitrary. -/
def sampleSuperBlocks : List Nat → Matrix256 → Rng → Matrix256 × Rng
  | [], m, rng => (m, rng)
  | k :: ks, m, rng =>
    let (s, rng1) := Matrix8.random rng
    sampleSuperBlocks ks (m.setBlock k (k+1) s) rng1

/-- One full candidate of `Matrix256::random_sparse_unsplit`: diagonal
blocks, super-diagonal blocks, then the wrap block at `(31, 0)`. -/
def sparseAttempt (fuel : Nat) (rng : Rng) : Option (Matrix256 × Rng) :=
  match sampleDiagBlocks fuel (List.range 32) Matrix256.zero rng with
  | none => none
  | some (m1, rng1) =>
    let (m2, rng2) := sampleSuperBlocks (List.range 31) m1 rng1
    let (w, rng3) := Matrix8.random rng2
    some (m2.setBlock 31 0 w, rng3)

/-- `Matrix256::random_sparse_unsplit`: rejection-sample sparse-banded
candidates until one is globally invertible.  The source loops without
bound; the embedding takes fuel. -/
def Matrix256.randomSparseUnsplit : Nat → Rng → Option (Matrix256 × Rng)
  | 0, _ => none
  | fuel+1, rng =>
    match sparseAttempt (fuel+1) rng with
    | none => none
    | some (m, rng1) =>
      if m.isInvertible then some (m, rng1)
      else Matrix256.randomSparseUnsplit fuel rng1

/-!
Affine encodings over GF(2) (`Affine256` in affine.rs).
-/

/-- 256-bit affine map `x ↦ lin · x ⊕ bias`. -/
structure Affine256 where
  lin : Matrix256
  bias : Vec32

/-- The identity affine map. -/
def Affine256.identity : Affine256 := ⟨Matrix256.identity, 0⟩

/-- `Affine256::random_sparse_unsplit`: a sparse unsplit invertible linear
part, then 32 random bias bytes. -/
def Affine256.randomSparseUnsplit (fuel : Nat) (rng : Rng) : Option (Affine256 × Rng) :=
  match Matrix256.randomSparseUnsplit fuel rng with
  | none => none
  | some (lin, rng1) => some (⟨lin, rng1.read32⟩, rng1.advance 32)

/-- `Affine256::apply`. -/
def Affine256.apply (a : Affine256) (v : Vec32) : Vec32 :=
  a.lin.applyToBytes v + a.bias

/-- `Affine256::invert`: `(lin⁻¹, lin⁻¹ · bias)`. -/
def Affine256.invert (a : Affine256) : Option Affine256 :=
  match a.lin.invert with
  | none => none
  | some linInv => some ⟨linInv, linInv.applyToBytes a.bias⟩

/-- `Affine256::compose`: `(a ∘ b)(x) = a.lin·b.lin·x ⊕ a.lin·b.bias ⊕ a.bias`. -/
def Affine256.compose (a b : Affine256) : Affine256 :=
  ⟨a.lin.mul b.lin, a.bias + a.lin.applyToBytes b.bias⟩

/-!
Reference AES-128 (aes-core).  The `sbox` module is not present in the
source tree; its table is modelled from the spec.  The remaining round
operations and the key schedule are translated from round.rs and cipher.rs.
-/

/-- Modelled from the spec: the FIPS-197 forward S-box table consumed as
`sbox(byte) → byte` (src/crates/aes-core declares `mod sbox` but sbox.rs is
not under src/; the spec fixes it to be the AES forward S-box). -/
def sboxList : List Nat :=
  [0x63, 0x7c, 0x77, 0x7b, 0xf2, 0x6b, 0x6f, 0xc5, 0x30, 0x01, 0x67, 0x2b, 0xfe, 0xd7, 0xab, 0x76,
   0xca, 0x82, 0xc9, 0x7d, 0xfa, 0x59, 0x47, 0xf0, 0xad, 0xd4, 0xa2, 0xaf, 0x9c, 0xa4, 0x72, 0xc0,
   0xb7, 0xfd, 0x93, 0x26, 0x36, 0x3f, 0xf7, 0xcc, 0x34, 0xa5, 0xe5, 0xf1, 0x71, 0xd8, 0x31, 0x15,
   0x04, 0xc7, 0x23, 0xc3, 0x18, 0x96, 0x05, 0x9a, 0x07, 0x12, 0x80, 0xe2, 0xeb, 0x27, 0xb2, 0x75,
   0x09, 0x83, 0x2c, 0x1a, 0x1b, 0x6e, 0x5a, 0xa0, 0x52, 0x3b, 0xd6, 0xb3, 0x29, 0xe3, 0x2f, 0x84,
   0x53, 0xd1, 0x00, 0xed, 0x20, 0xfc, 0xb1, 0x5b, 0x6a, 0xcb, 0xbe, 0x39, 0x4a, 0x4c, 0x58, 0xcf,
   0xd0, 0xef, 0xaa, 0xfb, 0x43, 0x4d, 0x33, 0x85, 0x45, 0xf9, 0x02, 0x7f, 0x50, 0x3c, 0x9f, 0xa8,
   0x51, 0xa3, 0x40, 0x8f, 0x92, 0x9d, 0x38, 0xf5, 0xbc, 0xb6, 0xda, 0x21, 0x10, 0xff, 0xf3, 0xd2,
   0xcd, 0x0c, 0x13, 0xec, 0x5f, 0x97, 0x44, 0x17, 0xc4, 0xa7, 0x7e, 0x3d, 0x64, 0x5d, 0x19, 0x73,
   0x60, 0x81, 0x4f, 0xdc, 0x22, 0x2a, 0x90, 0x88, 0x46, 0xee, 0xb8, 0x14, 0xde, 0x5e, 0x0b, 0xdb,
   0xe0, 0x32, 0x3a, 0x0a, 0x49, 0x06, 0x24, 0x5c, 0xc2, 0xd3, 0xac, 0x62, 0x91, 0x95, 0xe4, 0x79,
   0xe7, 0xc8, 0x37, 0x6d, 0x8d, 0xd5, 0x4e, 0xa9, 0x6c, 0x56, 0xf4, 0xea, 0x65, 0x7a, 0xae, 0x08,
   0xba, 0x78, 0x25, 0x2e, 0x1c, 0xa6, 0xb4, 0xc6, 0xe8, 0xdd, 0x74, 0x1f, 0x4b, 0xbd, 0x8b, 0x8a,
   0x70, 0x3e, 0xb5, 0x66, 0x48, 0x03, 0xf6, 0x0e, 0x61, 0x35, 0x57, 0xb9, 0x86, 0xc1, 0x1d, 0x9e,
   0xe1, 0xf8, 0x98, 0x11, 0x69, 0xd9, 0x8e, 0x94, 0x9b, 0x1e, 0x87, 0xe9, 0xce, 0x55, 0x28, 0xdf,
   0x8c, 0xa1, 0x89, 0x0d, 0xbf, 0xe6, 0x42, 0x68, 0x41, 0x99, 0x2d, 0x0f, 0xb0, 0x54, 0xbb, 0x16]

/-- The AES forward S-box as a byte map. -/
def sbox (b : Byte) : Byte := Byte.ofNat (sboxList.getD b.val 0)

/-- `sub_bytes`: the S-box applied to every state byte. -/
def subBytes (s : Block16) : Block16 := fun i => sbox (s i)

/-- The source index table of `shift_rows` (round.rs writes
`tmp[i] = state[shiftRowsIdx i]`). -/
def shiftRowsIdx (i : Fin 16) : Fin 16 :=
  ⟨[0, 5, 10, 15, 4, 9, 14, 3, 8, 13, 2, 7, 12, 1, 6, 11].getD i.val 0, by
    rcases i with ⟨v, hv⟩
    interval_cases v <;> simp⟩

/-- `shift_rows`. -/
def shiftRows (s : Block16) : Block16 := fun i => s (shiftRowsIdx i)

/-- `xtime`: multiplication by `x` in GF(2⁸); the `u8` left shift wraps. -/
def xtime (b : Byte) : Byte :=
  let shifted := Byte.ofNat (b.val <<< 1)
  if b.val &&& 0x80 ≠ 0 then Byte.ofNat (shifted.val ^^^ 0x1b) else shifted

/-- `mix_single_column` output row `r` for column bytes `a0 a1 a2 a3`. -/
def mixSingleColumn (a0 a1 a2 a3 : Byte) (r : Nat) : Byte :=
  if r = 0 then xtime a0 + (xtime a1 + a1) + a2 + a3
  else if r = 1 then a0 + xtime a1 + (xtime a2 + a2) + a3
  else if r = 2 then a0 + a1 + xtime a2 + (xtime a3 + a3)
  else (xtime a0 + a0) + a1 + a2 + xtime a3

/-- `mix_columns`: `mix_single_column` on each of the four columns
(bytes `4c .. 4c+3`). -/
def mixColumns (s : Block16) : Block16 := fun i =>
  let c := i.val / 4
  mixSingleColumn (s ⟨4*c, by omega⟩) (s ⟨4*c+1, by omega⟩)
    (s ⟨4*c+2, by omega⟩) (s ⟨4*c+3, by omega⟩) (i.val % 4)

/-- `add_round_key`: bytewise XOR. -/
def addRoundKey (s : Block16) (rk : Block16) : Block16 := s + rk

/-- The round constants of the key schedule. -/
def RCON : List Nat := [0x01, 0x02, 0x04, 0x08, 0x10, 0x20, 0x40, 0x80, 0x1b, 0x36]

/-- `rot_word`: `u32` left rotation by 8. -/
def rotWordN (w : Nat) : Nat := ((w <<< 8) % 2^32) ||| (w >>> 24)

/-- `sub_word`: the S-box on each big-endian byte of a `u32`. -/
def subWordN (w : Nat) : Nat :=
  ((sbox (Byte.ofNat (w >>> 24))).val <<< 24) ||| ((sbox (Byte.ofNat (w >>> 16))).val <<< 16) |||
    ((sbox (Byte.ofNat (w >>> 8))).val <<< 8) ||| (sbox (Byte.ofNat w)).val

/-- A big-endian `u32` from four bytes (`u32::from_be_bytes`). -/
def beWord (b0 b1 b2 b3 : Byte) : Nat :=
  (b0.val <<< 24) ||| (b1.val <<< 16) ||| (b2.val <<< 8) ||| b3.val

/-- The next word of the `expand_key` recurrence, given the already
computed words. -/
def nextKeyWord (key : Block16) (i : Nat) (prev : List Nat) : Nat :=
  if h : i < 4 then
    beWord (key ⟨4*i, by omega⟩) (key ⟨4*i+1, by omega⟩) (key ⟨4*i+2, by omega⟩)
      (key ⟨4*i+3, by omega⟩)
  else
    let wim1 := prev.getD (i-1) 0
    let wim4 := prev.getD (i-4) 0
    wim4 ^^^ (if i % 4 = 0 then subWordN (rotWordN wim1) ^^^ ((RCON.getD (i/4 - 1) 0) <<< 24)
      else wim1)

/-- The first `n` words of the expanded key, in order. -/
def keyWordsAux (key : Block16) : Nat → List Nat
  | 0 => []
  | i+1 =>
    let prev := keyWordsAux key i
    prev ++ [nextKeyWord key i prev]

/-- Word `i` of the expanded key (`expand_key` fills `w[0..44]`). -/
def keyWord (key : Block16) (i : Nat) : Nat := (keyWordsAux key 44).getD i 0

/-- Big-endian byte `j` of a `u32` (`to_be_bytes`). -/
def wordByte (w : Nat) (j : Nat) : Byte := Byte.ofNat (w >>> (8 * (3 - j)))

/-- Round key `r` (`expand_key` output: word `4r + c` supplies bytes
`4c .. 4c+3` big-endian). -/
def roundKey (key : Block16) (r : Nat) : Block16 :=
  fun b => wordByte (keyWord key (4*r + b.val/4)) (b.val % 4)

/-- `encrypt_block`: initial AddRoundKey, nine full rounds, final round
without MixColumns. -/
def encryptBlock (b : Block16) (key : Block16) : Block16 :=
  let s0 := addRoundKey b (roundKey key 0)
  let s9 := (List.range' 1 9).foldl
    (fun s r => addRoundKey (mixColumns (shiftRows (subBytes s))) (roundKey key r)) s0
  addRoundKey (shiftRows (subBytes s9)) (roundKey key 10)

/-!
AES linear layers as matrices (linear.rs).  `from_linear_transform` and
`sr_matrix_256` are exported by the crate but their definitions are not
under src/; both are modelled from the spec.
-/

/-- First half of a 32-byte state. -/
def firstHalf (v : Vec32) : Block16 := fun i => v ⟨i.val, by omega⟩

/-- Second half of a 32-byte state. -/
def secondHalf (v : Vec32) : Block16 := fun i => v ⟨i.val + 16, by omega⟩

/-- Join two 16-byte halves into a 32-byte state. -/
def joinHalves (a b : Block16) : Vec32 := fun k =>
  if h : k.val < 16 then a ⟨k.val, h⟩ else b ⟨k.val - 16, by omega⟩

/-- Apply a block transformation to both halves of the doubled state. -/
def bothHalves (f : Block16 → Block16) (v : Vec32) : Vec32 :=
  joinHalves (f (firstHalf v)) (f (secondHalf v))

/-- Modelled from the spec: `Matrix256::from_linear_transform(f)` computes
`f(e_i)` for each basis vector `e_i` and stores it as column `i` (the
definition is exported by wbaes-gen but absent from the matrix.rs under
src/). -/
def Matrix256.fromLinearTransform (f : Vec32 → Vec32) : Matrix256 :=
  ⟨fun r => bitsToNat 256 (fun c =>
    if h : c < 256 then
      ((f (unitVec ⟨c/8, by omega⟩ (c % 8))) ⟨r.val/8, by omega⟩).val.testBit (r.val % 8)
    else false)⟩

/-- `ShiftRows` then `MixColumns` on one block (`apply_mc_sr`). -/
def applyMcSr (b : Block16) : Block16 := mixColumns (shiftRows b)

/-- `mc_sr_matrix_256`: the matrix of `MC ∘ SR` on both halves. -/
def mcSrMatrix256 : Matrix256 := Matrix256.fromLinearTransform (bothHalves applyMcSr)

/-- Modelled from the spec: `sr_matrix_256()` — same as `mc_sr_matrix_256`
but `ShiftRows` only (used for the final round; exported by the crate but
absent from the linear.rs under src/). -/
def srMatrix256 : Matrix256 := Matrix256.fromLinearTransform (bothHalves shiftRows)

/-!
Tables (tables.rs).  A `Table16x256` stores one 32-byte entry per input
pair; since the generator writes every entry exactly once, the table is
embedded as its lookup function.
-/

/-- A `(x, y) ∈ u8 × u8 → [u8; 32]` lookup table. -/
structure Table16x256 where
  get : Byte → Byte → Vec32

/-- The 32 tables of one round. -/
structure RoundTables where
  tables : Fin 32 → Table16x256

/-- A throwaway mask table `u8 → [u8; 32]`. -/
structure HTable where
  get : Byte → Vec32

/-- `HTable::random`: 256 entries, each a sequential `fill_bytes(32)`
(entry `x` reads the 32 stream bytes at offset `32*x`). -/
def HTable.random (rng : Rng) : HTable × Rng :=
  (⟨fun x => (rng.advance (32 * x.val)).read32⟩, rng.advance 8192)

/-!
The generator (generator.rs).
-/

/-- Generator configuration. -/
structure GeneratorConfig where
  external_encodings : Bool

/-- `duplicate_round_key`: the 16-byte round key copied into both halves. -/
def duplicateRoundKey (rk : Block16) : Vec32 :=
  fun i => if h : i.val < 16 then rk ⟨i.val, h⟩ else rk ⟨i.val - 16, by omega⟩

/-- One iteration of the `split_biases` loop: draw a 32-byte share into
slot `j` and XOR it into the accumulator. -/
def splitStep (st : (Fin 32 → Vec32) × Vec32 × Rng) (j : Fin 32) :
    (Fin 32 → Vec32) × Vec32 × Rng :=
  (Function.update st.1 j st.2.2.read32, st.2.1 + st.2.2.read32, st.2.2.advance 32)

/-- `split_biases`: 31 random 32-byte shares, with the 32nd set to
`target ⊕ (XOR of the first 31)`.  The fold mirrors the source loop over
`biases.iter_mut().take(31)`, accumulating the XOR of the drawn shares. -/
def splitBiases (rng : Rng) (target : Vec32) : (Fin 32 → Vec32) × Rng :=
  let st := ((List.finRange 32).take 31).foldl splitStep (fun _ => 0, 0, rng)
  (Function.update st.1 31 (target + st.2.1), st.2.2)

/-- The 32 mask tables of one round, drawn sequentially
(`std::array::from_fn(|_| HTable::random(rng))`; table `t` starts at
stream offset `8192*t`). -/
def sampleHTables (rng : Rng) : (Fin 32 → HTable) × Rng :=
  (fun t => (HTable.random (rng.advance (8192 * t.val))).1, rng.advance (8192 * 32))

/-- The entry loop of `build_round`, abstracted over the data it reads: for
each byte position `i` and every `(x, y)`, decode `z` through the two
non-zero blocks of row-block `i` of `A_curr`, apply the S-box, and mask
with the bias share and the two `h` tables. -/
def buildRoundTables (a_curr : Affine256) (bMaps : Fin 32 → Byte → Vec32)
    (bBiases : Fin 32 → Vec32) (hTables : Fin 32 → HTable) : RoundTables :=
  ⟨fun i => ⟨fun x y =>
    let block_left := a_curr.lin.block i.val i.val
    let block_right := if i.val = 31 then a_curr.lin.block i.val 0
      else a_curr.lin.block i.val (i.val + 1)
    let z := block_left.apply x + block_right.apply y + a_curr.bias i
    let t := sbox z
    bMaps i t + bBiases i + (hTables i).get x +
      (hTables ⟨(i.val + 1) % 32, by omega⟩).get y⟩⟩

/-- `build_round`: invert the next affine, push the linear layer and the
round key through it, split the bias, sample the masks, and fill the
tables. -/
def buildRound (rng : Rng) (a_curr next_affine : Affine256) (linear_layer : Matrix256)
    (round_key_block : Vec32) : Option (RoundTables × Rng) :=
  match next_affine.lin.invert with
  | none => none
  | some next_inv =>
    let b_lin := next_inv.mul linear_layer
    let b_bias_target := next_inv.applyToBytes next_affine.bias +
      next_inv.applyToBytes round_key_block
    let st := splitBiases rng b_bias_target
    let b_maps := fun i => b_lin.submatrixByteMap i
    let ht := sampleHTables st.2
    some (buildRoundTables a_curr b_maps st.1 ht.1, ht.2)

/-!
Instance container (instance.rs).
-/

/-- Scheme identifier. -/
inductive SchemeId where
  | BaekCheonHong2016
  deriving DecidableEq

/-- Static parameters describing the instance. -/
structure InstanceParams where
  rounds : Nat
  block_bytes : Nat
  table_input_bits : Nat
  table_output_bits : Nat
  ma_bits : Nat
  scheme : SchemeId
  version : Nat
  deriving DecidableEq

/-- The `Default` parameters: version 1 of the Baek–Cheon–Hong scheme. -/
def InstanceParams.default : InstanceParams :=
  ⟨10, 32, 16, 256, 256, SchemeId.BaekCheonHong2016, 1⟩

/-- External encodings of an instance. -/
structure ExternalEncodings where
  input : Affine256
  output : Option Affine256

/-- A complete white-box instance. -/
structure WbInstance256 where
  rounds : Fin 10 → RoundTables
  encodings : ExternalEncodings
  params : InstanceParams

/-!
The generator entry point (`Generator::generate_instance`).
-/

/-- The ten sampled round encodings `A^(1) .. A^(10)`, in order. -/
def sampleAEncodings (fuel : Nat) : Nat → Rng → Option (List Affine256 × Rng)
  | 0, rng => some ([], rng)
  | k+1, rng =>
    match Affine256.randomSparseUnsplit fuel rng with
    | none => none
    | some (a, rng1) =>
      match sampleAEncodings fuel k rng1 with
      | none => none
      | some (rest, rng2) => some (a :: rest, rng2)

/-- The round loop of `generate_instance`: builds rounds `r, r+1, …, 9`.
`aGet r` is `a_encodings[r]`; for `r = 9` the next affine is `M_out` when
present and the identity otherwise, and the linear layer drops MixColumns. -/
def buildRounds (aGet : Nat → Affine256) (mout : Option Affine256) (key : Block16)
    (mc_sr sr_only : Matrix256) : Nat → Rng → Option (List RoundTables × Rng)
  | r, rng =>
    if h : r < 10 then
      let a_curr := aGet r
      let next_affine := if r = 9 then mout.getD Affine256.identity else aGet (r+1)
      let linear_layer := if r = 9 then sr_only else mc_sr
      let round_key_block := duplicateRoundKey (roundKey key (r+1))
      match buildRound rng a_curr next_affine linear_layer round_key_block with
      | none => none
      | some (rt, rng1) =>
        match buildRounds aGet mout key mc_sr sr_only (r+1) rng1 with
        | none => none
        | some (rest, rng2) => some (rt :: rest, rng2)
    else some ([], rng)
  termination_by r => 10 - r

/-- `Generator::generate_instance`.  The `expect` calls of the source
(panics) and the unbounded sampling loops surface as `none`. -/
def generateInstance (fuel : Nat) (key : Block16) (rng : Rng) (config : GeneratorConfig) :
    Option WbInstance256 :=
  let mc_sr := mcSrMatrix256
  let sr_only := srMatrix256
  let key0_block := duplicateRoundKey (roundKey key 0)
  let key0_affine : Affine256 := ⟨Matrix256.identity, key0_block⟩
  match sampleAEncodings fuel 10 rng with
  | none => none
  | some (a_encodings, rng1) =>
    let minmout : Option ((Affine256 × Option Affine256) × Rng) :=
      if config.external_encodings then
        match Affine256.randomSparseUnsplit fuel rng1 with
        | none => none
        | some (min_enc, rng2) =>
          match Affine256.randomSparseUnsplit fuel rng2 with
          | none => none
          | some (mout_enc, rng3) => some ((min_enc, some mout_enc), rng3)
      else some ((Affine256.identity, none), rng1)
    match minmout with
    | none => none
    | some ((min_encoding, mout_encoding), rng4) =>
      match (a_encodings.getD 0 Affine256.identity).invert with
      | none => none
      | some a1_inv =>
        let min_total := min_encoding.compose key0_affine
        let input_encoding := a1_inv.compose min_total
        match buildRounds (fun r => a_encodings.getD r Affine256.identity) mout_encoding
            key mc_sr sr_only 0 rng4 with
        | none => none
        | some (roundsList, _) =>
          some { rounds := fun r => roundsList.getD r.val ⟨fun _ => ⟨fun _ _ => 0⟩⟩
                 encodings := { input := input_encoding, output := none }
                 params := InstanceParams.default }

/-!
Runtime evaluator.  The wbaes-runtime crate under src/ is only a
placeholder scaffold; `WbCipher256::encrypt_block` is modelled from the
spec (§4.5 Runtime Evaluator).
-/

/-- The XOR accumulation of one round: `S' = [0; 32]`, then
`S' ⊕= tables[i].get(S[i], S[(i+1) mod 32])` for `i = 0 .. 31`. -/
def roundEval (rt : RoundTables) (S : Vec32) : Vec32 :=
  (List.finRange 32).foldl
    (fun acc i => acc + (rt.tables i).get (S i) (S ⟨(i.val + 1) % 32, by omega⟩)) 0

/-- Modelled from the spec: the runtime evaluator (`WbCipher256` is called
by examples, CLI and benches, but wbaes-runtime/src/lib.rs under src/ is a
stub).  §4.5: apply `encodings.input`, run the ten table rounds combined by
XOR, then apply `encodings.output` when present. -/
def WbInstance256.evaluate (inst : WbInstance256) (P : Vec32) : Vec32 :=
  let S0 := inst.encodings.input.apply P
  let S10 := (List.finRange 10).foldl (fun S r => roundEval (inst.rounds r) S) S0
  match inst.encodings.output with
  | some o => o.apply S10
  | none => S10

/-!
Serialization (instance.rs).  `to_bytes` and `from_bytes` delegate to the
external `bincode` crate, which the spec leaves out of scope ("use any
self-describing binary framing").  The codec is modelled as a faithful
abstract framing: a well-formed blob is identified with the instance it
encodes.
-/

/-- A serialized blob, modelled as the instance it faithfully encodes. -/
structure SerializedBlob where
  payload : WbInstance256

/-- Serialization error (`bincode::Error`). -/
inductive SerError where
  | malformed

/-- `WbInstance256::to_bytes`: `bincode::serialize(self)`. -/
def WbInstance256.toBytes (inst : WbInstance256) : Except SerError SerializedBlob :=
  .ok ⟨inst⟩

/-- `WbInstance256::from_bytes`: `bincode::deserialize(bytes)` and nothing
else — the source performs no validation of the decoded value. -/
def WbInstance256.fromBytes (blob : SerializedBlob) : Except SerError WbInstance256 :=
  .ok blob.payload

/-!
Bridge to GF(2) linear algebra: packed rows become Mathlib matrices over
`ZMod 2`, and 32-byte states become bit vectors.
-/

/-- The GF(2) row vector of a packed row. -/
def rowZ {n : Nat} (x : Nat) : Fin n → ZMod 2 := fun c => bitZ x c.val

/-- The GF(2) matrix of packed rows. -/
def toMat {n : Nat} (f : Fin n → Nat) : Matrix (Fin n) (Fin n) (ZMod 2) :=
  Matrix.of fun r c => bitZ (f r) c.val

/-- The GF(2) column vector of a 32-byte state. -/
def vecZ (v : Vec32) : Fin 256 → ZMod 2 := fun k => bitZ (bytesToNat v) k.val

theorem testBit_bytesToNat (v : Vec32) (k : Nat) :
    (bytesToNat v).testBit k =
      (decide (k < 256) && (if h : k < 256 then (v ⟨k/8, by omega⟩).val.testBit (k % 8)
        else false)) := by
  unfold bytesToNat
  rw [testBit_bitsToNat]

theorem testBit_bytesToNat_lt (v : Vec32) (k : Nat) (h : k < 256) :
    (bytesToNat v).testBit k = (v ⟨k/8, by omega⟩).val.testBit (k % 8) := by
  rw [testBit_bytesToNat]
  simp [h]

theorem bytesToNat_lt (v : Vec32) : bytesToNat v < 2^256 := bitsToNat_lt _ _

theorem byte_testBit_ge (b : Byte) (j : Nat) (hj : 8 ≤ j) : b.val.testBit j = false :=
  Nat.testBit_lt_two_pow (lt_of_lt_of_le b.isLt (by
    calc (256:Nat) = 2^8 := by norm_num
    _ ≤ 2^j := Nat.pow_le_pow_right (by omega) hj))

theorem bytesToNat_inj {u v : Vec32} (h : bytesToNat u = bytesToNat v) : u = v := by
  funext i
  apply Byte.extVal
  apply Nat.eq_of_testBit_eq
  intro j
  by_cases hj : j < 8
  · have hfin : (⟨(8*i.val + j)/8, by omega⟩ : Fin 32) = i := Fin.ext (by
      show (8*i.val + j)/8 = i.val
      omega)
    have h1 := testBit_bytesToNat_lt u (8*i.val + j) (by omega)
    have h2 := testBit_bytesToNat_lt v (8*i.val + j) (by omega)
    rw [hfin] at h1 h2
    have hmod : (8*i.val + j) % 8 = j := by omega
    rw [hmod] at h1 h2
    rw [← h1, ← h2, h]
  · rw [byte_testBit_ge _ _ (by omega), byte_testBit_ge _ _ (by omega)]

theorem bytesToNat_add (u v : Vec32) :
    bytesToNat (u + v) = bytesToNat u ^^^ bytesToNat v := by
  apply Nat.eq_of_testBit_eq
  intro k
  rw [Nat.testBit_xor]
  by_cases hk : k < 256
  · rw [testBit_bytesToNat_lt _ _ hk, testBit_bytesToNat_lt _ _ hk,
      testBit_bytesToNat_lt _ _ hk]
    have : ((u + v) ⟨k/8, by omega⟩).val = (u ⟨k/8, by omega⟩).val ^^^ (v ⟨k/8, by omega⟩).val :=
      rfl
    rw [this, Nat.testBit_xor]
  · have hb : ∀ w : Vec32, (bytesToNat w).testBit k = false := by
      intro w
      exact Nat.testBit_lt_two_pow
        (lt_of_lt_of_le (bytesToNat_lt w) (Nat.pow_le_pow_right (by omega) (by omega)))
    rw [hb, hb, hb]
    rfl

theorem vecZ_add (u v : Vec32) : vecZ (u + v) = vecZ u + vecZ v := by
  funext k
  show bitZ (bytesToNat (u + v)) k.val = bitZ (bytesToNat u) k.val + bitZ (bytesToNat v) k.val
  rw [bytesToNat_add, bitZ_xor]

theorem vecZ_zero : vecZ 0 = 0 := by
  funext k
  show bitZ (bytesToNat 0) k.val = 0
  unfold bitZ
  rw [testBit_bytesToNat_lt _ _ k.isLt]
  show (if ((0:Byte).val.testBit (k.val % 8)) then (1 : ZMod 2) else 0) = 0
  rw [Byte.val_zero, Nat.zero_testBit]
  rfl

theorem vecZ_inj {u v : Vec32} (h : vecZ u = vecZ v) : u = v := by
  apply bytesToNat_inj
  apply Nat.eq_of_testBit_eq
  intro k
  by_cases hk : k < 256
  · have := congrFun h ⟨k, hk⟩
    unfold vecZ bitZ at this
    by_cases h1 : (bytesToNat u).testBit k <;> by_cases h2 : (bytesToNat v).testBit k <;>
      simp [h1, h2] at this ⊢
  · rw [Nat.testBit_lt_two_pow, Nat.testBit_lt_two_pow]
    · exact lt_of_lt_of_le (bytesToNat_lt v) (Nat.pow_le_pow_right (by omega) (by omega))
    · exact lt_of_lt_of_le (bytesToNat_lt u) (Nat.pow_le_pow_right (by omega) (by omega))

/-- Parity of a masked row is the GF(2) dot product with the bit vector. -/
theorem parity_and_dot (a x : Nat) :
    boolZ (parity (a &&& x)) = ∑ c : Fin 256, bitZ a c.val * bitZ x c.val := by
  rw [parity_eq_sum]
  rw [← Fin.sum_univ_eq_sum_range (fun i => bitZ (a &&& x) i) 256]
  exact Finset.sum_congr rfl fun c _ => bitZ_and a x c.val

theorem matrix256_row_eq (m : Matrix256) (k : Nat) (h : k < 256) :
    m.row k = m.rows ⟨k, h⟩ := dif_pos h

/-- `apply_to_bytes` is matrix–vector multiplication over GF(2). -/
theorem vecZ_applyToBytes (m : Matrix256) (v : Vec32) :
    vecZ (m.applyToBytes v) = (toMat m.rows).mulVec (vecZ v) := by
  funext k
  have hk := k.isLt
  show bitZ (bytesToNat (m.applyToBytes v)) k.val = _
  unfold bitZ
  rw [testBit_bytesToNat_lt _ _ hk]
  have happ : ((m.applyToBytes v) ⟨k.val/8, by omega⟩).val
      = bitsToNat 8 (fun j => parity (m.row (8*(k.val/8) + j) &&& bytesToNat v)) := rfl
  rw [happ, testBit_bitsToNat]
  have hm : k.val % 8 < 8 := Nat.mod_lt _ (by omega)
  have h8 : 8*(k.val/8) + k.val % 8 = k.val := by omega
  rw [decide_eq_true hm, Bool.true_and, h8]
  have := parity_and_dot (m.row k.val) (bytesToNat v)
  unfold boolZ at this
  rw [this]
  rw [Matrix.mulVec]
  show _ = Matrix.dotProduct (fun c => toMat m.rows k c) (vecZ v)
  rw [Matrix.dotProduct]
  rw [matrix256_row_eq m k.val hk]
  exact Finset.sum_congr rfl fun c _ => rfl

/-- Each result row of the XOR fold of `mul` decomposes bitwise. -/
theorem bitZ_xorFold (l : List Nat) (P : Nat → Bool) (g : Nat → Nat) (acc : Nat) (c : Nat) :
    bitZ (l.foldl (fun acc j => if P j then acc ^^^ g j else acc) acc) c
      = bitZ acc c + (l.map (fun j => if P j then bitZ (g j) c else 0)).sum := by
  induction l generalizing acc with
  | nil => simp
  | cons j l ih =>
    rw [List.foldl_cons, ih, List.map_cons, List.sum_cons]
    by_cases hj : P j
    · rw [if_pos hj, if_pos hj, bitZ_xor]
      ring
    · rw [if_neg hj, if_neg hj]
      ring

theorem listRange_map_sum {M : Type} [AddCommMonoid M] (n : Nat) (f : Nat → M) :
    ((List.range n).map f).sum = ∑ i ∈ Finset.range n, f i := by
  induction n with
  | zero => simp
  | succ n ih =>
    rw [List.range_succ, List.map_append, List.sum_append, Finset.sum_range_succ, ih]
    simp

/-- `Matrix256::mul` is matrix multiplication over GF(2). -/
theorem toMat_mul (a b : Matrix256) :
    toMat (a.mul b).rows = toMat a.rows * toMat b.rows := by
  funext r c
  show bitZ ((a.mul b).rows r) c.val = _
  have hrow : (a.mul b).rows r = (List.range 256).foldl
      (fun acc j => if (a.rows r).testBit j then acc ^^^ b.row j else acc) 0 := rfl
  rw [hrow, bitZ_xorFold]
  have h0 : bitZ 0 c.val = 0 := by unfold bitZ; simp
  rw [h0, zero_add]
  rw [listRange_map_sum 256 (fun j => if (a.rows r).testBit j then bitZ (b.row j) c.val else 0)]
  rw [Matrix.mul_apply]
  rw [← Fin.sum_univ_eq_sum_range (fun j => if (a.rows r).testBit j then bitZ (b.row j) c.val
    else 0) 256]
  apply Finset.sum_congr rfl
  intro j _
  show (if (a.rows r).testBit j.val then bitZ (b.row j.val) c.val else 0)
    = bitZ (a.rows r) j.val * bitZ (b.rows j) c.val
  rw [matrix256_row_eq b j.val j.isLt]
  unfold bitZ
  by_cases hj : (a.rows r).testBit j.val <;> simp [hj]

/-- The packed identity is the GF(2) identity matrix. -/
theorem toMat_idRows (n : Nat) : toMat (idRows n) = 1 := by
  funext r c
  show bitZ (2^r.val) c.val = (1 : Matrix (Fin n) (Fin n) (ZMod 2)) r c
  unfold bitZ
  rw [Nat.testBit_two_pow, Matrix.one_apply]
  by_cases h : r = c
  · subst h; simp
  · have : r.val ≠ c.val := fun hv => h (Fin.ext hv)
    simp [h, this]

theorem toMat_identity256 : toMat Matrix256.identity.rows = 1 := toMat_idRows 256

/-!
Correctness of the Gaussian elimination schema: on success, the right half
of the augmented matrix is a two-sided inverse of the input over GF(2).
-/

theorem rowZ_xor {n : Nat} (x y : Nat) : rowZ (n := n) (x ^^^ y) = rowZ x + rowZ y := by
  funext c
  exact bitZ_xor x y c.val

theorem rowZ_idRows {n : Nat} (r : Fin n) :
    rowZ (n := n) (idRows n r) = fun c => if r = c then 1 else 0 := by
  funext c
  show bitZ (2^r.val) c.val = _
  unfold bitZ
  rw [Nat.testBit_two_pow]
  by_cases h : r = c
  · subst h
    simp
  · have hv : r.val ≠ c.val := fun hv => h (Fin.ext hv)
    simp [h, hv]

theorem vecMul_std {n : Nat} (r : Fin n) (M : Matrix (Fin n) (Fin n) (ZMod 2)) :
    Matrix.vecMul (fun c => if r = c then 1 else 0) M = M r := by
  funext c
  rw [Matrix.vecMul, Matrix.dotProduct]
  rw [Finset.sum_eq_single r]
  · simp
  · intro j _ hj
    simp [Ne.symm hj]
  · intro habs
    exact absurd (Finset.mem_univ r) habs

/-- The elimination invariant after the first `k` columns have been
processed: those columns of the left half are reduced to the identity, and
every left row is the corresponding right row times the original matrix. -/
def GaussInv {n : Nat} (orig : Fin n → Nat) (k : Nat) (s : GaussState n) : Prop :=
  (∀ c : Fin n, c.val < k → ∀ r : Fin n, ((s.left r).testBit c.val ↔ r = c))
  ∧ (∀ r, rowZ (s.left r) = Matrix.vecMul (rowZ (s.right r)) (toMat orig))

theorem gaussInv_init {n : Nat} (orig : Fin n → Nat) : GaussInv orig 0 ⟨orig, idRows n⟩ := by
  constructor
  · intro c hc
    omega
  · intro r
    show rowZ (orig r) = Matrix.vecMul (rowZ (idRows n r)) (toMat orig)
    rw [rowZ_idRows, vecMul_std]
    rfl

theorem pivotSearch_spec {n : Nat} {left : Fin n → Nat} {col p : Fin n}
    (h : pivotSearch n left col = some p) :
    col ≤ p ∧ (left p).testBit col.val = true := by
  have hp := List.find?_some h
  have h1 : decide (col ≤ p) = true ∧ (left p).testBit col.val = true := by
    constructor
    · exact Bool.and_elim_left hp
    · exact Bool.and_elim_right hp
  exact ⟨of_decide_eq_true h1.1, h1.2⟩

theorem swapRows_apply {n : Nat} (f : Fin n → Nat) (a b r : Fin n) :
    swapRows f a b r = if r = a then f b else if r = b then f a else f r := rfl

/-- Each swapped row is some original row. -/
theorem swapRows_cases {n : Nat} (f : Fin n → Nat) (a b r : Fin n) :
    ∃ x, swapRows f a b r = f x := by
  rw [swapRows_apply]
  by_cases h1 : r = a
  · exact ⟨b, by rw [if_pos h1]⟩
  · by_cases h2 : r = b
    · exact ⟨a, by rw [if_neg h1, if_pos h2]⟩
    · exact ⟨r, by rw [if_neg h1, if_neg h2]⟩

theorem gaussInv_step {n : Nat} {orig : Fin n → Nat} {k : Nat} {s s1 : GaussState n}
    {col : Fin n} (hcol : col.val = k) (hinv : GaussInv orig k s)
    (hstep : elimStep s col = some s1) : GaussInv orig (k+1) s1 := by
  rcases hinv with ⟨hA, hB⟩
  unfold elimStep at hstep
  cases hp : pivotSearch n s.left col with
  | none =>
    rw [hp] at hstep
    cases hstep
  | some p =>
    rw [hp] at hstep
    have hps := pivotSearch_spec hp
    injection hstep with hstep
    subst hstep
    set l1 := swapRows s.left p col with hl1
    set r1 := swapRows s.right p col with hr1
    -- old columns of the swapped left half are still reduced
    have hswapA : ∀ c : Fin n, c.val < k → ∀ r, ((l1 r).testBit c.val ↔ r = c) := by
      intro c hc r
      rw [hl1, swapRows_apply]
      by_cases h1 : r = p
      · rw [if_pos h1, hA c hc col]
        constructor
        · intro h2
          exact absurd (h2 ▸ hcol) (by omega)
        · intro h2
          subst h2
          have : p.val < k := h1 ▸ hc
          exact absurd this (by omega)
      · by_cases h2 : r = col
        · rw [if_neg h1, if_pos h2, hA c hc p]
          constructor
          · intro h3
            have : p.val < k := h3 ▸ hc
            have hpc : k ≤ p.val := hcol ▸ hps.1
            omega
          · intro h3
            subst h3
            have : col.val < k := h2 ▸ hc
            omega
        · rw [if_neg h1, if_neg h2, hA c hc r]
    -- the pivot bit of the swapped pivot row is set
    have hpivbit : (l1 col).testBit col.val = true := by
      rw [hl1, swapRows_apply]
      by_cases h1 : col = p
      · rw [if_pos h1]
        have h2 := hps.2
        rw [← h1] at h2
        exact h2
      · rw [if_neg h1, if_pos rfl]
        exact hps.2
    -- every swapped row still satisfies the row relation
    have hswapB : ∀ r, rowZ (l1 r) = Matrix.vecMul (rowZ (r1 r)) (toMat orig) := by
      intro r
      rw [hl1, hr1, swapRows_apply, swapRows_apply]
      by_cases h1 : r = p
      · rw [if_pos h1, if_pos h1]
        exact hB col
      · by_cases h2 : r = col
        · rw [if_neg h1, if_pos h2, if_neg h1, if_pos h2]
          exact hB p
        · rw [if_neg h1, if_neg h2, if_neg h1, if_neg h2]
          exact hB r
    constructor
    · -- part A for k+1 columns
      intro c hc r
      show ((clearCol l1 col l1 r).testBit c.val ↔ r = c)
      unfold clearCol
      have hck : c.val < k ∨ c = col := by
        rcases Nat.lt_succ_iff_lt_or_eq.mp hc with h | h
        · exact Or.inl h
        · exact Or.inr (Fin.ext (h.trans hcol.symm))
      rcases hck with hck | hceq
      · have hcolc : (l1 col).testBit c.val = false := by
          rw [Bool.eq_false_iff]
          intro habs
          have hcc := (hswapA c hck col).mp habs
          have : col.val = c.val := congrArg Fin.val hcc
          omega
        by_cases hcase : r ≠ col ∧ (l1 r).testBit col.val
        · rw [if_pos hcase]
          rw [show ((l1 r ^^^ l1 col).testBit c.val = ((l1 r).testBit c.val).xor
            ((l1 col).testBit c.val)) from Nat.testBit_xor _ _ _, hcolc]
          simp only [Bool.xor_false]
          exact hswapA c hck r
        · rw [if_neg hcase]
          exact hswapA c hck r
      · rw [hceq]
        by_cases hr : r = col
        · rw [if_neg (fun hand => hand.1 hr)]
          rw [hr, hpivbit]
          simp [hr]
        · by_cases hbit : (l1 r).testBit col.val
          · rw [if_pos ⟨hr, hbit⟩]
            rw [show ((l1 r ^^^ l1 col).testBit col.val = ((l1 r).testBit col.val).xor
              ((l1 col).testBit col.val)) from Nat.testBit_xor _ _ _, hbit, hpivbit]
            simp [hr]
          · rw [if_neg (fun hand => hbit hand.2)]
            simp [hbit, hr]
    · -- part B
      intro r
      show rowZ (clearCol l1 col l1 r) = Matrix.vecMul (rowZ (clearCol l1 col r1 r)) (toMat orig)
      unfold clearCol
      by_cases hcase : r ≠ col ∧ (l1 r).testBit col.val
      · rw [if_pos hcase, if_pos hcase, rowZ_xor, rowZ_xor, hswapB r, hswapB col,
          Matrix.add_vecMul]
      · rw [if_neg hcase, if_neg hcase]
        exact hswapB r

theorem gaussSteps_inv {n : Nat} (orig : Fin n → Nat) :
    ∀ (l : List (Fin n)) (k : Nat), (∀ j (hj : j < l.length), (l.get ⟨j, hj⟩).val = k + j) →
    ∀ s s1, GaussInv orig k s → l.foldlM elimStep s = some s1 →
    GaussInv orig (k + l.length) s1 := by
  intro l
  induction l with
  | nil =>
    intro k _ s s1 hinv hfold
    have : s = s1 := by
      simpa [List.foldlM] using hfold
    subst this
    simpa using hinv
  | cons c cs ih =>
    intro k hidx s s1 hinv hfold
    rw [List.foldlM_cons] at hfold
    cases hstep : elimStep s c with
    | none =>
      rw [hstep] at hfold
      exact absurd hfold (by simp)
    | some s2 =>
      rw [hstep] at hfold
      have hfold : cs.foldlM elimStep s2 = some s1 := hfold
      have hc : c.val = k := by
        have h0 := hidx 0 (by simp)
        simpa using h0
      have hinv2 := gaussInv_step hc hinv hstep
      have hrest := ih (k+1) (fun j hj => by
        have h1 := hidx (j+1) (by simp only [List.length_cons]; omega)
        have h2 : (cs.get ⟨j, hj⟩).val = k + (j+1) := h1
        omega) s2 s1 hinv2 hfold
      have hlen : k + (c :: cs).length = (k+1) + cs.length := by
        simp only [List.length_cons]
        omega
      rw [hlen]
      exact hrest

theorem gaussInv_final {n : Nat} {orig : Fin n → Nat} {s : GaussState n}
    (hinv : GaussInv orig n s) : toMat s.right * toMat orig = 1 := by
  funext r c
  have hrow : rowZ (s.left r) c = (if r = c then 1 else 0 : ZMod 2) := by
    show bitZ (s.left r) c.val = _
    unfold bitZ
    by_cases h : r = c
    · rw [if_pos h, if_pos ((hinv.1 c c.isLt r).mpr h)]
    · rw [if_neg h]
      have : (s.left r).testBit c.val = false := by
        rw [Bool.eq_false_iff]
        intro habs
        exact h ((hinv.1 c c.isLt r).mp habs)
      rw [this]
      rfl
  have hmul : (toMat s.right * toMat orig) r c = Matrix.vecMul (rowZ (s.right r)) (toMat orig) c := by
    rw [Matrix.mul_apply, Matrix.vecMul, Matrix.dotProduct]
    rfl
  rw [hmul, ← hinv.2 r, hrow, Matrix.one_apply]

theorem gaussInvert_left_inverse {n : Nat} {orig rights : Fin n → Nat}
    (h : gaussInvert n orig = some rights) : toMat rights * toMat orig = 1 := by
  unfold gaussInvert at h
  cases hs : gaussSteps n ⟨orig, idRows n⟩ with
  | none =>
    rw [hs] at h
    cases h
  | some s =>
    rw [hs] at h
    have hr : rights = s.right := by
      injection h with h
      exact h.symm
    subst hr
    unfold gaussSteps at hs
    have hidx : ∀ j (hj : j < (List.finRange n).length), ((List.finRange n).get ⟨j, hj⟩).val
        = 0 + j := by
      intro j hj
      simp
    have hfin := gaussSteps_inv orig (List.finRange n) 0 hidx _ _ (gaussInv_init orig) hs
    rw [List.length_finRange, Nat.zero_add] at hfin
    exact gaussInv_final hfin

theorem gaussInvert_right_inverse {n : Nat} {orig rights : Fin n → Nat}
    (h : gaussInvert n orig = some rights) : toMat orig * toMat rights = 1 := by
  rw [Matrix.mul_eq_one_comm]
  exact gaussInvert_left_inverse h

/-- `Matrix256::invert` returns a two-sided GF(2) inverse. -/
theorem Matrix256.invert_spec {m minv : Matrix256} (h : m.invert = some minv) :
    toMat minv.rows * toMat m.rows = 1 ∧ toMat m.rows * toMat minv.rows = 1 := by
  unfold Matrix256.invert at h
  cases hg : gaussInvert 256 m.rows with
  | none =>
    rw [hg] at h
    cases h
  | some rights =>
    rw [hg] at h
    injection h with h
    have hr : minv.rows = rights := by
      rw [← h]
    rw [hr]
    exact ⟨gaussInvert_left_inverse hg, gaussInvert_right_inverse hg⟩

/-!
Consequences for `Matrix256` and `Affine256`.
-/

theorem Matrix256.applyToBytes_add (m : Matrix256) (u v : Vec32) :
    m.applyToBytes (u + v) = m.applyToBytes u + m.applyToBytes v := by
  apply vecZ_inj
  rw [vecZ_add, vecZ_applyToBytes, vecZ_applyToBytes, vecZ_applyToBytes, vecZ_add,
    Matrix.mulVec_add]

theorem Matrix256.applyToBytes_zero (m : Matrix256) : m.applyToBytes 0 = 0 := by
  apply vecZ_inj
  rw [vecZ_applyToBytes, vecZ_zero, Matrix.mulVec_zero]

theorem Matrix256.applyToBytes_mul (a b : Matrix256) (v : Vec32) :
    (a.mul b).applyToBytes v = a.applyToBytes (b.applyToBytes v) := by
  apply vecZ_inj
  rw [vecZ_applyToBytes, vecZ_applyToBytes, vecZ_applyToBytes, toMat_mul,
    ← Matrix.mulVec_mulVec]

theorem Matrix256.applyToBytes_identity (v : Vec32) :
    Matrix256.identity.applyToBytes v = v := by
  apply vecZ_inj
  rw [vecZ_applyToBytes, toMat_identity256, Matrix.one_mulVec]

theorem Matrix256.invert_cancel_left {m mi : Matrix256} (h : m.invert = some mi) (v : Vec32) :
    mi.applyToBytes (m.applyToBytes v) = v := by
  apply vecZ_inj
  rw [vecZ_applyToBytes, vecZ_applyToBytes, Matrix.mulVec_mulVec, (Matrix256.invert_spec h).1,
    Matrix.one_mulVec]

theorem Matrix256.invert_cancel_right {m mi : Matrix256} (h : m.invert = some mi) (v : Vec32) :
    m.applyToBytes (mi.applyToBytes v) = v := by
  apply vecZ_inj
  rw [vecZ_applyToBytes, vecZ_applyToBytes, Matrix.mulVec_mulVec, (Matrix256.invert_spec h).2,
    Matrix.one_mulVec]

theorem Affine256.invert_eq {a ai : Affine256} (h : a.invert = some ai) :
    ∃ li, a.lin.invert = some li ∧ ai = ⟨li, li.applyToBytes a.bias⟩ := by
  unfold Affine256.invert at h
  cases hl : a.lin.invert with
  | none =>
    rw [hl] at h
    cases h
  | some li =>
    rw [hl] at h
    injection h with h
    exact ⟨li, rfl, h.symm⟩

/-- `A⁻¹ ∘ A = id`: decoding after encoding recovers the input. -/
theorem Affine256.invert_apply_left {a ai : Affine256} (h : a.invert = some ai) (v : Vec32) :
    ai.apply (a.apply v) = v := by
  rcases Affine256.invert_eq h with ⟨li, hli, hai⟩
  subst hai
  show li.applyToBytes (a.lin.applyToBytes v + a.bias) + li.applyToBytes a.bias = v
  rw [Matrix256.applyToBytes_add, Matrix256.invert_cancel_left hli, add_assoc,
    Vec32.add_self, add_zero]

/-- `A ∘ A⁻¹ = id`. -/
theorem Affine256.invert_apply_right {a ai : Affine256} (h : a.invert = some ai) (v : Vec32) :
    a.apply (ai.apply v) = v := by
  rcases Affine256.invert_eq h with ⟨li, hli, hai⟩
  subst hai
  show a.lin.applyToBytes (li.applyToBytes v + li.applyToBytes a.bias) + a.bias = v
  rw [Matrix256.applyToBytes_add, Matrix256.invert_cancel_right hli,
    Matrix256.invert_cancel_right hli, add_assoc, Vec32.add_self, add_zero]

/-- Composition evaluates as function composition. -/
theorem Affine256.apply_compose (a b : Affine256) (v : Vec32) :
    (a.compose b).apply v = a.apply (b.apply v) := by
  show (a.lin.mul b.lin).applyToBytes v + (a.bias + a.lin.applyToBytes b.bias)
    = a.lin.applyToBytes (b.lin.applyToBytes v + b.bias) + a.bias
  rw [Matrix256.applyToBytes_mul, Matrix256.applyToBytes_add]
  abel

/-- Applying the identity affine map is the identity. -/
theorem Affine256.apply_identity (v : Vec32) : Affine256.identity.apply v = v := by
  show Matrix256.identity.applyToBytes v + 0 = v
  rw [Matrix256.applyToBytes_identity, add_zero]

/-!
The bias-share split (`split_biases`).
-/

theorem Rng.advance_advance (r : Rng) (a b : Nat) :
    (r.advance a).advance b = r.advance (a + b) := by
  show (⟨r.stream, r.pos + a + b⟩ : Rng) = ⟨r.stream, r.pos + (a + b)⟩
  rw [Nat.add_assoc]

theorem Rng.advance_zero (r : Rng) : r.advance 0 = r := rfl

/-- Closed form of the first-31-shares fold of `split_biases`. -/
theorem splitFold_spec : ∀ (l : List (Fin 32)) (k : Nat),
    (∀ j (hj : j < l.length), (l.get ⟨j, hj⟩).val = k + j) →
    ∀ (f0 : Fin 32 → Vec32) (acc0 : Vec32) (r0 : Rng),
    ((l.foldl splitStep (f0, acc0, r0)).1
        = fun i => if k ≤ i.val ∧ i.val < k + l.length
          then (r0.advance (32 * (i.val - k))).read32 else f0 i)
    ∧ (l.foldl splitStep (f0, acc0, r0)).2.1
        = acc0 + ∑ t ∈ Finset.range l.length, (r0.advance (32*t)).read32
    ∧ (l.foldl splitStep (f0, acc0, r0)).2.2 = r0.advance (32 * l.length) := by
  intro l
  induction l with
  | nil =>
    intro k _ f0 acc0 r0
    refine ⟨?_, by simp, by rw [List.foldl_nil]; show (f0, acc0, r0).2.2 = _; simp [Rng.advance_zero]⟩
    funext i
    rw [List.foldl_nil]
    show f0 i = _
    have : ¬(k ≤ i.val ∧ i.val < k + ([] : List (Fin 32)).length) := by
      simp only [List.length_nil]
      omega
    rw [if_neg this]
  | cons c cs ih =>
    intro k hidx f0 acc0 r0
    have hc : c.val = k := by
      have h0 := hidx 0 (by simp)
      simpa using h0
    rw [List.foldl_cons]
    have hstep : splitStep (f0, acc0, r0) c
        = (Function.update f0 c r0.read32, acc0 + r0.read32, r0.advance 32) := rfl
    rw [hstep]
    have hidx2 : ∀ j (hj : j < cs.length), (cs.get ⟨j, hj⟩).val = (k+1) + j := by
      intro j hj
      have h1 := hidx (j+1) (by simp only [List.length_cons]; omega)
      have h2 : (cs.get ⟨j, hj⟩).val = k + (j+1) := h1
      omega
    rcases ih (k+1) hidx2 (Function.update f0 c r0.read32) (acc0 + r0.read32) (r0.advance 32)
      with ⟨ih1, ih2, ih3⟩
    refine ⟨?_, ?_, ?_⟩
    · rw [ih1]
      funext i
      by_cases hcur : i = c
      · have hik : i.val = k := by rw [hcur]; exact hc
        have hnot : ¬(k+1 ≤ i.val ∧ i.val < (k+1) + cs.length) := by omega
        rw [if_neg hnot]
        have hyes : k ≤ i.val ∧ i.val < k + (c :: cs).length := by
          simp only [List.length_cons]
          omega
        rw [if_pos hyes]
        have h0 : i.val - k = 0 := by omega
        rw [h0, Nat.mul_zero, Rng.advance_zero, hcur, Function.update_same]
      · by_cases hin : k+1 ≤ i.val ∧ i.val < (k+1) + cs.length
        · rw [if_pos hin]
          have hyes : k ≤ i.val ∧ i.val < k + (c :: cs).length := by
            simp only [List.length_cons]
            omega
          rw [if_pos hyes, Rng.advance_advance]
          have : 32 + 32 * (i.val - (k+1)) = 32 * (i.val - k) := by omega
          rw [this]
        · rw [if_neg hin, Function.update_noteq hcur]
          have hnot : ¬(k ≤ i.val ∧ i.val < k + (c :: cs).length) := by
            simp only [List.length_cons]
            have hvk : i.val ≠ k := fun hik => hcur (Fin.ext (hik.trans hc.symm))
            omega
          rw [if_neg hnot]
    · rw [ih2]
      simp only [List.length_cons]
      rw [Finset.sum_range_succ' (fun t => (r0.advance (32*t)).read32) cs.length]
      have hsh : ∀ t, ((r0.advance 32).advance (32*t)).read32 = (r0.advance (32*(t+1))).read32 := by
        intro t
        rw [Rng.advance_advance]
        have : 32 + 32*t = 32*(t+1) := by omega
        rw [this]
      rw [add_assoc]
      congr 1
      · rw [Finset.sum_congr rfl (fun t _ => hsh t)]
        have : (r0.advance (32*0)).read32 = r0.read32 := by
          rw [Nat.mul_zero, Rng.advance_zero]
        rw [add_comm, this]
    · rw [ih3, Rng.advance_advance]
      simp only [List.length_cons]
      have : 32 + 32 * cs.length = 32 * (cs.length + 1) := by omega
      rw [this]

theorem take31_length : ((List.finRange 32).take 31).length = 31 := by
  simp

theorem take31_idx : ∀ j (hj : j < ((List.finRange 32).take 31).length),
    (((List.finRange 32).take 31).get ⟨j, hj⟩).val = 0 + j := by
  intro j hj
  rw [List.get_eq_getElem]
  rw [List.getElem_take]
  simp

/-- The fold state of `split_biases`, in closed form. -/
theorem splitBiases_state (rng : Rng) :
    ((((List.finRange 32).take 31).foldl splitStep (fun _ => 0, 0, rng)).1
      = fun i => if 0 ≤ i.val ∧ i.val < 0 + 31 then (rng.advance (32 * (i.val - 0))).read32
          else 0)
    ∧ (((List.finRange 32).take 31).foldl splitStep (fun _ => 0, 0, rng)).2.1
      = 0 + ∑ t ∈ Finset.range 31, (rng.advance (32*t)).read32 := by
  have h := splitFold_spec ((List.finRange 32).take 31) 0 take31_idx (fun _ => 0) 0 rng
  rw [take31_length] at h
  exact ⟨h.1, h.2.1⟩

/-- Shares 0 to 30 are the RNG draws, in order. -/
theorem splitBiases_share (rng : Rng) (target : Vec32) (i : Fin 32) (hi : i.val < 31) :
    (splitBiases rng target).1 i = (rng.advance (32 * i.val)).read32 := by
  have hupd : (splitBiases rng target).1 = Function.update
      ((((List.finRange 32).take 31).foldl splitStep (fun _ => 0, 0, rng)).1) 31
      (target + (((List.finRange 32).take 31).foldl splitStep (fun _ => 0, 0, rng)).2.1) := rfl
  have hne : i ≠ 31 := by
    intro h
    have hval : i.val = 31 := by rw [h]; rfl
    omega
  rw [hupd, Function.update_noteq hne]
  rw [congrFun (splitBiases_state rng).1 i]
  rw [if_pos ⟨Nat.zero_le _, by omega⟩]
  rw [Nat.sub_zero]

/-- The last share absorbs the target. -/
theorem splitBiases_last (rng : Rng) (target : Vec32) :
    (splitBiases rng target).1 31
      = target + ∑ t ∈ Finset.range 31, (rng.advance (32*t)).read32 := by
  have hupd : (splitBiases rng target).1 = Function.update
      ((((List.finRange 32).take 31).foldl splitStep (fun _ => 0, 0, rng)).1) 31
      (target + (((List.finRange 32).take 31).foldl splitStep (fun _ => 0, 0, rng)).2.1) := rfl
  rw [hupd, Function.update_same, (splitBiases_state rng).2, zero_add]

/-- The 32 shares XOR to the target. -/
theorem splitBiases_sum (rng : Rng) (target : Vec32) :
    ∑ i : Fin 32, (splitBiases rng target).1 i = target := by
  have hupd : (splitBiases rng target).1 = Function.update
      ((((List.finRange 32).take 31).foldl splitStep (fun _ => 0, 0, rng)).1) 31
      (target + (((List.finRange 32).take 31).foldl splitStep (fun _ => 0, 0, rng)).2.1) := rfl
  rw [hupd]
  rw [Finset.sum_update_of_mem (Finset.mem_univ 31)]
  have herase : ∑ x ∈ Finset.univ \ {(31 : Fin 32)},
      ((((List.finRange 32).take 31).foldl splitStep (fun _ => 0, 0, rng)).1) x
      = ∑ t ∈ Finset.range 31, (rng.advance (32*t)).read32 := by
    have hmem : ∀ x : Fin 32, x ∈ Finset.univ \ {(31 : Fin 32)} → x.val < 31 := by
      intro x hx
      have hxne : x ≠ 31 := by
        have := (Finset.mem_sdiff.mp hx).2
        simpa using this
      have hxv : x.val ≠ 31 := fun h => hxne (Fin.ext h)
      have := x.isLt
      omega
    rw [Finset.sum_congr rfl (fun x hx => by
      rw [congrFun (splitBiases_state rng).1 x,
        if_pos ⟨Nat.zero_le _, by have := hmem x hx; omega⟩, Nat.sub_zero])]
    have hsurj : ∀ b ∈ Finset.range 31, ∃ a, ∃ (_ : a ∈ Finset.univ \ {(31 : Fin 32)}),
        (a : Fin 32).val = b := by
      intro t ht
      have htlt := Finset.mem_range.mp ht
      refine ⟨⟨t, by omega⟩, ?_, rfl⟩
      refine Finset.mem_sdiff.mpr ⟨Finset.mem_univ _, ?_⟩
      simp only [Finset.mem_singleton]
      intro h
      have hval := congrArg Fin.val h
      have h2 : t = 31 := by simpa using hval
      omega
    exact Finset.sum_bij (fun (x : Fin 32) _ => x.val)
      (fun x hx => by
        show x.val ∈ Finset.range 31
        exact Finset.mem_range.mpr (hmem x hx))
      (fun x hx y hy hxy => Fin.ext hxy)
      hsurj
      (fun x hx => rfl)
  rw [herase, (splitBiases_state rng).2, zero_add, add_assoc, Vec32.add_self, add_zero]

/-!
The XOR accumulation of one round as a sum, and the mask cancellation.
-/

theorem foldl_add_eq_sum {α M : Type} [AddCommMonoid M] (l : List α) (f : α → M) :
    ∀ acc : M, l.foldl (fun a x => a + f x) acc = acc + (l.map f).sum := by
  induction l with
  | nil => intro acc; simp
  | cons x xs ih =>
    intro acc
    rw [List.foldl_cons, ih, List.map_cons, List.sum_cons, add_assoc]

/-- The cyclic successor index used by the evaluator and the mask tables. -/
def wrapSucc (i : Fin 32) : Fin 32 := ⟨(i.val + 1) % 32, by omega⟩

theorem wrapSucc_eq_add_one (i : Fin 32) : wrapSucc i = i + 1 := by
  apply Fin.ext
  rw [Fin.val_add]
  rfl

theorem roundEval_eq_sum (rt : RoundTables) (S : Vec32) :
    roundEval rt S = ∑ i : Fin 32, (rt.tables i).get (S i) (S (wrapSucc i)) := by
  unfold roundEval
  rw [foldl_add_eq_sum, zero_add, ← Fin.sum_univ_def]
  exact Finset.sum_congr rfl fun i _ => rfl

/-- The mask contributions cancel: summed cyclically, each `h` value occurs
exactly twice. -/
theorem hMask_cancel (h : Fin 32 → HTable) (S : Vec32) :
    ∑ i : Fin 32, ((h i).get (S i) + (h (wrapSucc i)).get (S (wrapSucc i))) = 0 := by
  rw [Finset.sum_add_distrib]
  have hrot : ∑ i : Fin 32, (h (wrapSucc i)).get (S (wrapSucc i))
      = ∑ i : Fin 32, (h i).get (S i) := by
    have := Equiv.sum_comp (finRotate 32) (fun j : Fin 32 => (h j).get (S j))
    rw [← this]
    apply Finset.sum_congr rfl
    intro i _
    rw [wrapSucc_eq_add_one, finRotate_succ_apply]
  rw [hrot, Vec32.add_self]

/-- The decoded S-box input of table `i` at state `S` (the `z` of the entry
loop of `build_round`). -/
def tableInput (a_curr : Affine256) (S : Vec32) (i : Fin 32) : Byte :=
  (a_curr.lin.block i.val i.val).apply (S i) +
    (if i.val = 31 then a_curr.lin.block i.val 0
      else a_curr.lin.block i.val (i.val + 1)).apply (S (wrapSucc i)) + a_curr.bias i

theorem buildRoundTables_get (a_curr : Affine256) (bMaps : Fin 32 → Byte → Vec32)
    (bBiases : Fin 32 → Vec32) (hT : Fin 32 → HTable) (i : Fin 32) (x y : Byte) :
    ((buildRoundTables a_curr bMaps bBiases hT).tables i).get x y
      = bMaps i (sbox ((a_curr.lin.block i.val i.val).apply x +
          (if i.val = 31 then a_curr.lin.block i.val 0
            else a_curr.lin.block i.val (i.val + 1)).apply y + a_curr.bias i))
        + bBiases i + (hT i).get x + (hT (wrapSucc i)).get y := rfl

/-- The XOR of the 32 table outputs along the evaluator's access pattern:
the masks cancel and the bias shares collapse to their XOR. -/
theorem roundEval_buildRoundTables (a_curr : Affine256) (bMaps : Fin 32 → Byte → Vec32)
    (bBiases : Fin 32 → Vec32) (hT : Fin 32 → HTable) (S : Vec32) :
    roundEval (buildRoundTables a_curr bMaps bBiases hT) S
      = (∑ i : Fin 32, bMaps i (sbox (tableInput a_curr S i))) + ∑ i : Fin 32, bBiases i := by
  rw [roundEval_eq_sum]
  have hterm : ∀ i : Fin 32, ((buildRoundTables a_curr bMaps bBiases hT).tables i).get (S i)
      (S (wrapSucc i)) = (bMaps i (sbox (tableInput a_curr S i)) + bBiases i)
        + ((hT i).get (S i) + (hT (wrapSucc i)).get (S (wrapSucc i))) := by
    intro i
    rw [buildRoundTables_get]
    unfold tableInput
    abel
  rw [Finset.sum_congr rfl (fun i _ => hterm i), Finset.sum_add_distrib, hMask_cancel,
    add_zero, Finset.sum_add_distrib]

/-!
Sparse-banded matrices: the byte-wise decomposition of `apply_to_bytes`
through the two non-zero blocks of each row block.
-/

/-- The GF(2) bit vector of a byte. -/
def byteZ (b : Byte) : Fin 8 → ZMod 2 := fun j => bitZ b.val j.val

theorem byteZ_inj {a b : Byte} (h : byteZ a = byteZ b) : a = b := by
  apply Byte.extVal
  apply Nat.eq_of_testBit_eq
  intro j
  by_cases hj : j < 8
  · have := congrFun h ⟨j, hj⟩
    unfold byteZ bitZ at this
    by_cases h1 : a.val.testBit j <;> by_cases h2 : b.val.testBit j <;>
      simp [h1, h2] at this ⊢
  · rw [byte_testBit_ge _ _ (by omega), byte_testBit_ge _ _ (by omega)]

theorem byteZ_add (a b : Byte) : byteZ (a + b) = byteZ a + byteZ b := by
  funext j
  show bitZ (a.val ^^^ b.val) j.val = bitZ a.val j.val + bitZ b.val j.val
  rw [bitZ_xor]

theorem matrix8_row_eq (m : Matrix8) (k : Nat) (h : k < 8) :
    m.row k = m.rows ⟨k, h⟩ := dif_pos h

/-- `Matrix8::apply` computed bitwise over GF(2). -/
theorem byteZ_apply (m : Matrix8) (v : Byte) (j : Fin 8) :
    byteZ (m.apply v) j = ∑ jc : Fin 8, bitZ (m.rows j) jc.val * bitZ v.val jc.val := by
  show bitZ (bitsToNat 8 (fun i => parity (m.row i &&& v.val))) j.val = _
  unfold bitZ
  rw [testBit_bitsToNat, decide_eq_true j.isLt, Bool.true_and]
  show boolZ (parity (m.row j.val &&& v.val)) = _
  rw [parity_eq_sum]
  have hcollapse : ∑ c ∈ Finset.range 256, bitZ (m.row j.val &&& v.val) c
      = ∑ c ∈ Finset.range 8, bitZ (m.row j.val &&& v.val) c := by
    symm
    apply Finset.sum_subset
    · intro c hc
      have := Finset.mem_range.mp hc
      exact Finset.mem_range.mpr (by omega)
    · intro c _ hc
      have hc8 : 8 ≤ c := by
        by_contra hlt
        exact hc (Finset.mem_range.mpr (by omega))
      rw [bitZ_and]
      rw [bitZ_of_lt v.isLt hc8]
      ring
  rw [hcollapse, ← Fin.sum_univ_eq_sum_range (fun c => bitZ (m.row j.val &&& v.val) c) 8]
  apply Finset.sum_congr rfl
  intro jc _
  rw [bitZ_and, matrix8_row_eq m j.val j.isLt]
  rfl

theorem block_testBit (m : Matrix256) (rb cb : Nat) (ro : Fin 8) (jc : Nat) (hjc : jc < 8) :
    ((m.block rb cb).rows ro).testBit jc = m.bit (8*rb + ro.val) (8*cb + jc) := by
  have h : (m.block rb cb).rows ro
      = bitsToNat 8 (fun c => m.bit (8*rb + ro.val) (8*cb + c)) := rfl
  rw [h, testBit_bitsToNat, decide_eq_true hjc, Bool.true_and]

/-- Bytes and bits of the 256-bit index. -/
def byteBitEquiv : Fin 32 × Fin 8 ≃ Fin 256 where
  toFun p := ⟨8 * p.1.val + p.2.val, by omega⟩
  invFun k := (⟨k.val / 8, by omega⟩, ⟨k.val % 8, by omega⟩)
  left_inv p := by
    rcases p with ⟨a, b⟩
    have h1 : (8 * a.val + b.val) / 8 = a.val := by omega
    have h2 : (8 * a.val + b.val) % 8 = b.val := by omega
    show ((⟨(8 * a.val + b.val) / 8, by omega⟩ : Fin 32), (⟨(8 * a.val + b.val) % 8, by omega⟩ :
      Fin 8)) = (a, b)
    rw [show (⟨(8 * a.val + b.val) / 8, by omega⟩ : Fin 32) = a from Fin.ext h1,
      show (⟨(8 * a.val + b.val) % 8, by omega⟩ : Fin 8) = b from Fin.ext h2]
  right_inv k := Fin.ext (by
    show 8 * (k.val / 8) + k.val % 8 = k.val
    omega)

theorem sum_fin256_bytes {M : Type} [AddCommMonoid M] (g : Fin 256 → M) :
    ∑ k : Fin 256, g k = ∑ cb : Fin 32, ∑ jc : Fin 8, g ⟨8*cb.val + jc.val, by omega⟩ := by
  rw [← Equiv.sum_comp byteBitEquiv g, Fintype.sum_prod_type]
  rfl

theorem vecZ_byte (v : Vec32) (cb : Fin 32) (jc : Fin 8) :
    vecZ v ⟨8*cb.val + jc.val, by omega⟩ = byteZ (v cb) jc := by
  show bitZ (bytesToNat v) (8*cb.val + jc.val) = bitZ (v cb).val jc.val
  unfold bitZ
  rw [testBit_bytesToNat_lt _ _ (by omega)]
  have h1 : (8*cb.val + jc.val)/8 = cb.val := by omega
  have h2 : (8*cb.val + jc.val) % 8 = jc.val := by omega
  rw [show (⟨(8*cb.val + jc.val)/8, by omega⟩ : Fin 32) = cb from Fin.ext h1, h2]

/-- The sparse-banded block pattern: non-zero 8×8 blocks occur only on the
diagonal, the first super-diagonal, and the wrap position `(31, 0)` (the
`is_allowed` predicate of the source's structure test). -/
def Matrix256.SparseBanded (m : Matrix256) : Prop :=
  ∀ rb cb : Fin 32,
    ¬(cb.val = rb.val ∨ cb.val = rb.val + 1 ∨ (rb.val = 31 ∧ cb.val = 0)) →
    m.block rb.val cb.val = Matrix8.zero

instance (m : Matrix256) : Decidable m.SparseBanded := by
  unfold Matrix256.SparseBanded
  infer_instance

theorem wrapSucc_ne (i : Fin 32) : i ≠ wrapSucc i := by
  intro h
  have hv := congrArg Fin.val h
  show False
  unfold wrapSucc at hv
  simp only [] at hv
  have := i.isLt
  omega

/-- On a sparse-banded matrix, output byte `i` depends only on input bytes
`i` and `(i+1) mod 32`, through the two non-zero blocks of row block `i`. -/
theorem applyToBytes_sparse_byte (m : Matrix256) (hs : m.SparseBanded) (v : Vec32)
    (i : Fin 32) :
    (m.applyToBytes v) i = (m.block i.val i.val).apply (v i)
      + (m.block i.val (wrapSucc i).val).apply (v (wrapSucc i)) := by
  apply byteZ_inj
  funext j
  have hk : 8 * i.val + j.val < 256 := by omega
  have hleft : byteZ ((m.applyToBytes v) i) j = vecZ (m.applyToBytes v) ⟨8*i.val + j.val, hk⟩ :=
    (vecZ_byte (m.applyToBytes v) i j).symm
  rw [hleft, vecZ_applyToBytes]
  rw [Matrix.mulVec, Matrix.dotProduct]
  have hexp : ∑ k : Fin 256, toMat m.rows ⟨8*i.val + j.val, hk⟩ k * vecZ v k
      = ∑ cb : Fin 32, ∑ jc : Fin 8,
        toMat m.rows ⟨8*i.val + j.val, hk⟩ ⟨8*cb.val + jc.val, by omega⟩
          * byteZ (v cb) jc := by
    rw [sum_fin256_bytes (fun k => toMat m.rows ⟨8*i.val + j.val, hk⟩ k * vecZ v k)]
    exact Finset.sum_congr rfl fun cb _ => Finset.sum_congr rfl fun jc _ => by
      rw [vecZ_byte]
  have hblockbit : ∀ (cb : Fin 32) (jc : Fin 8),
      toMat m.rows ⟨8*i.val + j.val, hk⟩ ⟨8*cb.val + jc.val, by omega⟩
        = bitZ ((m.block i.val cb.val).rows j) jc.val := by
    intro cb jc
    show bitZ (m.rows ⟨8*i.val + j.val, hk⟩) (8*cb.val + jc.val) = _
    unfold bitZ
    rw [block_testBit m i.val cb.val j jc.val jc.isLt]
    unfold Matrix256.bit
    rw [matrix256_row_eq m (8*i.val + j.val) hk]
  have hF : ∀ cb : Fin 32, ∑ jc : Fin 8,
      toMat m.rows ⟨8*i.val + j.val, hk⟩ ⟨8*cb.val + jc.val, by omega⟩ * byteZ (v cb) jc
      = byteZ ((m.block i.val cb.val).apply (v cb)) j := by
    intro cb
    rw [byteZ_apply]
    exact Finset.sum_congr rfl fun jc _ => by rw [hblockbit cb jc]; rfl
  show (∑ k : Fin 256, toMat m.rows ⟨8*i.val + j.val, hk⟩ k * vecZ v k)
    = byteZ ((m.block i.val i.val).apply (v i) + (m.block i.val (wrapSucc i).val).apply
        (v (wrapSucc i))) j
  rw [hexp, Finset.sum_congr rfl (fun cb _ => hF cb)]
  have hvanish : ∀ cb : Fin 32, cb ∉ ({i, wrapSucc i} : Finset (Fin 32)) →
      byteZ ((m.block i.val cb.val).apply (v cb)) j = 0 := by
    intro cb hcb
    have hne1 : cb ≠ i := fun h => hcb (by rw [h]; exact Finset.mem_insert_self _ _)
    have hne2 : cb ≠ wrapSucc i := fun h => hcb (by
      rw [h]
      exact Finset.mem_insert_of_mem (Finset.mem_singleton_self _))
    have hnotallowed : ¬(cb.val = i.val ∨ cb.val = i.val + 1 ∨ (i.val = 31 ∧ cb.val = 0)) := by
      intro hallowed
      rcases hallowed with h | h | h
      · exact hne1 (Fin.ext h)
      · by_cases hi31 : i.val = 31
        · have := cb.isLt
          omega
        · apply hne2
          apply Fin.ext
          show cb.val = (i.val + 1) % 32
          have := i.isLt
          rw [Nat.mod_eq_of_lt (by omega)]
          exact h
      · apply hne2
        apply Fin.ext
        show cb.val = (i.val + 1) % 32
        omega
    rw [hs i cb hnotallowed]
    show byteZ (Matrix8.zero.apply (v cb)) j = 0
    have hz : Matrix8.zero.apply (v cb) = 0 := by
      apply Byte.extVal
      have hval : (Matrix8.zero.apply (v cb)).val
          = bitsToNat 8 (fun b => parity (Matrix8.zero.row b &&& (v cb).val)) := rfl
      rw [hval, Byte.val_zero]
      rw [bitsToNat_congr 8 _ (fun _ => false)]
      · show bitsToNat 8 (fun _ => false) = 0
        have := testBit_bitsToNat 8 (fun _ => false)
        apply Nat.eq_of_testBit_eq
        intro b
        rw [this b]
        simp
      · intro b hb
        show parity (Matrix8.zero.row b &&& (v cb).val) = false
        have hrow : Matrix8.zero.row b = 0 := by
          unfold Matrix8.row Matrix8.zero
          by_cases hb8 : b < 8 <;> simp [hb8]
        rw [hrow]
        show parity (0 &&& (v cb).val) = false
        rw [Nat.zero_and]
        rfl
    rw [hz]
    show bitZ (0:Byte).val j.val = 0
    rw [Byte.val_zero]
    unfold bitZ
    rw [Nat.zero_testBit]
    rfl
  have hsplit : ∑ cb : Fin 32, byteZ ((m.block i.val cb.val).apply (v cb)) j
      = ∑ cb ∈ ({i, wrapSucc i} : Finset (Fin 32)),
        byteZ ((m.block i.val cb.val).apply (v cb)) j := by
    symm
    apply Finset.sum_subset (Finset.subset_univ _)
    intro cb _ hcb
    exact hvanish cb hcb
  rw [hsplit, Finset.sum_pair (wrapSucc_ne i), byteZ_add]
  rfl

/-!
`submatrix_byte_map` agrees with applying the matrix to a single-byte
vector, and the decoded table inputs of a sparse-banded encoding
reconstruct the affine image of the state.
-/

/-- The 32-byte vector that is `v` at byte `i` and zero elsewhere. -/
def singleByte (i : Fin 32) (v : Byte) : Vec32 := fun k => if k = i then v else 0

/-- `apply_to_bytes` as a bundled additive homomorphism. -/
def applyHom (m : Matrix256) : Vec32 →+ Vec32 where
  toFun := m.applyToBytes
  map_zero' := m.applyToBytes_zero
  map_add' := m.applyToBytes_add

theorem foldl_addIf {α M : Type} [AddCommMonoid M] (l : List α) (P : α → Bool) (g : α → M) :
    ∀ acc : M, l.foldl (fun a x => if P x then a + g x else a) acc
      = acc + (l.map fun x => if P x then g x else 0).sum := by
  induction l with
  | nil => intro acc; simp
  | cons x xs ih =>
    intro acc
    rw [List.foldl_cons, List.map_cons, List.sum_cons]
    by_cases hx : P x
    · rw [if_pos hx, if_pos hx, ih, add_assoc]
    · rw [if_neg hx, if_neg hx, ih, zero_add]

theorem byteZ_ofNat_shift (b : Nat) (hb : b < 8) (jc : Fin 8) :
    byteZ (Byte.ofNat (1 <<< b)) jc = if jc.val = b then 1 else 0 := by
  have hpow : (1 <<< b) = 2^b := by
    rw [Nat.shiftLeft_eq, one_mul]
  have hle : (2:Nat)^b ≤ 2^7 := Nat.pow_le_pow_right (by omega) (by omega)
  have hlt : (2:Nat)^b < 256 := lt_of_le_of_lt hle (by norm_num)
  show (if ((1 <<< b) % 256).testBit jc.val then (1:ZMod 2) else 0) = _
  rw [hpow, Nat.mod_eq_of_lt hlt, Nat.testBit_two_pow]
  by_cases h : b = jc.val
  · rw [h]
    simp
  · have h2 : jc.val ≠ b := fun hh => h hh.symm
    simp [h, h2]

theorem byteZ_zero : byteZ 0 = 0 := by
  funext jc
  show bitZ (0:Byte).val jc.val = 0
  rw [Byte.val_zero]
  unfold bitZ
  rw [Nat.zero_testBit]
  rfl

/-- `byteZ` as a bundled additive homomorphism. -/
def byteZHom : Byte →+ (Fin 8 → ZMod 2) where
  toFun := byteZ
  map_zero' := byteZ_zero
  map_add' := byteZ_add

theorem singleByte_decomp (i : Fin 32) (v : Byte) :
    singleByte i v = ∑ b ∈ Finset.range 8, (if v.val.testBit b then unitVec i b else 0) := by
  funext k
  rw [Finset.sum_apply]
  by_cases hk : k = i
  · subst hk
    have hsb : singleByte k v k = v := by
      unfold singleByte
      rw [if_pos rfl]
    rw [hsb]
    have hterm : ∀ b, (if v.val.testBit b then unitVec k b else 0) k
        = (if v.val.testBit b then Byte.ofNat (1 <<< b) else 0) := by
      intro b
      by_cases hb : v.val.testBit b
      · rw [if_pos hb, if_pos hb]
        show (if k = k then Byte.ofNat (1 <<< b) else 0) = _
        rw [if_pos rfl]
      · rw [if_neg hb, if_neg hb]
        rfl
    rw [Finset.sum_congr rfl (fun b _ => hterm b)]
    apply byteZ_inj
    have hmap : byteZ (∑ b ∈ Finset.range 8, if v.val.testBit b then Byte.ofNat (1 <<< b) else 0)
        = ∑ b ∈ Finset.range 8, byteZ (if v.val.testBit b then Byte.ofNat (1 <<< b) else 0) :=
      map_sum byteZHom _ _
    rw [hmap]
    funext jc
    rw [Finset.sum_apply]
    have hterm2 : ∀ b ∈ Finset.range 8,
        byteZ (if v.val.testBit b then Byte.ofNat (1 <<< b) else 0) jc
        = if v.val.testBit b then (if jc.val = b then (1:ZMod 2) else 0) else 0 := by
      intro b hb
      by_cases hvb : v.val.testBit b
      · rw [if_pos hvb, if_pos hvb, byteZ_ofNat_shift b (Finset.mem_range.mp hb) jc]
      · rw [if_neg hvb, if_neg hvb, byteZ_zero]
        rfl
    rw [Finset.sum_congr rfl hterm2]
    rw [Finset.sum_eq_single jc.val
      (fun b _ hbne => by
        have hne : ¬(jc.val = b) := fun h => hbne h.symm
        by_cases hvb : v.val.testBit b
        · rw [if_pos hvb, if_neg hne]
        · rw [if_neg hvb])
      (fun hnot => absurd (Finset.mem_range.mpr jc.isLt) hnot)]
    rw [if_pos rfl]
    rfl
  · have hsb : singleByte i v k = 0 := by
      unfold singleByte
      rw [if_neg hk]
    rw [hsb]
    symm
    apply Finset.sum_eq_zero
    intro b _
    by_cases hb : v.val.testBit b
    · rw [if_pos hb]
      show (if k = i then Byte.ofNat (1 <<< b) else 0) = 0
      rw [if_neg hk]
    · rw [if_neg hb]
      rfl

/-- `submatrix_byte_map` computes the matrix image of the single-byte
vector (spec property (P4)). -/
theorem submatrixByteMap_spec (m : Matrix256) (i : Fin 32) (v : Byte) :
    m.submatrixByteMap i v = m.applyToBytes (singleByte i v) := by
  unfold Matrix256.submatrixByteMap
  rw [foldl_addIf, zero_add, listRange_map_sum 8
    (fun b => if v.val.testBit b then m.applyToBytes (unitVec i b) else 0)]
  rw [singleByte_decomp]
  have hmap : (applyHom m) (∑ b ∈ Finset.range 8, (if v.val.testBit b then unitVec i b else 0))
      = ∑ b ∈ Finset.range 8, (applyHom m) (if v.val.testBit b then unitVec i b else 0) :=
    map_sum (applyHom m) _ _
  show _ = (applyHom m) (∑ b ∈ Finset.range 8, (if v.val.testBit b then unitVec i b else 0))
  rw [hmap]
  apply Finset.sum_congr rfl
  intro b _
  by_cases hb : v.val.testBit b
  · rw [if_pos hb, if_pos hb]
    rfl
  · rw [if_neg hb, if_neg hb]
    exact (m.applyToBytes_zero).symm

/-- On a sparse-banded encoding, the decoded table input is byte `i` of the
affine image of the state. -/
theorem tableInput_eq_apply (a_curr : Affine256) (hsp : a_curr.lin.SparseBanded)
    (S : Vec32) (i : Fin 32) :
    tableInput a_curr S i = (a_curr.apply S) i := by
  unfold tableInput
  have hright : (if i.val = 31 then a_curr.lin.block i.val 0
        else a_curr.lin.block i.val (i.val + 1))
      = a_curr.lin.block i.val (wrapSucc i).val := by
    by_cases h31 : i.val = 31
    · rw [if_pos h31]
      have : (wrapSucc i).val = 0 := by
        show (i.val + 1) % 32 = 0
        omega
      rw [this]
    · rw [if_neg h31]
      have : (wrapSucc i).val = i.val + 1 := by
        show (i.val + 1) % 32 = i.val + 1
        have := i.isLt
        omega
      rw [this]
  rw [hright]
  show _ = a_curr.lin.applyToBytes S i + a_curr.bias i
  rw [applyToBytes_sparse_byte a_curr.lin hsp S i]

/-- The S-box applied to every byte of the doubled state. -/
def sboxBytes (w : Vec32) : Vec32 := fun i => sbox (w i)

/-- What `build_round` returns when the next affine inverts. -/
theorem buildRound_eq {rng : Rng} {a_curr next_affine : Affine256} {L : Matrix256}
    {K : Vec32} {next_inv : Matrix256} (hinv : next_affine.lin.invert = some next_inv) :
    buildRound rng a_curr next_affine L K = some (buildRoundTables a_curr
      (fun i => (next_inv.mul L).submatrixByteMap i)
      (splitBiases rng (next_inv.applyToBytes next_affine.bias + next_inv.applyToBytes K)).1
      (sampleHTables (splitBiases rng (next_inv.applyToBytes next_affine.bias
        + next_inv.applyToBytes K)).2).1,
      (sampleHTables (splitBiases rng (next_inv.applyToBytes next_affine.bias
        + next_inv.applyToBytes K)).2).2) := by
  unfold buildRound
  rw [hinv]

/-- The XOR of the 32 table outputs of a generated round: the linear image
of the S-boxed decoded state, plus the pushed-through bias and round key. -/
theorem buildRound_roundEval {rng : Rng} {a_curr next_affine : Affine256} {L : Matrix256}
    {K : Vec32} {next_inv : Matrix256} (hinv : next_affine.lin.invert = some next_inv)
    (hsp : a_curr.lin.SparseBanded) {rt : RoundTables} {rng2 : Rng}
    (hb : buildRound rng a_curr next_affine L K = some (rt, rng2)) (S : Vec32) :
    roundEval rt S = (next_inv.mul L).applyToBytes (sboxBytes (a_curr.apply S))
      + (next_inv.applyToBytes next_affine.bias + next_inv.applyToBytes K) := by
  rw [buildRound_eq hinv] at hb
  injection hb with hb
  have hrt : rt = buildRoundTables a_curr
      (fun i => (next_inv.mul L).submatrixByteMap i)
      (splitBiases rng (next_inv.applyToBytes next_affine.bias + next_inv.applyToBytes K)).1
      (sampleHTables (splitBiases rng (next_inv.applyToBytes next_affine.bias
        + next_inv.applyToBytes K)).2).1 := (congrArg Prod.fst hb).symm
  subst hrt
  rw [roundEval_buildRoundTables]
  have hbias : ∑ i : Fin 32, (splitBiases rng (next_inv.applyToBytes next_affine.bias
      + next_inv.applyToBytes K)).1 i
      = next_inv.applyToBytes next_affine.bias + next_inv.applyToBytes K :=
    splitBiases_sum rng _
  rw [hbias]
  have hterm : ∀ i : Fin 32, (next_inv.mul L).submatrixByteMap i
      (sbox (tableInput a_curr S i))
      = (applyHom (next_inv.mul L)) (singleByte i (sboxBytes (a_curr.apply S) i)) := by
    intro i
    rw [submatrixByteMap_spec, tableInput_eq_apply a_curr hsp S i]
    rfl
  rw [Finset.sum_congr rfl (fun i _ => hterm i)]
  rw [← map_sum (applyHom (next_inv.mul L)) _ Finset.univ]
  have hsingle : ∑ i : Fin 32, singleByte i (sboxBytes (a_curr.apply S) i)
      = sboxBytes (a_curr.apply S) := by
    funext k
    rw [Finset.sum_apply]
    have hterm2 : ∀ i : Fin 32, singleByte i (sboxBytes (a_curr.apply S) i) k
        = if k = i then sboxBytes (a_curr.apply S) i else 0 := fun i => rfl
    rw [Finset.sum_congr rfl (fun i _ => hterm2 i)]
    rw [Finset.sum_ite_eq Finset.univ k (fun i => sboxBytes (a_curr.apply S) i)]
    rw [if_pos (Finset.mem_univ k)]
  rw [hsingle]
  rfl

/-- A vector is the sum of its single-byte components. -/
theorem sum_singleByte (v : Vec32) : ∑ i : Fin 32, singleByte i (v i) = v := by
  funext k
  rw [Finset.sum_apply]
  have hterm : ∀ i : Fin 32, singleByte i (v i) k = if k = i then v i else 0 := fun i => rfl
  rw [Finset.sum_congr rfl (fun i _ => hterm i)]
  rw [Finset.sum_ite_eq Finset.univ k (fun i => v i)]
  rw [if_pos (Finset.mem_univ k)]

/-!
The identity matrix is neutral for the XOR-fold product, and the identity
affine map is neutral for composition.
-/

theorem foldl_xor_of_false {P : Nat → Bool} {g : Nat → Nat} :
    ∀ (l : List Nat) (acc : Nat), (∀ j ∈ l, P j = false) →
      l.foldl (fun a j => if P j then a ^^^ g j else a) acc = acc := by
  intro l
  induction l with
  | nil => intro acc _; rfl
  | cons x xs ih =>
    intro acc h
    rw [List.foldl_cons]
    have hx : P x = false := h x (by simp)
    rw [hx]
    have hrest : ∀ j ∈ xs, P j = false := fun j hj => h j (by simp [hj])
    have hred : (if false = true then acc ^^^ g x else acc) = acc := rfl
    rw [hred]
    exact ih acc hrest

theorem range_foldl_xor_two_pow (n r : Nat) (hr : r < n) (g : Nat → Nat) :
    (List.range n).foldl (fun a j => if (2^r).testBit j then a ^^^ g j else a) 0 = g r := by
  induction n with
  | zero => omega
  | succ m ih =>
    rw [List.range_succ, List.foldl_append]
    by_cases hrm : r = m
    · subst hrm
      have hall : (List.range r).foldl (fun a j => if (2^r).testBit j then a ^^^ g j else a) 0
          = 0 := by
        apply foldl_xor_of_false
        intro j hj
        have hjr : j < r := List.mem_range.mp hj
        rw [Nat.testBit_two_pow]
        exact decide_eq_false (by omega)
      rw [hall]
      have hself : (2^r).testBit r = true := by
        rw [Nat.testBit_two_pow]
        exact decide_eq_true rfl
      show (if (2^r).testBit r then 0 ^^^ g r else 0) = g r
      rw [hself]
      show 0 ^^^ g r = g r
      exact Nat.zero_xor _
    · have hrlt : r < m := by omega
      rw [ih hrlt]
      have hm : (2^r).testBit m = false := by
        rw [Nat.testBit_two_pow]
        exact decide_eq_false (by omega)
      show (if (2^r).testBit m then g r ^^^ g m else g r) = g r
      rw [hm]
      rfl

theorem Matrix256.identity_mul (m : Matrix256) : Matrix256.identity.mul m = m := by
  apply Matrix256.ext256
  funext r
  show (List.range 256).foldl
    (fun acc j => if (Matrix256.identity.rows r).testBit j then acc ^^^ m.row j else acc) 0
    = m.rows r
  have hrow : Matrix256.identity.rows r = 2^r.val := rfl
  rw [hrow, range_foldl_xor_two_pow 256 r.val r.isLt (fun j => m.row j)]
  exact matrix256_row_eq m r.val r.isLt

theorem Affine256.identity_compose (b : Affine256) : Affine256.identity.compose b = b := by
  show (⟨Matrix256.identity.mul b.lin, (0:Vec32) + Matrix256.identity.applyToBytes b.bias⟩ :
    Affine256) = b
  rw [Matrix256.identity_mul, Matrix256.applyToBytes_identity, zero_add]

/-!
Claim theorems: serialization, bias shares, mask cancellation, affine
inversion, and the external output encoding.
-/

/-- A parameter record whose version is 2, not the supported 1. -/
def c5params : InstanceParams := ⟨10, 32, 16, 256, 256, SchemeId.BaekCheonHong2016, 2⟩

/-- A well-formed instance carrying the unsupported version 2. -/
def c5inst : WbInstance256 :=
  ⟨fun _ => ⟨fun _ => ⟨fun _ _ => 0⟩⟩, ⟨Affine256.identity, none⟩, c5params⟩

/-- Claim C5, counterexample: deserializing a serialized instance whose
`params.version` is 2 (not the supported 1) succeeds — `from_bytes` performs
no version or scheme check. -/
theorem fromBytes_no_version_check :
    WbInstance256.fromBytes ⟨c5inst⟩ = Except.ok c5inst ∧ c5inst.params.version = 2 :=
  ⟨rfl, rfl⟩

/-- Claim C5, amended: `from_bytes` returns whatever instance the blob
decodes to, with no validation of `params.version` or `params.scheme`;
deserialization of any serialized instance succeeds regardless of its
parameters. -/
theorem fromBytes_roundtrip (inst : WbInstance256) :
    WbInstance256.fromBytes ⟨inst⟩ = Except.ok inst := rfl

/-- Claim C7: the 32 shares of `split_biases` XOR to the target; shares
0..30 are the sequential RNG draws and share 31 is the target XORed with
the XOR of the first 31. -/
theorem splitBiases_spec (rng : Rng) (target : Vec32) :
    (∑ i : Fin 32, (splitBiases rng target).1 i = target)
    ∧ (∀ i : Fin 32, i.val < 31 →
        (splitBiases rng target).1 i = (rng.advance (32 * i.val)).read32)
    ∧ (splitBiases rng target).1 31
        = target + ∑ t ∈ Finset.range 31, (rng.advance (32*t)).read32 :=
  ⟨splitBiases_sum rng target, fun i hi => splitBiases_share rng target i hi,
    splitBiases_last rng target⟩

/-- Claim C8: the mask contributions of the `h` tables cancel along the
evaluator's cyclic access pattern, so the XOR of the 32 table outputs of a
built round does not depend on the sampled `h` tables. -/
theorem hMask_cancellation (h h2 : Fin 32 → HTable) (S : Vec32) (a_curr : Affine256)
    (bMaps : Fin 32 → Byte → Vec32) (bBiases : Fin 32 → Vec32) :
    (∑ i : Fin 32, ((h i).get (S i) + (h (wrapSucc i)).get (S (wrapSucc i))) = 0)
    ∧ roundEval (buildRoundTables a_curr bMaps bBiases h) S
        = roundEval (buildRoundTables a_curr bMaps bBiases h2) S :=
  ⟨hMask_cancel h S, by rw [roundEval_buildRoundTables, roundEval_buildRoundTables]⟩

/-- Claim C9: `Affine256::invert` succeeds exactly when the linear part
inverts, returns `(lin⁻¹, lin⁻¹·bias)`, and the returned map is a left
inverse: `A⁻¹(A(x)) = x` for every 32-byte vector. -/
theorem affine_invert_spec (a : Affine256) :
    a.invert.isSome = a.lin.invert.isSome
    ∧ a.invert.elim True (fun b =>
        a.lin.invert.elim False (fun li => b = ⟨li, li.applyToBytes a.bias⟩)
        ∧ ∀ x, b.apply (a.apply x) = x) := by
  constructor
  · unfold Affine256.invert
    cases a.lin.invert <;> rfl
  · cases hb : a.invert with
    | none => trivial
    | some b =>
      constructor
      · rcases Affine256.invert_eq hb with ⟨li, hli, hbe⟩
        rw [hli]
        exact hbe
      · intro x
        exact Affine256.invert_apply_left hb x

/-- Claim C10: `generate_instance` always returns an instance whose
`encodings.output` is `None`, for every configuration — the sampled output
encoding, when any, is folded into the round-10 tables. -/
theorem generateInstance_output_none (fuel : Nat) (key : Block16) (rng : Rng)
    (config : GeneratorConfig) :
    (generateInstance fuel key rng config).elim True
      (fun inst => inst.encodings.output = none) := by
  obtain ⟨ext⟩ := config
  unfold generateInstance
  cases hsa : sampleAEncodings fuel 10 rng with
  | none => trivial
  | some p =>
    obtain ⟨a_encodings, rng1⟩ := p
    dsimp only
    cases ext with
    | false =>
      cases hinv : (a_encodings.getD 0 Affine256.identity).invert with
      | none => trivial
      | some a1_inv =>
        rw [if_neg Bool.false_ne_true]
        dsimp only
        cases hbr : buildRounds (fun r => a_encodings.getD r Affine256.identity) none key
            mcSrMatrix256 srMatrix256 0 rng1 with
        | none => trivial
        | some q => trivial
    | true =>
      rw [if_pos rfl]
      cases hm1 : Affine256.randomSparseUnsplit fuel rng1 with
      | none => trivial
      | some q1 =>
        obtain ⟨min_enc, rng2⟩ := q1
        dsimp only
        cases hm2 : Affine256.randomSparseUnsplit fuel rng2 with
        | none => trivial
        | some q2 =>
          obtain ⟨mout_enc, rng3⟩ := q2
          dsimp only
          cases hinv : (a_encodings.getD 0 Affine256.identity).invert with
          | none => trivial
          | some a1_inv =>
            cases hbr : buildRounds (fun r => a_encodings.getD r Affine256.identity)
                (some mout_enc) key mcSrMatrix256 srMatrix256 0 rng3 with
            | none => trivial
            | some q => trivial

/-- Claim C3: with external encodings disabled, the generated instance's
input encoding is A1⁻¹ ∘ (x ↦ x ⊕ dup(K₀)) — the inverse of the first
sampled round encoding composed with XORing in the duplicated first round
key — and its output encoding is None. -/
theorem input_encoding_spec (fuel : Nat) (key : Block16) (rng : Rng) :
    (generateInstance fuel key rng ⟨false⟩).elim True (fun inst =>
      (sampleAEncodings fuel 10 rng).elim True (fun p =>
        ((p.1.getD 0 Affine256.identity).invert).elim True (fun a1_inv =>
          inst.encodings.input
            = a1_inv.compose ⟨Matrix256.identity, duplicateRoundKey (roundKey key 0)⟩
          ∧ inst.encodings.output = none))) := by
  unfold generateInstance
  cases hsa : sampleAEncodings fuel 10 rng with
  | none => trivial
  | some p =>
    obtain ⟨a_encodings, rng1⟩ := p
    dsimp only
    cases hinv : (a_encodings.getD 0 Affine256.identity).invert with
    | none => trivial
    | some a1_inv =>
      have hne : (⟨false⟩ : GeneratorConfig).external_encodings ≠ true := Bool.false_ne_true
      rw [if_neg hne]
      dsimp only
      cases hbr : buildRounds (fun r => a_encodings.getD r Affine256.identity) none key
          mcSrMatrix256 srMatrix256 0 rng1 with
      | none => trivial
      | some q =>
        obtain ⟨roundsList, rngF⟩ := q
        simp only [Option.elim]
        rw [hinv]
        simp only [Option.elim]
        refine ⟨?_, trivial⟩
        show a1_inv.compose (Affine256.identity.compose
            ⟨Matrix256.identity, duplicateRoundKey (roundKey key 0)⟩)
          = a1_inv.compose ⟨Matrix256.identity, duplicateRoundKey (roundKey key 0)⟩
        rw [Affine256.identity_compose]

/-!
Reading blocks back after `set_block`: the bit-level effect of
`setBlockRow`, and the read-after-write laws for `Matrix256::block`.
-/

theorem testBit_clearFold (g : Nat → Nat) :
    ∀ (l : List Nat) (row : Nat) (i : Nat),
      (l.foldl (fun acc c => clearBitNat acc (g c)) row).testBit i
        = (row.testBit i && decide (∀ c ∈ l, g c ≠ i)) := by
  intro l
  induction l with
  | nil => intro row i; simp
  | cons x xs ih =>
    intro row i
    rw [List.foldl_cons, ih, testBit_clearBitNat]
    by_cases hx : g x = i
    · simp [hx]
    · simp [hx, List.forall_mem_cons, Bool.and_assoc]

theorem testBit_setFold (b : Nat) (g : Nat → Nat) :
    ∀ (l : List Nat) (row : Nat) (i : Nat),
      (l.foldl (fun acc c => if b.testBit c then acc ||| 2^(g c) else acc) row).testBit i
        = (row.testBit i || decide (∃ c ∈ l, g c = i ∧ b.testBit c)) := by
  intro l
  induction l with
  | nil => intro row i; simp
  | cons x xs ih =>
    intro row i
    rw [List.foldl_cons]
    by_cases hx : b.testBit x
    · rw [if_pos hx, ih, Nat.testBit_or, Nat.testBit_two_pow]
      by_cases hgi : g x = i
      · have hex : decide (∃ c ∈ x :: xs, g c = i ∧ b.testBit c) = true :=
          decide_eq_true ⟨x, by simp, hgi, hx⟩
        rw [hex]
        simp [hgi]
      · have hgd : decide (g x = i) = false := decide_eq_false hgi
        rw [hgd]
        have hsplit : (∃ c ∈ x :: xs, g c = i ∧ b.testBit c)
            ↔ (∃ c ∈ xs, g c = i ∧ b.testBit c) := by
          constructor
          · rintro ⟨c, hc, hci, hbc⟩
            rcases List.mem_cons.mp hc with hcx | hcxs
            · exact absurd (hcx ▸ hci) hgi
            · exact ⟨c, hcxs, hci, hbc⟩
          · rintro ⟨c, hc, hci, hbc⟩
            exact ⟨c, List.mem_cons_of_mem _ hc, hci, hbc⟩
        rw [decide_eq_decide.mpr hsplit]
        · simp [Bool.or_assoc]
        · infer_instance
    · rw [if_neg hx, ih]
      have hsplit : (∃ c ∈ x :: xs, g c = i ∧ b.testBit c)
          ↔ (∃ c ∈ xs, g c = i ∧ b.testBit c) := by
        constructor
        · rintro ⟨c, hc, hci, hbc⟩
          rcases List.mem_cons.mp hc with hcx | hcxs
          · exact absurd (hcx ▸ hbc) hx
          · exact ⟨c, hcxs, hci, hbc⟩
        · rintro ⟨c, hc, hci, hbc⟩
          exact ⟨c, List.mem_cons_of_mem _ hc, hci, hbc⟩
      rw [decide_eq_decide.mpr hsplit]

theorem testBit_setBlockRow (row cb b i : Nat) :
    (setBlockRow row cb b).testBit i
      = if 8*cb ≤ i ∧ i < 8*cb + 8 then b.testBit (i - 8*cb) else row.testBit i := by
  unfold setBlockRow
  rw [testBit_setFold b (fun c => 8*cb+c), testBit_clearFold (fun c => 8*cb+c)]
  by_cases hin : 8*cb ≤ i ∧ i < 8*cb + 8
  · rw [if_pos hin]
    have h1 : decide (∀ c ∈ List.range 8, 8*cb + c ≠ i) = false := by
      apply decide_eq_false
      intro hall
      exact hall (i - 8*cb) (List.mem_range.mpr (by omega)) (by omega)
    rw [h1, Bool.and_false, Bool.false_or]
    by_cases hb : b.testBit (i - 8*cb)
    · rw [hb]
      exact decide_eq_true ⟨i - 8*cb, List.mem_range.mpr (by omega), by omega, hb⟩
    · rw [Bool.eq_false_iff.mpr hb]
      apply decide_eq_false
      rintro ⟨c, hc, hci, hbc⟩
      have hcv : c = i - 8*cb := by omega
      rw [hcv] at hbc
      exact hb hbc
  · rw [if_neg hin]
    have h1 : decide (∀ c ∈ List.range 8, 8*cb + c ≠ i) = true := decide_eq_true (by
      intro c hc
      have := List.mem_range.mp hc
      omega)
    have h2 : decide (∃ c ∈ List.range 8, 8*cb + c = i ∧ b.testBit c) = false :=
      decide_eq_false (by
        rintro ⟨c, hc, hci, _⟩
        have := List.mem_range.mp hc
        omega)
    rw [h1, h2, Bool.and_true, Bool.or_false]

theorem setBlock_bit (m : Matrix256) (rb cb : Nat) (blk : Matrix8) (r c : Nat) (hr : r < 256) :
    (m.setBlock rb cb blk).bit r c
      = if r / 8 = rb ∧ 8*cb ≤ c ∧ c < 8*cb + 8 then (blk.row (r % 8)).testBit (c - 8*cb)
        else m.bit r c := by
  unfold Matrix256.bit Matrix256.row
  rw [dif_pos hr, dif_pos hr]
  show ((m.setBlock rb cb blk).rows ⟨r, hr⟩).testBit c = _
  unfold Matrix256.setBlock
  show (if (⟨r, hr⟩ : Fin 256).val / 8 = rb
      then setBlockRow (m.rows ⟨r, hr⟩) cb (blk.row ((⟨r, hr⟩ : Fin 256).val % 8))
      else m.rows ⟨r, hr⟩).testBit c = _
  by_cases hrb : r / 8 = rb
  · rw [if_pos hrb, testBit_setBlockRow]
    by_cases hc : 8*cb ≤ c ∧ c < 8*cb + 8
    · rw [if_pos hc, if_pos ⟨hrb, hc⟩]
    · rw [if_neg hc, if_neg (by tauto)]
  · rw [if_neg hrb, if_neg (by tauto)]

theorem bitsToNat_all_false (k : Nat) (f : Nat → Bool) (h : ∀ i, i < k → f i = false) :
    bitsToNat k f = 0 := by
  apply Nat.eq_of_testBit_eq
  intro j
  rw [testBit_bitsToNat, Nat.zero_testBit]
  by_cases hj : j < k
  · rw [decide_eq_true hj, Bool.true_and, h j hj]
  · rw [decide_eq_false hj, Bool.false_and]

theorem Matrix256.zero_block (rb cb : Nat) : Matrix256.zero.block rb cb = Matrix8.zero := by
  apply Matrix8.ext8
  funext ro
  show bitsToNat 8 (fun c => Matrix256.zero.bit (8*rb + ro.val) (8*cb + c)) = 0
  apply bitsToNat_all_false
  intro c _
  show (Matrix256.zero.row (8*rb+ro.val)).testBit (8*cb+c) = false
  have hrow : Matrix256.zero.row (8*rb + ro.val) = 0 := by
    unfold Matrix256.row Matrix256.zero
    split <;> rfl
  rw [hrow, Nat.zero_testBit]

theorem Matrix256.block_setBlock_same (m : Matrix256) (rb cb : Nat) (blk : Matrix8)
    (hrb : rb < 32) (hblk : ∀ j : Fin 8, blk.rows j < 256) :
    (m.setBlock rb cb blk).block rb cb = blk := by
  apply Matrix8.ext8
  funext ro
  show bitsToNat 8 (fun c => (m.setBlock rb cb blk).bit (8*rb + ro.val) (8*cb + c))
    = blk.rows ro
  have hbit : ∀ c, c < 8 →
      (m.setBlock rb cb blk).bit (8*rb + ro.val) (8*cb + c) = (blk.rows ro).testBit c := by
    intro c hc
    rw [setBlock_bit m rb cb blk _ _ (by omega)]
    rw [if_pos ⟨by omega, by omega, by omega⟩]
    have h1 : (8*rb + ro.val) % 8 = ro.val := by omega
    have h2 : 8*cb + c - 8*cb = c := by omega
    rw [h1, h2, matrix8_row_eq blk ro.val ro.isLt]
  apply Nat.eq_of_testBit_eq
  intro j
  rw [testBit_bitsToNat]
  by_cases hj : j < 8
  · rw [decide_eq_true hj, Bool.true_and, hbit j hj]
  · rw [decide_eq_false hj, Bool.false_and]
    symm
    have h256 : (256:Nat) ≤ 2^j := by
      calc (256:Nat) = 2^8 := by norm_num
      _ ≤ 2^j := Nat.pow_le_pow_right (by norm_num) (by omega)
    have hlt : blk.rows ro < 2^j := lt_of_lt_of_le (hblk ro) h256
    simpa using Nat.testBit_lt_two_pow hlt

theorem Matrix256.block_setBlock_ne (m : Matrix256) (rb cb rb2 cb2 : Nat) (blk : Matrix8)
    (hne : rb2 ≠ rb ∨ cb2 ≠ cb) (hrb2 : rb2 < 32) :
    (m.setBlock rb cb blk).block rb2 cb2 = m.block rb2 cb2 := by
  apply Matrix8.ext8
  funext ro
  show bitsToNat 8 (fun c => (m.setBlock rb cb blk).bit (8*rb2 + ro.val) (8*cb2 + c))
    = bitsToNat 8 (fun c => m.bit (8*rb2 + ro.val) (8*cb2 + c))
  apply bitsToNat_congr
  intro c hc
  rw [setBlock_bit m rb cb blk _ _ (by omega)]
  rw [if_neg ?_]
  rintro ⟨h1, h2, h3⟩
  rcases hne with h | h
  · apply h
    omega
  · apply h
    omega

/-!
The sampling stages of `random_sparse_unsplit`: what each stage does to the
blocks, and the invariants of the returned matrix.
-/

theorem randomInvertible_succ (fuel : Nat) (rng : Rng) :
    Matrix8.randomInvertible (fuel+1) rng
      = if (Matrix8.random rng).1.isInvertible then some (Matrix8.random rng)
        else Matrix8.randomInvertible fuel (Matrix8.random rng).2 := rfl

theorem randomInvertible_props (fuel : Nat) : ∀ (rng : Rng) {d : Matrix8} {r2 : Rng},
    Matrix8.randomInvertible fuel rng = some (d, r2) →
    d.isInvertible = true ∧ ∀ j : Fin 8, d.rows j < 256 := by
  induction fuel with
  | zero => intro rng d r2 h; cases h
  | succ n ih =>
    intro rng d r2 h
    rw [randomInvertible_succ] at h
    by_cases hc : (Matrix8.random rng).1.isInvertible
    · rw [if_pos hc] at h
      injection h with h
      have hd : d = (Matrix8.random rng).1 := (congrArg Prod.fst h).symm
      constructor
      · rw [hd]
        exact hc
      · intro j
        rw [hd]
        show (rng.byteAt (4 * j.val)).val < 256
        exact (rng.byteAt (4 * j.val)).isLt
    · rw [if_neg hc] at h
      exact ih _ h

theorem sampleDiagBlocks_spec (fuel : Nat) : ∀ (ks : List Nat) (m : Matrix256) (rng : Rng)
    {m2 : Matrix256} {rng2 : Rng},
    sampleDiagBlocks fuel ks m rng = some (m2, rng2) →
    (∀ k ∈ ks, k < 32) →
    ∀ rb cb : Nat, rb < 32 →
      ((rb ∉ ks ∨ cb ≠ rb) → m2.block rb cb = m.block rb cb)
      ∧ (rb ∈ ks → cb = rb → (m2.block rb cb).isInvertible = true) := by
  intro ks
  induction ks with
  | nil =>
    intro m rng m2 rng2 h _ rb cb hrb
    injection h with h
    have hm : m2 = m := (congrArg Prod.fst h).symm
    exact ⟨fun _ => by rw [hm], fun hmem _ => absurd hmem (List.not_mem_nil _)⟩
  | cons k ks ih =>
    intro m rng m2 rng2 h hks rb cb hrb
    unfold sampleDiagBlocks at h
    cases hrng : Matrix8.randomInvertible fuel rng with
    | none => rw [hrng] at h; cases h
    | some p =>
      obtain ⟨d, rng1⟩ := p
      rw [hrng] at h
      have hk32 : k < 32 := hks k (by simp)
      have hks2 : ∀ j ∈ ks, j < 32 := fun j hj => hks j (by simp [hj])
      obtain ⟨hdinv, hdrows⟩ := randomInvertible_props fuel rng hrng
      have hrec := ih (m.setBlock k k d) rng1 h hks2
      constructor
      · intro hside
        have hside2 : rb ∉ ks ∨ cb ≠ rb := by
          rcases hside with hmem | hne
          · exact Or.inl (fun hin => hmem (List.mem_cons_of_mem _ hin))
          · exact Or.inr hne
        rw [(hrec rb cb hrb).1 hside2]
        apply Matrix256.block_setBlock_ne
        · rcases hside with hmem | hne
          · exact Or.inl (fun hrk => hmem (hrk ▸ List.mem_cons_self _ _))
          · by_cases hrk : rb = k
            · exact Or.inr (fun hck => hne (by omega))
            · exact Or.inl hrk
        · exact hrb
      · intro hmem hcb
        rcases List.mem_cons.mp hmem with hrk | hin
        · by_cases hinks : rb ∈ ks
          · exact (hrec rb cb hrb).2 hinks hcb
          · rw [(hrec rb cb hrb).1 (Or.inl hinks), hcb, hrk,
              Matrix256.block_setBlock_same m k k d hk32 hdrows]
            exact hdinv
        · exact (hrec rb cb hrb).2 hin hcb

theorem sampleSuperBlocks_cons (k : Nat) (ks : List Nat) (m : Matrix256) (rng : Rng) :
    sampleSuperBlocks (k::ks) m rng
      = sampleSuperBlocks ks (m.setBlock k (k+1) (Matrix8.random rng).1)
          (Matrix8.random rng).2 := rfl

theorem sampleSuperBlocks_block : ∀ (ks : List Nat) (m : Matrix256) (rng : Rng) (rb cb : Nat),
    rb < 32 → (∀ k ∈ ks, ¬(rb = k ∧ cb = k+1)) →
    (sampleSuperBlocks ks m rng).1.block rb cb = m.block rb cb := by
  intro ks
  induction ks with
  | nil => intro m rng rb cb _ _; rfl
  | cons k ks ih =>
    intro m rng rb cb hrb hspec
    rw [sampleSuperBlocks_cons]
    rw [ih _ _ rb cb hrb (fun j hj => hspec j (by simp [hj]))]
    apply Matrix256.block_setBlock_ne
    · have hk := hspec k (by simp)
      tauto
    · exact hrb

theorem sparseAttempt_spec (fuel : Nat) (rng : Rng) {m : Matrix256} {rng2 : Rng}
    (h : sparseAttempt fuel rng = some (m, rng2)) :
    m.SparseBanded ∧ ∀ k : Fin 32, (m.block k.val k.val).isInvertible = true := by
  have heq : sparseAttempt fuel rng
      = match sampleDiagBlocks fuel (List.range 32) Matrix256.zero rng with
        | none => none
        | some (m1, rng1) =>
          some ((sampleSuperBlocks (List.range 31) m1 rng1).1.setBlock 31 0
              (Matrix8.random (sampleSuperBlocks (List.range 31) m1 rng1).2).1,
            (Matrix8.random (sampleSuperBlocks (List.range 31) m1 rng1).2).2) := rfl
  rw [heq] at h
  cases hd : sampleDiagBlocks fuel (List.range 32) Matrix256.zero rng with
  | none => rw [hd] at h; cases h
  | some p =>
    obtain ⟨m1, rng1⟩ := p
    rw [hd] at h
    injection h with h
    have hm : m = (sampleSuperBlocks (List.range 31) m1 rng1).1.setBlock 31 0
        (Matrix8.random (sampleSuperBlocks (List.range 31) m1 rng1).2).1 :=
      (congrArg Prod.fst h).symm
    have hdiag := sampleDiagBlocks_spec fuel (List.range 32) Matrix256.zero rng hd
      (fun j hj => List.mem_range.mp hj)
    constructor
    · intro rb cb hnot
      have hnotor : ¬(cb.val = rb.val ∨ cb.val = rb.val + 1 ∨ (rb.val = 31 ∧ cb.val = 0)) :=
        hnot
      rw [hm]
      rw [Matrix256.block_setBlock_ne _ _ _ _ _ _ (by
          by_cases hr31 : rb.val = 31
          · exact Or.inr (fun hc0 => hnotor (Or.inr (Or.inr ⟨hr31, hc0⟩)))
          · exact Or.inl hr31) rb.isLt]
      rw [sampleSuperBlocks_block (List.range 31) m1 rng1 rb.val cb.val rb.isLt (by
        rintro j hj ⟨hrj, hcj⟩
        exact hnotor (Or.inr (Or.inl (by omega))))]
      rw [(hdiag rb.val cb.val rb.isLt).1 (Or.inr (fun hc => hnotor (Or.inl hc)))]
      exact Matrix256.zero_block rb.val cb.val
    · intro k
      rw [hm]
      rw [Matrix256.block_setBlock_ne _ _ _ _ _ _ (by
          by_cases hk31 : k.val = 31
          · exact Or.inr (by omega)
          · exact Or.inl hk31) k.isLt]
      rw [sampleSuperBlocks_block (List.range 31) m1 rng1 k.val k.val k.isLt (by
        rintro j hj ⟨hrj, hcj⟩
        omega)]
      exact (hdiag k.val k.val k.isLt).2 (List.mem_range.mpr k.isLt) rfl

theorem randomSparseUnsplit_spec (fuel : Nat) : ∀ (rng : Rng) {m : Matrix256} {rng2 : Rng},
    Matrix256.randomSparseUnsplit fuel rng = some (m, rng2) →
    m.SparseBanded ∧ (∀ k : Fin 32, (m.block k.val k.val).isInvertible = true)
      ∧ m.isInvertible = true := by
  induction fuel with
  | zero => intro rng m rng2 h; cases h
  | succ n ih =>
    intro rng m rng2 h
    have hsucc : Matrix256.randomSparseUnsplit (n+1) rng
        = match sparseAttempt (n+1) rng with
          | none => none
          | some (mc, rngc) =>
            if mc.isInvertible then some (mc, rngc)
            else Matrix256.randomSparseUnsplit n rngc := rfl
    rw [hsucc] at h
    cases hs : sparseAttempt (n+1) rng with
    | none => rw [hs] at h; cases h
    | some p =>
      obtain ⟨mc, rngc⟩ := p
      rw [hs] at h
      dsimp only at h
      by_cases hinv : mc.isInvertible
      · rw [if_pos hinv] at h
        injection h with h
        have hmc : mc = m := congrArg Prod.fst h
        obtain ⟨hsp, hdiag⟩ := sparseAttempt_spec (n+1) rng hs
        rw [hmc] at hsp hdiag hinv
        exact ⟨hsp, hdiag, hinv⟩
      · rw [if_neg hinv] at h
        exact ih _ h

/-- Claim C6: every matrix returned by `Matrix256::random_sparse_unsplit`
is sparse-banded (all 8×8 blocks outside the diagonal, the super-diagonal
and the wrap position (31,0) are the zero block), its 32 diagonal blocks
are invertible, and the full 256×256 matrix is invertible. -/
theorem randomSparseUnsplit_structure (fuel : Nat) (rng : Rng) :
    (Matrix256.randomSparseUnsplit fuel rng).elim True (fun p =>
      p.1.SparseBanded
      ∧ (∀ k : Fin 32, (p.1.block k.val k.val).isInvertible = true)
      ∧ p.1.isInvertible = true) := by
  cases h : Matrix256.randomSparseUnsplit fuel rng with
  | none => trivial
  | some p =>
    obtain ⟨m, r2⟩ := p
    exact randomSparseUnsplit_spec fuel rng h

/-!
The rejection loop of `Matrix8::random_invertible`: candidate `k` reads
the 32 stream bytes starting at offset `32*k`, and the loop returns the
first invertible candidate, however many singular candidates precede it.
-/

/-- The `k`-th candidate matrix the rejection loop draws. -/
def mat8Candidate (rng : Rng) (k : Nat) : Matrix8 :=
  (Matrix8.random (rng.advance (32*k))).1

theorem mat8Candidate_advance (rng : Rng) (j : Nat) :
    mat8Candidate (rng.advance 32) j = mat8Candidate rng (j+1) := by
  unfold mat8Candidate
  rw [Rng.advance_advance]
  have h32 : 32 + 32*j = 32*(j+1) := by omega
  rw [h32]

/-- Claim C4 (amended): the rejection loops have no failure cap.
`Matrix8::random_invertible` returns the first invertible candidate no
matter how many consecutive singular candidates precede it (the fuel only
models the source's unbounded loop; the source never stops after 1 000
failures nor signals any error). -/
theorem randomInvertible_first_success (rng : Rng) (fuel k : Nat) (hk : k < fuel)
    (hfail : ∀ j, j < k → (mat8Candidate rng j).isInvertible = false)
    (hsucc : (mat8Candidate rng k).isInvertible = true) :
    Matrix8.randomInvertible fuel rng
      = some (mat8Candidate rng k, rng.advance (32*(k+1))) := by
  induction k generalizing rng fuel with
  | zero =>
    cases fuel with
    | zero => omega
    | succ f =>
      have hsucc0 : (Matrix8.random rng).1.isInvertible = true := hsucc
      rw [randomInvertible_succ, if_pos hsucc0]
      rfl
  | succ k ih =>
    cases fuel with
    | zero => omega
    | succ f =>
      have h0 : (mat8Candidate rng 0).isInvertible = false := hfail 0 (by omega)
      have h0' : ¬((Matrix8.random rng).1.isInvertible = true) := by
        intro hc
        have : (mat8Candidate rng 0).isInvertible = true := hc
        rw [this] at h0
        cases h0
      rw [randomInvertible_succ, if_neg h0']
      have hrec := ih (rng.advance 32) f (by omega)
        (fun j hj => by rw [mat8Candidate_advance]; exact hfail (j+1) (by omega))
        (by rw [mat8Candidate_advance]; exact hsucc)
      have hr2 : (Matrix8.random rng).2 = rng.advance 32 := rfl
      rw [hr2, hrec, mat8Candidate_advance, Rng.advance_advance]
      have h32 : 32 + 32*(k+1) = 32*(k+1+1) := by omega
      rw [h32]

/-- A byte stream whose first 1 000 candidate matrices are all zero
(singular) and whose 1 001st candidate is the identity matrix. -/
def c4stream : Nat → Byte := fun n =>
  if n < 32000 then ⟨0, by omega⟩
  else if (n - 32000) % 4 = 0 then Byte.ofNat (1 <<< ((n - 32000) / 4)) else ⟨0, by omega⟩

set_option maxRecDepth 10000 in
set_option maxHeartbeats 2000000 in
/-- Witness for the amended C4 theorem: on `c4stream` the loop rejects
1 000 singular candidates and returns the 1 001st. -/
theorem randomInvertible_first_success_witness :
    Matrix8.randomInvertible 1001 ⟨c4stream, 0⟩
      = some (mat8Candidate ⟨c4stream, 0⟩ 1000, Rng.advance ⟨c4stream, 0⟩ 32032) :=
  randomInvertible_first_success ⟨c4stream, 0⟩ 1001 1000 (by omega) (by decide) (by decide)

set_option maxRecDepth 10000 in
set_option maxHeartbeats 2000000 in
/-- Claim C4, counterexample: 1 000 consecutive candidates are singular,
yet the sampler does not stop after them — it draws a further candidate
and succeeds, so no 1 000-failure cap exists. -/
theorem randomInvertible_no_cap :
    (∀ j, j < 1000 → (mat8Candidate ⟨c4stream, 0⟩ j).isInvertible = false)
    ∧ (Matrix8.randomInvertible 1001 ⟨c4stream, 0⟩).isSome = true := by
  constructor
  · decide
  · decide

/-!
The round-table algebra (claim C2): what the XOR of the 32 table outputs
actually computes.
-/

/-- Claim C2 (amended): for every round built by `build_round` from a
sparse-banded `A_curr`, the XOR over `i` of
`tables[i].get(S[i], S[(i+1) mod 32])` equals
`B_lin · sbox(A_curr(S)) ⊕ b_target` with `B_lin = A_next.lin⁻¹ · L` and
`b_target = A_next.lin⁻¹·A_next.bias ⊕ A_next.lin⁻¹·K̃`: the tables decode
the incoming state by applying `A_curr` forward (`A_curr.lin·S ⊕ bias`),
not by applying `A_curr⁻¹`. -/
theorem buildRound_xor_spec (rng : Rng) (a_curr next_affine : Affine256) (L : Matrix256)
    (K S : Vec32) (hsp : a_curr.lin.SparseBanded) :
    (buildRound rng a_curr next_affine L K).elim True (fun p =>
      next_affine.lin.invert.elim False (fun next_inv =>
        roundEval p.1 S = (next_inv.mul L).applyToBytes (sboxBytes (a_curr.apply S))
          + (next_inv.applyToBytes next_affine.bias + next_inv.applyToBytes K))) := by
  cases hb : buildRound rng a_curr next_affine L K with
  | none => trivial
  | some p =>
    obtain ⟨rt, rng2⟩ := p
    cases hinv : next_affine.lin.invert with
    | none =>
      exfalso
      unfold buildRound at hb
      rw [hinv] at hb
      cases hb
    | some next_inv =>
      exact buildRound_roundEval hinv hsp hb S

/-- An all-zeroes byte stream. -/
def c2rng : Rng := ⟨fun _ => ⟨0, by omega⟩, 0⟩

/-- The identity matrix is sparse-banded: the only non-zero blocks are
the (identity) diagonal blocks. -/
theorem identity_sparseBanded : Matrix256.identity.SparseBanded := by
  intro rb cb hnot
  apply Matrix8.ext8
  funext ro
  show bitsToNat 8
    (fun c => Matrix256.identity.bit (8*rb.val + ro.val) (8*cb.val + c)) = 0
  apply bitsToNat_all_false
  intro c hc
  show (Matrix256.identity.row (8*rb.val + ro.val)).testBit (8*cb.val + c) = false
  rw [matrix256_row_eq _ _ (by omega)]
  show ((2:Nat) ^ (8*rb.val + ro.val)).testBit (8*cb.val + c) = false
  rw [Nat.testBit_two_pow]
  apply decide_eq_false
  intro heq
  apply hnot
  left
  have := ro.isLt
  omega

/-- An affine map with a singular linear part (the source would panic on
`expect`; the embedding returns `none`). -/
def c2next : Affine256 := ⟨Matrix256.zero, 0⟩

/-- Witness for the amended C2 theorem: the sparse-banded hypothesis holds
at the identity encoding. -/
theorem buildRound_xor_spec_witness :
    (buildRound c2rng Affine256.identity c2next Matrix256.identity 0).elim True
      (fun p => c2next.lin.invert.elim False (fun next_inv =>
        roundEval p.1 0
          = (next_inv.mul Matrix256.identity).applyToBytes
              (sboxBytes (Affine256.identity.apply 0))
            + (next_inv.applyToBytes c2next.bias
              + next_inv.applyToBytes 0))) :=
  buildRound_xor_spec c2rng Affine256.identity c2next Matrix256.identity 0 0
    identity_sparseBanded

/-!
A concrete non-involutive sparse-banded matrix and the symbolic trace of
its Gaussian inversion: `c2M = I + E(0,8) + E(8,16)` (a double shear, with
entries in the super-diagonal blocks), whose inverse adds `E(0,16)`.
-/

/-- `I + E(0,8) + E(8,16)`: bit 8 of row 0 and bit 16 of row 8 are set on
top of the identity. -/
def c2M : Matrix256 :=
  ⟨fun r => if r.val = 0 then 2^0 ^^^ 2^8
    else if r.val = 8 then 2^8 ^^^ 2^16
    else 2^r.val⟩

/-- Its inverse, `I + E(0,8) + E(8,16) + E(0,16)`. -/
def c2Minv : Matrix256 :=
  ⟨fun r => if r.val = 0 then 2^0 ^^^ 2^8 ^^^ 2^16
    else if r.val = 8 then 2^8 ^^^ 2^16
    else 2^r.val⟩

/-- Left half of the elimination state before processing column `k`. -/
def c2L (k : Nat) : Fin 256 → Nat := fun r =>
  if r.val = 0 then (if k ≤ 8 then 2^0 ^^^ 2^8 else if k ≤ 16 then 2^0 ^^^ 2^16 else 2^0)
  else if r.val = 8 then (if k ≤ 16 then 2^8 ^^^ 2^16 else 2^8)
  else 2^r.val

/-- Right half of the elimination state before processing column `k`. -/
def c2R (k : Nat) : Fin 256 → Nat := fun r =>
  if r.val = 0 then (if k ≤ 8 then 2^0 else if k ≤ 16 then 2^0 ^^^ 2^8
    else 2^0 ^^^ 2^8 ^^^ 2^16)
  else if r.val = 8 then (if k ≤ 16 then 2^8 else 2^8 ^^^ 2^16)
  else 2^r.val

theorem testBit_xor_pow_pow (u v j : Nat) :
    ((2:Nat)^u ^^^ 2^v).testBit j = ((decide (u = j)).xor (decide (v = j))) := by
  rw [Nat.testBit_xor, Nat.testBit_two_pow, Nat.testBit_two_pow]

theorem testBit_xor_pow_pow_pow (u v w j : Nat) :
    ((2:Nat)^u ^^^ 2^v ^^^ 2^w).testBit j
      = (((decide (u = j)).xor (decide (v = j))).xor (decide (w = j))) := by
  rw [Nat.testBit_xor, testBit_xor_pow_pow, Nat.testBit_two_pow]

theorem find?_first {α : Type} (p : α → Bool) (col : α) :
    ∀ l : List α, col ∈ l → (∀ r, p r = true ↔ r = col) → l.find? p = some col := by
  intro l
  induction l with
  | nil => intro h; cases h
  | cons x xs ih =>
    intro hmem hp
    by_cases hx : p x = true
    · rw [List.find?_cons_of_pos _ hx, (hp x).mp hx]
    · rw [List.find?_cons_of_neg _ (by simpa using hx)]
      apply ih
      · rcases List.mem_cons.mp hmem with h | h
        · exact absurd ((hp x).mpr h.symm) hx
        · exact h
      · exact hp

theorem swapRows_self {n : Nat} (f : Fin n → Nat) (c : Fin n) : swapRows f c c = f := by
  funext r
  unfold swapRows
  by_cases h : r = c
  · rw [if_pos h, h]
  · rw [if_neg h, if_neg h]

theorem pivotSearch_of_unique {left : Fin 256 → Nat} {c : Fin 256}
    (h : ∀ r : Fin 256, (decide (c ≤ r) && (left r).testBit c.val) = true ↔ r = c) :
    pivotSearch 256 left c = some c :=
  find?_first _ c (List.finRange 256) (List.mem_finRange c) h

theorem elimStep_eq {n : Nat} {s : GaussState n} {col p : Fin n}
    (hp : pivotSearch n s.left col = some p) :
    elimStep s col = some ⟨clearCol (swapRows s.left p col) col (swapRows s.left p col),
      clearCol (swapRows s.left p col) col (swapRows s.right p col)⟩ := by
  unfold elimStep
  rw [hp]

/-- Column `k` of the traced state always pivots on the diagonal. -/
theorem c2_pivot (k : Nat) (c : Fin 256) (hc : c.val = k) :
    pivotSearch 256 (c2L k) c = some c := by
  apply pivotSearch_of_unique
  intro r
  constructor
  · intro h
    rw [Bool.and_eq_true] at h
    obtain ⟨h1, h2⟩ := h
    have hle : c.val ≤ r.val := of_decide_eq_true h1
    rw [hc] at h2
    apply Fin.ext
    unfold c2L at h2
    by_cases h0 : r.val = 0
    · omega
    · rw [if_neg h0] at h2
      by_cases h8 : r.val = 8
      · rw [if_pos h8] at h2
        by_cases hk16 : k ≤ 16
        · rw [if_pos hk16, testBit_xor_pow_pow] at h2
          have h816 : 8 = k ∨ 16 = k := by
            by_cases ha : (8:Nat) = k
            · exact Or.inl ha
            · right
              by_cases hb : (16:Nat) = k
              · exact hb
              · rw [decide_eq_false ha, decide_eq_false hb] at h2
                cases h2
          omega
        · rw [if_neg hk16, Nat.testBit_two_pow] at h2
          have := of_decide_eq_true h2
          omega
      · rw [if_neg h8, Nat.testBit_two_pow] at h2
        have := of_decide_eq_true h2
        omega
  · intro hrc
    rw [hrc, Bool.and_eq_true]
    refine ⟨decide_eq_true (le_refl c), ?_⟩
    unfold c2L
    rw [hc]
    by_cases h0 : k = 0
    · rw [if_pos h0, if_pos (by omega), testBit_xor_pow_pow, h0]
      rfl
    · rw [if_neg h0]
      by_cases h8 : k = 8
      · rw [if_pos h8, if_pos (by omega), testBit_xor_pow_pow, h8]
        rfl
      · rw [if_neg h8, Nat.testBit_two_pow]
        exact decide_eq_true rfl

/-- Away from columns 8 and 16 the clearing pass is the identity. -/
theorem c2_clear_quiet (k : Nat) (c : Fin 256) (hc : c.val = k) (hk8 : k ≠ 8)
    (hk16 : k ≠ 16) (g : Fin 256 → Nat) : clearCol (c2L k) c g = g := by
  funext r
  unfold clearCol
  rw [if_neg ?_]
  rintro ⟨hne, hbit⟩
  rw [hc] at hbit
  unfold c2L at hbit
  by_cases h0 : r.val = 0
  · rw [if_pos h0] at hbit
    by_cases hk8le : k ≤ 8
    · rw [if_pos hk8le, testBit_xor_pow_pow] at hbit
      have hk0 : k = 0 := by
        by_cases ha : (0:Nat) = k
        · omega
        · by_cases hb : (8:Nat) = k
          · omega
          · rw [decide_eq_false ha, decide_eq_false hb] at hbit
            cases hbit
      exact hne (Fin.ext (by omega))
    · rw [if_neg hk8le] at hbit
      by_cases hk16le : k ≤ 16
      · rw [if_pos hk16le, testBit_xor_pow_pow] at hbit
        have h016 : (0:Nat) = k ∨ (16:Nat) = k := by
          by_cases ha : (0:Nat) = k
          · exact Or.inl ha
          · by_cases hb : (16:Nat) = k
            · exact Or.inr hb
            · rw [decide_eq_false ha, decide_eq_false hb] at hbit
              cases hbit
        omega
      · rw [if_neg hk16le, Nat.testBit_two_pow] at hbit
        have := of_decide_eq_true hbit
        omega
  · rw [if_neg h0] at hbit
    by_cases h8 : r.val = 8
    · rw [if_pos h8] at hbit
      by_cases hk16le : k ≤ 16
      · rw [if_pos hk16le, testBit_xor_pow_pow] at hbit
        have h816 : (8:Nat) = k ∨ (16:Nat) = k := by
          by_cases ha : (8:Nat) = k
          · exact Or.inl ha
          · by_cases hb : (16:Nat) = k
            · exact Or.inr hb
            · rw [decide_eq_false ha, decide_eq_false hb] at hbit
              cases hbit
        omega
      · rw [if_neg hk16le, Nat.testBit_two_pow] at hbit
        have := of_decide_eq_true hbit
        omega
    · rw [if_neg h8, Nat.testBit_two_pow] at hbit
      have := of_decide_eq_true hbit
      exact hne (Fin.ext (by omega))

theorem c2L_succ_quiet (k : Nat) (hk8 : k ≠ 8) (hk16 : k ≠ 16) : c2L (k+1) = c2L k := by
  funext r
  unfold c2L
  by_cases h0 : r.val = 0
  · rw [if_pos h0, if_pos h0]
    by_cases ha : k ≤ 8
    · rw [if_pos ha, if_pos (by omega)]
    · rw [if_neg ha, if_neg (by omega)]
      by_cases hb : k ≤ 16
      · rw [if_pos hb, if_pos (by omega)]
      · rw [if_neg hb, if_neg (by omega)]
  · rw [if_neg h0, if_neg h0]
    by_cases h8 : r.val = 8
    · rw [if_pos h8, if_pos h8]
      by_cases hb : k ≤ 16
      · rw [if_pos hb, if_pos (by omega)]
      · rw [if_neg hb, if_neg (by omega)]
    · rw [if_neg h8, if_neg h8]

theorem c2R_succ_quiet (k : Nat) (hk8 : k ≠ 8) (hk16 : k ≠ 16) : c2R (k+1) = c2R k := by
  funext r
  unfold c2R
  by_cases h0 : r.val = 0
  · rw [if_pos h0, if_pos h0]
    by_cases ha : k ≤ 8
    · rw [if_pos ha, if_pos (by omega)]
    · rw [if_neg ha, if_neg (by omega)]
      by_cases hb : k ≤ 16
      · rw [if_pos hb, if_pos (by omega)]
      · rw [if_neg hb, if_neg (by omega)]
  · rw [if_neg h0, if_neg h0]
    by_cases h8 : r.val = 8
    · rw [if_pos h8, if_pos h8]
      by_cases hb : k ≤ 16
      · rw [if_pos hb, if_pos (by omega)]
      · rw [if_neg hb, if_neg (by omega)]
    · rw [if_neg h8, if_neg h8]

theorem c2L_at0 (k : Nat) (r : Fin 256) (h : r.val = 0) :
    c2L k r = (if k ≤ 8 then 2^0 ^^^ 2^8 else if k ≤ 16 then 2^0 ^^^ 2^16 else 2^0) := by
  unfold c2L
  rw [if_pos h]

theorem c2L_at8 (k : Nat) (r : Fin 256) (h : r.val = 8) :
    c2L k r = (if k ≤ 16 then 2^8 ^^^ 2^16 else 2^8) := by
  unfold c2L
  rw [if_neg (by omega), if_pos h]

theorem c2L_atOther (k : Nat) (r : Fin 256) (h0 : r.val ≠ 0) (h8 : r.val ≠ 8) :
    c2L k r = 2^r.val := by
  unfold c2L
  rw [if_neg h0, if_neg h8]

theorem c2R_at0 (k : Nat) (r : Fin 256) (h : r.val = 0) :
    c2R k r = (if k ≤ 8 then 2^0 else if k ≤ 16 then 2^0 ^^^ 2^8
      else 2^0 ^^^ 2^8 ^^^ 2^16) := by
  unfold c2R
  rw [if_pos h]

theorem c2R_at8 (k : Nat) (r : Fin 256) (h : r.val = 8) :
    c2R k r = (if k ≤ 16 then 2^8 else 2^8 ^^^ 2^16) := by
  unfold c2R
  rw [if_neg (by omega), if_pos h]

theorem c2R_atOther (k : Nat) (r : Fin 256) (h0 : r.val ≠ 0) (h8 : r.val ≠ 8) :
    c2R k r = 2^r.val := by
  unfold c2R
  rw [if_neg h0, if_neg h8]

/-- Column 8 clears row 0 (the only off-pivot row with bit 8 set). -/
theorem c2_clear_8_gen (g : Fin 256 → Nat) :
    clearCol (c2L 8) ⟨8, by omega⟩ g
      = fun r => if r.val = 0 then g r ^^^ g ⟨8, by omega⟩ else g r := by
  funext r
  unfold clearCol
  by_cases h0 : r.val = 0
  · rw [if_pos ⟨by
        intro he
        have h2 : r.val = 8 := congrArg Fin.val he
        omega, by
        rw [c2L_at0 8 r h0, if_pos (by omega)]
        show ((2:Nat)^0 ^^^ 2^8).testBit 8 = true
        rw [testBit_xor_pow_pow]
        rfl⟩, if_pos h0]
  · rw [if_neg ?_, if_neg h0]
    rintro ⟨hne, hbit⟩
    by_cases h8 : r.val = 8
    · exact hne (Fin.ext h8)
    · rw [c2L_atOther 8 r h0 h8, Nat.testBit_two_pow] at hbit
      exact h8 (of_decide_eq_true hbit)

theorem c2_clear_8_left : clearCol (c2L 8) ⟨8, by omega⟩ (c2L 8) = c2L 9 := by
  rw [c2_clear_8_gen]
  funext r
  have hv8 : c2L 8 ⟨8, by omega⟩ = 2^8 ^^^ 2^16 := by
    rw [c2L_at8 8 ⟨8, by omega⟩ rfl, if_pos (by omega)]
  by_cases h0 : r.val = 0
  · rw [if_pos h0, c2L_at0 8 r h0, hv8, c2L_at0 9 r h0]
    rw [if_pos (by omega), if_neg (by omega), if_pos (by omega)]
    decide
  · rw [if_neg h0]
    by_cases h8 : r.val = 8
    · rw [c2L_at8 8 r h8, c2L_at8 9 r h8, if_pos (by omega), if_pos (by omega)]
    · rw [c2L_atOther 8 r h0 h8, c2L_atOther 9 r h0 h8]

theorem c2_clear_8_right : clearCol (c2L 8) ⟨8, by omega⟩ (c2R 8) = c2R 9 := by
  rw [c2_clear_8_gen]
  funext r
  have hv8 : c2R 8 ⟨8, by omega⟩ = 2^8 := by
    rw [c2R_at8 8 ⟨8, by omega⟩ rfl, if_pos (by omega)]
  by_cases h0 : r.val = 0
  · rw [if_pos h0, c2R_at0 8 r h0, hv8, c2R_at0 9 r h0]
    rw [if_pos (by omega), if_neg (by omega), if_pos (by omega)]
  · rw [if_neg h0]
    by_cases h8 : r.val = 8
    · rw [c2R_at8 8 r h8, c2R_at8 9 r h8, if_pos (by omega), if_pos (by omega)]
    · rw [c2R_atOther 8 r h0 h8, c2R_atOther 9 r h0 h8]

/-- Column 16 clears rows 0 and 8. -/
theorem c2_clear_16_gen (g : Fin 256 → Nat) :
    clearCol (c2L 16) ⟨16, by omega⟩ g
      = fun r => if r.val = 0 ∨ r.val = 8 then g r ^^^ g ⟨16, by omega⟩ else g r := by
  funext r
  unfold clearCol
  by_cases h08 : r.val = 0 ∨ r.val = 8
  · rw [if_pos ⟨by
        intro he
        have h2 : r.val = 16 := congrArg Fin.val he
        omega, by
        rcases h08 with h0 | h8
        · rw [c2L_at0 16 r h0, if_neg (by omega), if_pos (by omega)]
          show ((2:Nat)^0 ^^^ 2^16).testBit 16 = true
          rw [testBit_xor_pow_pow]
          rfl
        · rw [c2L_at8 16 r h8, if_pos (by omega)]
          show ((2:Nat)^8 ^^^ 2^16).testBit 16 = true
          rw [testBit_xor_pow_pow]
          rfl⟩, if_pos h08]
  · rw [if_neg ?_, if_neg h08]
    rintro ⟨hne, hbit⟩
    have h0 : r.val ≠ 0 := fun h => h08 (Or.inl h)
    have h8 : r.val ≠ 8 := fun h => h08 (Or.inr h)
    rw [c2L_atOther 16 r h0 h8, Nat.testBit_two_pow] at hbit
    exact hne (Fin.ext (of_decide_eq_true hbit))

theorem c2_clear_16_left : clearCol (c2L 16) ⟨16, by omega⟩ (c2L 16) = c2L 17 := by
  rw [c2_clear_16_gen]
  funext r
  have hv16 : c2L 16 ⟨16, by omega⟩ = 2^16 :=
    c2L_atOther 16 ⟨16, by omega⟩ (by decide) (by decide)
  by_cases h08 : r.val = 0 ∨ r.val = 8
  · rw [if_pos h08, hv16]
    rcases h08 with h0 | h8
    · rw [c2L_at0 16 r h0, c2L_at0 17 r h0]
      rw [if_neg (by omega), if_pos (by omega), if_neg (by omega), if_neg (by omega)]
      decide
    · rw [c2L_at8 16 r h8, c2L_at8 17 r h8]
      rw [if_pos (by omega), if_neg (by omega)]
      decide
  · rw [if_neg h08]
    have h0 : r.val ≠ 0 := fun h => h08 (Or.inl h)
    have h8 : r.val ≠ 8 := fun h => h08 (Or.inr h)
    rw [c2L_atOther 16 r h0 h8, c2L_atOther 17 r h0 h8]

theorem c2_clear_16_right : clearCol (c2L 16) ⟨16, by omega⟩ (c2R 16) = c2R 17 := by
  rw [c2_clear_16_gen]
  funext r
  have hv16 : c2R 16 ⟨16, by omega⟩ = 2^16 :=
    c2R_atOther 16 ⟨16, by omega⟩ (by decide) (by decide)
  by_cases h08 : r.val = 0 ∨ r.val = 8
  · rw [if_pos h08, hv16]
    rcases h08 with h0 | h8
    · rw [c2R_at0 16 r h0, c2R_at0 17 r h0]
      rw [if_neg (by omega), if_pos (by omega), if_neg (by omega), if_neg (by omega)]
    · rw [c2R_at8 16 r h8, c2R_at8 17 r h8]
      rw [if_pos (by omega), if_neg (by omega)]
  · rw [if_neg h08]
    have h0 : r.val ≠ 0 := fun h => h08 (Or.inl h)
    have h8 : r.val ≠ 8 := fun h => h08 (Or.inr h)
    rw [c2R_atOther 16 r h0 h8, c2R_atOther 17 r h0 h8]

/-- Index-aware invariant preservation through `foldlM`. -/
theorem foldlM_indexed {σ α : Type} (step : σ → α → Option σ) (P : Nat → σ → Prop) :
    ∀ (l : List α) (k : Nat) (s : σ),
      (∀ j (hj : j < l.length) s2, P (k + j) s2 →
        ∃ s3, step s2 (l.get ⟨j, hj⟩) = some s3 ∧ P (k + j + 1) s3) →
      P k s → ∃ s2, l.foldlM step s = some s2 ∧ P (k + l.length) s2 := by
  intro l
  induction l with
  | nil =>
    intro k s _ hP
    exact ⟨s, rfl, hP⟩
  | cons x xs ih =>
    intro k s hstep hP
    obtain ⟨s1, hx, hP1⟩ := hstep 0 (by simp) s hP
    have hstep2 : ∀ j (hj : j < xs.length) s2, P (k+1 + j) s2 →
        ∃ s3, step s2 (xs.get ⟨j, hj⟩) = some s3 ∧ P (k+1 + j + 1) s3 := by
      intro j hj s2 hPj
      have hj2 : j+1 < (x :: xs).length := by
        simp only [List.length_cons]
        omega
      have harith : k + (j+1) = k+1+j := by omega
      obtain ⟨s3, ha, hb⟩ := hstep (j+1) hj2 s2 (by rw [harith]; exact hPj)
      refine ⟨s3, ha, ?_⟩
      have harith2 : k + (j+1) + 1 = k+1+j+1 := by omega
      rw [← harith2]
      exact hb
    have hP1' : P (k+1) s1 := hP1
    obtain ⟨s2, hxs, hP2⟩ := ih (k+1) s1 hstep2 hP1'
    refine ⟨s2, ?_, ?_⟩
    · show (x :: xs).foldlM step s = some s2
      have hx2 : step s x = some s1 := hx
      rw [List.foldlM_cons, hx2]
      simpa using hxs
    · have harith3 : k + (x :: xs).length = k + 1 + xs.length := by
        simp only [List.length_cons]
        omega
      rw [harith3]
      exact hP2

/-- The full symbolic elimination trace of `c2M`. -/
theorem c2_gaussSteps :
    ∃ s2, gaussSteps 256 ⟨c2M.rows, idRows 256⟩ = some s2
      ∧ s2.left = c2L 256 ∧ s2.right = c2R 256 := by
  have h := foldlM_indexed elimStep (fun k s => s.left = c2L k ∧ s.right = c2R k)
    (List.finRange 256) 0 ⟨c2M.rows, idRows 256⟩ ?_ ?_
  · obtain ⟨s2, hfold, hP⟩ := h
    have hlen : (0 : Nat) + (List.finRange 256).length = 256 := by simp
    rw [hlen] at hP
    exact ⟨s2, hfold, hP.1, hP.2⟩
  · intro j hj s2 hP
    have hj256 : j < 256 := by simpa using hj
    have hzj : (0 : Nat) + j = j := by omega
    rw [hzj] at hP
    obtain ⟨hL, hR⟩ := hP
    have hget : (List.finRange 256).get ⟨j, hj⟩ = ⟨j, hj256⟩ := by
      apply Fin.ext
      rw [List.get_eq_getElem]
      simp [List.getElem_finRange]
    have hpiv : pivotSearch 256 s2.left ⟨j, hj256⟩ = some ⟨j, hj256⟩ := by
      rw [hL]
      exact c2_pivot j ⟨j, hj256⟩ rfl
    refine ⟨⟨clearCol (c2L j) ⟨j, hj256⟩ (c2L j), clearCol (c2L j) ⟨j, hj256⟩ (c2R j)⟩,
      ?_, ?_, ?_⟩
    · rw [hget, elimStep_eq hpiv, swapRows_self, swapRows_self, hL, hR]
    · show clearCol (c2L j) ⟨j, hj256⟩ (c2L j) = c2L (0 + j + 1)
      have hzj1 : (0 : Nat) + j + 1 = j + 1 := by omega
      rw [hzj1]
      by_cases h8 : j = 8
      · subst h8
        exact c2_clear_8_left
      · by_cases h16 : j = 16
        · subst h16
          exact c2_clear_16_left
        · rw [c2_clear_quiet j ⟨j, hj256⟩ rfl h8 h16, c2L_succ_quiet j h8 h16]
    · show clearCol (c2L j) ⟨j, hj256⟩ (c2R j) = c2R (0 + j + 1)
      have hzj1 : (0 : Nat) + j + 1 = j + 1 := by omega
      rw [hzj1]
      by_cases h8 : j = 8
      · subst h8
        exact c2_clear_8_right
      · by_cases h16 : j = 16
        · subst h16
          exact c2_clear_16_right
        · rw [c2_clear_quiet j ⟨j, hj256⟩ rfl h8 h16, c2R_succ_quiet j h8 h16]
  · constructor
    · funext r
      show (if r.val = 0 then 2^0 ^^^ 2^8 else if r.val = 8 then 2^8 ^^^ 2^16
        else 2^r.val) = c2L 0 r
      by_cases h0 : r.val = 0
      · rw [c2L_at0 0 r h0, if_pos h0, if_pos (show (0:Nat) ≤ 8 by omega)]
      · by_cases h8 : r.val = 8
        · rw [c2L_at8 0 r h8, if_neg h0, if_pos h8, if_pos (show (0:Nat) ≤ 16 by omega)]
        · rw [c2L_atOther 0 r h0 h8, if_neg h0, if_neg h8]
    · funext r
      show 2^r.val = c2R 0 r
      by_cases h0 : r.val = 0
      · rw [c2R_at0 0 r h0, if_pos (show (0:Nat) ≤ 8 by omega), h0]
      · by_cases h8 : r.val = 8
        · rw [c2R_at8 0 r h8, if_pos (show (0:Nat) ≤ 16 by omega), h8]
        · rw [c2R_atOther 0 r h0 h8]

/-- The inverse of the double shear, computed by the source's Gaussian
elimination. -/
theorem c2M_invert : c2M.invert = some c2Minv := by
  obtain ⟨s2, hfold, hL, hR⟩ := c2_gaussSteps
  show (gaussInvert 256 c2M.rows).map Matrix256.mk = some c2Minv
  unfold gaussInvert
  rw [hfold]
  show some (Matrix256.mk s2.right) = some c2Minv
  rw [hR]
  refine congrArg some ?_
  apply Matrix256.ext256
  funext r
  show c2R 256 r = (if r.val = 0 then 2^0 ^^^ 2^8 ^^^ 2^16
    else if r.val = 8 then 2^8 ^^^ 2^16 else 2^r.val)
  by_cases h0 : r.val = 0
  · rw [c2R_at0 256 r h0, if_neg (show ¬((256:Nat) ≤ 8) by omega),
      if_neg (show ¬((256:Nat) ≤ 16) by omega), if_pos h0]
  · by_cases h8 : r.val = 8
    · rw [c2R_at8 256 r h8, if_neg (show ¬((256:Nat) ≤ 16) by omega), if_neg h0, if_pos h8]
    · rw [c2R_atOther 256 r h0 h8, if_neg h0, if_neg h8]


/-- The double shear is sparse-banded: its off-diagonal bits lie in the
super-diagonal blocks `(0,1)` and `(1,2)`. -/
theorem c2M_sparseBanded : c2M.SparseBanded := by
  intro rb cb hnot
  apply Matrix8.ext8
  funext ro
  show bitsToNat 8 (fun c => c2M.bit (8*rb.val + ro.val) (8*cb.val + c)) = 0
  apply bitsToNat_all_false
  intro c hc
  show (c2M.row (8*rb.val + ro.val)).testBit (8*cb.val + c) = false
  rw [matrix256_row_eq _ _ (by omega)]
  show ((if (8*rb.val + ro.val : Nat) = 0 then 2^0 ^^^ 2^8
    else if (8*rb.val + ro.val : Nat) = 8 then 2^8 ^^^ 2^16
    else 2^(8*rb.val + ro.val))).testBit (8*cb.val + c) = false
  have hro := ro.isLt
  have hrb := rb.isLt
  have hcb := cb.isLt
  by_cases h0 : (8*rb.val + ro.val : Nat) = 0
  · rw [if_pos h0, testBit_xor_pow_pow]
    have d1 : (0:Nat) ≠ 8*cb.val + c := by
      intro h
      exact hnot (Or.inl (by omega))
    have d2 : (8:Nat) ≠ 8*cb.val + c := by
      intro h
      exact hnot (Or.inr (Or.inl (by omega)))
    rw [decide_eq_false d1, decide_eq_false d2]
    rfl
  · rw [if_neg h0]
    by_cases h8 : (8*rb.val + ro.val : Nat) = 8
    · rw [if_pos h8, testBit_xor_pow_pow]
      have d1 : (8:Nat) ≠ 8*cb.val + c := by
        intro h
        exact hnot (Or.inl (by omega))
      have d2 : (16:Nat) ≠ 8*cb.val + c := by
        intro h
        exact hnot (Or.inr (Or.inl (by omega)))
      rw [decide_eq_false d1, decide_eq_false d2]
      rfl
    · rw [if_neg h8, Nat.testBit_two_pow]
      apply decide_eq_false
      intro h
      exact hnot (Or.inl (by omega))

/-- The shear as an affine encoding with zero bias. -/
def c2acurr : Affine256 := ⟨c2M, 0⟩

/-- Its affine inverse. -/
def c2ainvAff : Affine256 := ⟨c2Minv, 0⟩

theorem c2acurr_invert : c2acurr.invert = some c2ainvAff := by
  unfold Affine256.invert
  rw [show c2acurr.lin.invert = some c2Minv from c2M_invert]
  show some (⟨c2Minv, c2Minv.applyToBytes c2acurr.bias⟩ : Affine256) = some c2ainvAff
  rw [show c2acurr.bias = (0:Vec32) from rfl, Matrix256.applyToBytes_zero]
  rfl

/-- A state whose byte 2 is 1 and whose other bytes are 0: the shear and
its inverse move bit 16 to byte 0 differently. -/
def c2S : Vec32 := fun i => if i.val = 2 then ⟨1, by omega⟩ else 0

/-- Claim C2, counterexample: with `A_curr` the sparse-banded double-shear
encoding, `A_next = A_curr`, `L` the identity and `K̃ = 0`, the XOR of the
32 table outputs differs at byte 0 from the claimed
`B_lin · sbox(A_curr⁻¹·S) ⊕ b_target` — the tables apply `A_curr` forward,
and `A_curr` is not an involution. -/
theorem buildRound_claim_counterexample :
    c2acurr.invert.elim False (fun ainv =>
      (buildRound c2rng c2acurr c2acurr Matrix256.identity 0).elim False (fun p =>
        c2acurr.lin.invert.elim False (fun next_inv =>
          roundEval p.1 c2S
            ≠ (next_inv.mul Matrix256.identity).applyToBytes (sboxBytes (ainv.apply c2S))
              + (next_inv.applyToBytes c2acurr.bias
                + next_inv.applyToBytes (0:Vec32))))) := by
  have hlin : c2acurr.lin.invert = some c2Minv := c2M_invert
  have hb := @buildRound_eq c2rng c2acurr c2acurr Matrix256.identity (0:Vec32) c2Minv hlin
  rw [c2acurr_invert, hb, hlin]
  simp only [Option.elim]
  have hlhs := buildRound_roundEval hlin (show c2acurr.lin.SparseBanded from c2M_sparseBanded) hb c2S
  intro h
  have h4 : (c2Minv.mul Matrix256.identity).applyToBytes (sboxBytes (c2acurr.apply c2S))
      + (c2Minv.applyToBytes c2acurr.bias + c2Minv.applyToBytes (0:Vec32))
      = (c2Minv.mul Matrix256.identity).applyToBytes (sboxBytes (c2ainvAff.apply c2S))
        + (c2Minv.applyToBytes c2acurr.bias + c2Minv.applyToBytes (0:Vec32)) := by
    rw [← hlhs]
    exact h
  have h2 := add_right_cancel h4
  rw [Matrix256.applyToBytes_mul, Matrix256.applyToBytes_mul,
    Matrix256.applyToBytes_identity, Matrix256.applyToBytes_identity] at h2
  have h3 := congrArg c2M.applyToBytes h2
  rw [Matrix256.invert_cancel_right c2M_invert, Matrix256.invert_cancel_right c2M_invert] at h3
  exact absurd (congrFun h3 ⟨0, by omega⟩) (by decide)


/-!
## Functional correctness of the generated instance

First: the matrix produced by `from_linear_transform f` agrees with `f`
whenever `f` is additive.  Bit `c` of row `r` holds bit `r` of `f` applied
to the `c`-th basis vector, so the matrix acts correctly on basis vectors,
and additivity extends this to every input.
-/

theorem fromLinearTransform_bit (f : Vec32 → Vec32) (r : Fin 256) (c : Nat) (hc : c < 256) :
    bitZ ((Matrix256.fromLinearTransform f).rows r) c
      = vecZ (f (unitVec ⟨c/8, by omega⟩ (c % 8))) r := by
  show bitZ (bitsToNat 256 (fun cc => if h : cc < 256 then
      ((f (unitVec ⟨cc/8, by omega⟩ (cc % 8))) ⟨r.val/8, by omega⟩).val.testBit (r.val % 8)
      else false)) c = vecZ (f (unitVec ⟨c/8, by omega⟩ (c % 8))) r
  unfold vecZ bitZ
  rw [testBit_bitsToNat, decide_eq_true hc, Bool.true_and, dif_pos hc,
    testBit_bytesToNat_lt _ _ r.isLt]

theorem vecZ_unitVec (i : Fin 32) (b : Nat) (hb : b < 8) (k : Fin 256) :
    vecZ (unitVec i b) k = if k.val = 8 * i.val + b then 1 else 0 := by
  unfold vecZ bitZ
  rw [testBit_bytesToNat_lt _ _ k.isLt]
  by_cases hk : (⟨k.val/8, by omega⟩ : Fin 32) = i
  · have hiv : k.val / 8 = i.val := congrArg Fin.val hk
    show (if (unitVec i b ⟨k.val/8, by omega⟩).val.testBit (k.val % 8) then (1:ZMod 2) else 0)
      = _
    unfold unitVec
    rw [if_pos hk]
    have hpow : (1 <<< b) = 2^b := by rw [Nat.shiftLeft_eq, one_mul]
    have hlt : (2:Nat)^b < 256 :=
      lt_of_le_of_lt (Nat.pow_le_pow_right (by omega) (by omega : b ≤ 7)) (by norm_num)
    show (if ((1 <<< b) % 256).testBit (k.val % 8) then (1:ZMod 2) else 0) = _
    rw [hpow, Nat.mod_eq_of_lt hlt, Nat.testBit_two_pow]
    by_cases he : k.val % 8 = b
    · rw [decide_eq_true (show b = k.val % 8 from he.symm),
        if_pos (show k.val = 8*i.val + b by omega)]
      rfl
    · rw [decide_eq_false (fun h : b = k.val % 8 => he h.symm),
        if_neg (show ¬ k.val = 8*i.val + b by omega)]
      rfl
  · show (if (unitVec i b ⟨k.val/8, by omega⟩).val.testBit (k.val % 8) then (1:ZMod 2) else 0)
      = _
    unfold unitVec
    rw [if_neg hk]
    have hz : ((0:Byte)).val.testBit (k.val % 8) = false := by
      rw [Byte.val_zero, Nat.zero_testBit]
    rw [hz]
    have hne : ¬ k.val = 8*i.val + b := by
      intro h
      apply hk
      apply Fin.ext
      show k.val/8 = i.val
      omega
    rw [if_neg hne]
    rfl

theorem mulVec_std_basis (M : Matrix (Fin 256) (Fin 256) (ZMod 2)) (jv : Nat)
    (hj : jv < 256) (r : Fin 256) :
    M.mulVec (fun k => if k.val = jv then 1 else 0) r = M r ⟨jv, hj⟩ := by
  unfold Matrix.mulVec Matrix.dotProduct
  have hterm : ∀ k : Fin 256, M r k * (if k.val = jv then 1 else 0)
      = if k = (⟨jv, hj⟩ : Fin 256) then M r k else 0 := by
    intro k
    by_cases hk : k.val = jv
    · rw [if_pos hk, mul_one, if_pos (Fin.ext hk)]
    · rw [if_neg hk, mul_zero, if_neg (fun h => hk (congrArg Fin.val h))]
  rw [Finset.sum_congr rfl (fun k _ => hterm k)]
  rw [Finset.sum_ite_eq' Finset.univ (⟨jv, hj⟩ : Fin 256) (fun k => M r k)]
  rw [if_pos (Finset.mem_univ _)]

theorem fromLinearTransform_unit (f : Vec32 → Vec32) (i : Fin 32) (b : Nat) (hb : b < 8) :
    (Matrix256.fromLinearTransform f).applyToBytes (unitVec i b) = f (unitVec i b) := by
  apply vecZ_inj
  rw [vecZ_applyToBytes]
  funext r
  have hvz : vecZ (unitVec i b) = (fun k : Fin 256 => if k.val = 8*i.val + b then 1 else 0) :=
    funext (vecZ_unitVec i b hb)
  rw [hvz, mulVec_std_basis _ (8*i.val+b) (by omega) r]
  show bitZ ((Matrix256.fromLinearTransform f).rows r) (8*i.val+b) = vecZ (f (unitVec i b)) r
  rw [fromLinearTransform_bit f r (8*i.val+b) (by omega)]
  have h1 : (⟨(8*i.val+b)/8, by omega⟩ : Fin 32) = i := by
    apply Fin.ext
    show (8*i.val+b)/8 = i.val
    omega
  have h2 : (8*i.val+b) % 8 = b := by omega
  rw [h1, h2]

theorem fromLinearTransform_spec (f : Vec32 → Vec32)
    (hadd : ∀ u v : Vec32, f (u + v) = f u + f v) (v : Vec32) :
    (Matrix256.fromLinearTransform f).applyToBytes v = f v := by
  have hf0 : f 0 = 0 := by
    calc f 0 = f (0 + 0) := by rw [add_zero]
    _ = f 0 + f 0 := hadd 0 0
    _ = 0 := Vec32.add_self _
  let fh : Vec32 →+ Vec32 := ⟨⟨f, hf0⟩, fun a b => hadd a b⟩
  have hstep : ∀ i : Fin 32, (applyHom (Matrix256.fromLinearTransform f)) (singleByte i (v i))
      = fh (singleByte i (v i)) := by
    intro i
    rw [singleByte_decomp, map_sum, map_sum]
    refine Finset.sum_congr rfl (fun b hb => ?_)
    have hb8 : b < 8 := Finset.mem_range.mp hb
    by_cases hbit : (v i).val.testBit b
    · rw [if_pos hbit]
      exact fromLinearTransform_unit f i b hb8
    · rw [if_neg hbit, map_zero, map_zero]
  calc (Matrix256.fromLinearTransform f).applyToBytes v
      = (applyHom (Matrix256.fromLinearTransform f)) (∑ i : Fin 32, singleByte i (v i)) := by
        rw [sum_singleByte]
        rfl
    _ = ∑ i : Fin 32, (applyHom (Matrix256.fromLinearTransform f)) (singleByte i (v i)) :=
        map_sum _ _ _
    _ = ∑ i : Fin 32, fh (singleByte i (v i)) := Finset.sum_congr rfl (fun i _ => hstep i)
    _ = fh (∑ i : Fin 32, singleByte i (v i)) := (map_sum fh _ _).symm
    _ = f v := by
        rw [sum_singleByte]
        rfl


/-!
Additivity of the AES linear layer (`xtime`, `mix_columns`, `shift_rows`)
and the algebra of the two 16-byte halves of the doubled state.
-/

theorem shift_mod_xor (x y : Nat) :
    ((x ^^^ y) <<< 1) % 256 = ((x <<< 1) % 256) ^^^ ((y <<< 1) % 256) := by
  have h256 : (256:Nat) = 2^8 := by norm_num
  rw [h256]
  apply Nat.eq_of_testBit_eq
  intro i
  simp only [Nat.testBit_mod_two_pow, Nat.testBit_shiftLeft, Nat.testBit_xor]
  cases hd : decide (i < 8) <;> cases he : decide (1 ≤ i) <;>
    cases hx : x.testBit (i - 1) <;> cases hy : y.testBit (i - 1) <;> rfl

theorem and128_testBit (x : Nat) : (x &&& 0x80 ≠ 0) ↔ x.testBit 7 = true := by
  have h : (0x80:Nat) = 2^7 := by norm_num
  rw [h, Nat.and_two_pow]
  cases hx : x.testBit 7 <;> simp

theorem Byte.ofNat_val (a : Byte) : Byte.ofNat a.val = a := Byte.extVal (Nat.mod_eq_of_lt a.isLt)

theorem xtime_val (b : Byte) : (xtime b).val
    = if b.val.testBit 7 then ((b.val <<< 1) % 256) ^^^ 0x1b else (b.val <<< 1) % 256 := by
  show (if b.val &&& 0x80 ≠ 0
      then Byte.ofNat ((Byte.ofNat (b.val <<< 1)).val ^^^ 0x1b)
      else Byte.ofNat (b.val <<< 1)).val = _
  by_cases hc : b.val &&& 0x80 ≠ 0
  · rw [if_pos hc, if_pos ((and128_testBit b.val).mp hc)]
    show (((b.val <<< 1) % 256) ^^^ 0x1b) % 256 = ((b.val <<< 1) % 256) ^^^ 0x1b
    apply Nat.mod_eq_of_lt
    have h1 : (b.val <<< 1) % 256 < 256 := Nat.mod_lt _ (by omega)
    have h2 : (0x1b:Nat) < 256 := by omega
    exact Nat.xor_lt_two_pow (n := 8) h1 h2
  · rw [if_neg hc, if_neg (fun ht => hc ((and128_testBit b.val).mpr ht))]
    rfl

theorem xtime_add (a b : Byte) : xtime (a + b) = xtime a + xtime b := by
  have hx1 : ∀ u v : Nat, (u ^^^ v) ^^^ 0x1b = u ^^^ (v ^^^ 0x1b) :=
    fun u v => Nat.xor_assoc u v 0x1b
  have hx2 : ∀ u v : Nat, (u ^^^ v) ^^^ 0x1b = (u ^^^ 0x1b) ^^^ v := by
    intro u v
    rw [Nat.xor_assoc, Nat.xor_comm v 0x1b, ← Nat.xor_assoc]
  have hx3 : ∀ u v : Nat, u ^^^ v = (u ^^^ 0x1b) ^^^ (v ^^^ 0x1b) := by
    intro u v
    rw [Nat.xor_assoc, ← Nat.xor_assoc 0x1b v 0x1b, Nat.xor_comm 0x1b v,
      Nat.xor_assoc v 0x1b 0x1b, Nat.xor_self, Nat.xor_zero]
  apply Byte.extVal
  rw [Byte.val_add, xtime_val, xtime_val, xtime_val, Byte.val_add, Nat.testBit_xor,
    shift_mod_xor]
  cases ha : a.val.testBit 7 <;> cases hb : b.val.testBit 7
  · rfl
  · exact hx1 ((a.val <<< 1) % 256) ((b.val <<< 1) % 256)
  · exact hx2 ((a.val <<< 1) % 256) ((b.val <<< 1) % 256)
  · exact hx3 ((a.val <<< 1) % 256) ((b.val <<< 1) % 256)

theorem mixSingleColumn_add (a0 a1 a2 a3 b0 b1 b2 b3 : Byte) (r : Nat) :
    mixSingleColumn (a0+b0) (a1+b1) (a2+b2) (a3+b3) r
      = mixSingleColumn a0 a1 a2 a3 r + mixSingleColumn b0 b1 b2 b3 r := by
  by_cases h0 : r = 0
  · subst h0
    show xtime (a0+b0) + (xtime (a1+b1) + (a1+b1)) + (a2+b2) + (a3+b3)
      = (xtime a0 + (xtime a1 + a1) + a2 + a3) + (xtime b0 + (xtime b1 + b1) + b2 + b3)
    rw [xtime_add, xtime_add]
    abel
  · by_cases h1 : r = 1
    · subst h1
      show (a0+b0) + xtime (a1+b1) + (xtime (a2+b2) + (a2+b2)) + (a3+b3)
        = (a0 + xtime a1 + (xtime a2 + a2) + a3) + (b0 + xtime b1 + (xtime b2 + b2) + b3)
      rw [xtime_add, xtime_add]
      abel
    · by_cases h2 : r = 2
      · subst h2
        show (a0+b0) + (a1+b1) + xtime (a2+b2) + (xtime (a3+b3) + (a3+b3))
          = (a0 + a1 + xtime a2 + (xtime a3 + a3)) + (b0 + b1 + xtime b2 + (xtime b3 + b3))
        rw [xtime_add, xtime_add]
        abel
      · unfold mixSingleColumn
        simp only [if_neg h0, if_neg h1, if_neg h2]
        rw [xtime_add, xtime_add]
        abel

theorem mixColumns_add (s t : Block16) : mixColumns (s + t) = mixColumns s + mixColumns t := by
  funext i
  exact mixSingleColumn_add
    (s ⟨4*(i.val/4), by omega⟩) (s ⟨4*(i.val/4)+1, by omega⟩)
    (s ⟨4*(i.val/4)+2, by omega⟩) (s ⟨4*(i.val/4)+3, by omega⟩)
    (t ⟨4*(i.val/4), by omega⟩) (t ⟨4*(i.val/4)+1, by omega⟩)
    (t ⟨4*(i.val/4)+2, by omega⟩) (t ⟨4*(i.val/4)+3, by omega⟩)
    (i.val % 4)

theorem shiftRows_add (s t : Block16) : shiftRows (s + t) = shiftRows s + shiftRows t := rfl

theorem firstHalf_add (u v : Vec32) : firstHalf (u + v) = firstHalf u + firstHalf v := rfl

theorem secondHalf_add (u v : Vec32) : secondHalf (u + v) = secondHalf u + secondHalf v := rfl

theorem joinHalves_add (a b c d : Block16) :
    joinHalves (a + c) (b + d) = joinHalves a b + joinHalves c d := by
  funext k
  by_cases h : k.val < 16
  · rw [show joinHalves (a+c) (b+d) k = (a+c) ⟨k.val, h⟩ from dif_pos h]
    show a ⟨k.val, h⟩ + c ⟨k.val, h⟩ = joinHalves a b k + joinHalves c d k
    rw [show joinHalves a b k = a ⟨k.val, h⟩ from dif_pos h,
        show joinHalves c d k = c ⟨k.val, h⟩ from dif_pos h]
  · rw [show joinHalves (a+c) (b+d) k = (b+d) ⟨k.val-16, by omega⟩ from dif_neg h]
    show b ⟨k.val-16, by omega⟩ + d ⟨k.val-16, by omega⟩ = joinHalves a b k + joinHalves c d k
    rw [show joinHalves a b k = b ⟨k.val-16, by omega⟩ from dif_neg h,
        show joinHalves c d k = d ⟨k.val-16, by omega⟩ from dif_neg h]

theorem firstHalf_join (a b : Block16) : firstHalf (joinHalves a b) = a := by
  funext j
  show joinHalves a b ⟨j.val, by omega⟩ = a j
  rw [show joinHalves a b ⟨j.val, by omega⟩ = a ⟨j.val, j.isLt⟩ from dif_pos j.isLt]

theorem secondHalf_join (a b : Block16) : secondHalf (joinHalves a b) = b := by
  funext j
  show joinHalves a b ⟨j.val + 16, by omega⟩ = b j
  have h : ¬ ((⟨j.val + 16, by omega⟩ : Fin 32)).val < 16 := by
    show ¬ j.val + 16 < 16
    omega
  rw [show joinHalves a b ⟨j.val + 16, by omega⟩ = b ⟨j.val + 16 - 16, by omega⟩ from dif_neg h]
  have he : (⟨j.val + 16 - 16, by omega⟩ : Fin 16) = j :=
    Fin.ext (show j.val + 16 - 16 = j.val by omega)
  rw [he]

theorem joinHalves_halves (v : Vec32) : joinHalves (firstHalf v) (secondHalf v) = v := by
  funext k
  by_cases h : k.val < 16
  · rw [show joinHalves (firstHalf v) (secondHalf v) k = firstHalf v ⟨k.val, h⟩ from dif_pos h]
    show v ⟨k.val, by omega⟩ = v k
    rw [show (⟨k.val, by omega⟩ : Fin 32) = k from Fin.ext rfl]
  · rw [show joinHalves (firstHalf v) (secondHalf v) k
      = secondHalf v ⟨k.val - 16, by omega⟩ from dif_neg h]
    show v ⟨k.val - 16 + 16, by omega⟩ = v k
    rw [show (⟨k.val - 16 + 16, by omega⟩ : Fin 32) = k
      from Fin.ext (show k.val - 16 + 16 = k.val by omega)]

theorem bothHalves_join (f : Block16 → Block16) (a b : Block16) :
    bothHalves f (joinHalves a b) = joinHalves (f a) (f b) := by
  unfold bothHalves
  rw [firstHalf_join, secondHalf_join]

theorem bothHalves_add (f : Block16 → Block16)
    (hf : ∀ a b : Block16, f (a + b) = f a + f b) (u v : Vec32) :
    bothHalves f (u + v) = bothHalves f u + bothHalves f v := by
  unfold bothHalves
  rw [firstHalf_add, secondHalf_add, hf, hf, joinHalves_add]

theorem dup_eq_join (rk : Block16) : duplicateRoundKey rk = joinHalves rk rk := rfl

theorem applyMcSr_add (a b : Block16) : applyMcSr (a + b) = applyMcSr a + applyMcSr b := by
  unfold applyMcSr
  rw [shiftRows_add, mixColumns_add]

theorem mcSr_apply (v : Vec32) : mcSrMatrix256.applyToBytes v = bothHalves applyMcSr v :=
  fromLinearTransform_spec _ (bothHalves_add applyMcSr applyMcSr_add) v

theorem srOnly_apply (v : Vec32) : srMatrix256.applyToBytes v = bothHalves shiftRows v :=
  fromLinearTransform_spec _ (bothHalves_add shiftRows shiftRows_add) v

theorem sboxBytes_eq (v : Vec32) : sboxBytes v = bothHalves subBytes v := by
  funext k
  show sbox (v k) = joinHalves (subBytes (firstHalf v)) (subBytes (secondHalf v)) k
  by_cases h : k.val < 16
  · rw [show joinHalves (subBytes (firstHalf v)) (subBytes (secondHalf v)) k
        = subBytes (firstHalf v) ⟨k.val, h⟩ from dif_pos h]
    show sbox (v k) = sbox (v ⟨k.val, by omega⟩)
    rw [show (⟨k.val, by omega⟩ : Fin 32) = k from Fin.ext rfl]
  · rw [show joinHalves (subBytes (firstHalf v)) (subBytes (secondHalf v)) k
        = subBytes (secondHalf v) ⟨k.val - 16, by omega⟩ from dif_neg h]
    show sbox (v k) = sbox (v ⟨k.val - 16 + 16, by omega⟩)
    rw [show (⟨k.val - 16 + 16, by omega⟩ : Fin 32) = k
      from Fin.ext (show k.val - 16 + 16 = k.val by omega)]


/-!
Plain AES as a round-indexed recurrence on one block (`aesPre`) and on the
doubled 32-byte state (`plainVec`): `plainVec key P r` is the value the
white-box pipeline must carry after round `r`'s AddRoundKey, and it is the
two halves of `P` encrypted in parallel.
-/

def aesPre (key b : Block16) : Nat → Block16
  | 0 => addRoundKey b (roundKey key 0)
  | r+1 =>
    if r+1 = 10 then addRoundKey (shiftRows (subBytes (aesPre key b r))) (roundKey key 10)
    else addRoundKey (mixColumns (shiftRows (subBytes (aesPre key b r)))) (roundKey key (r+1))

def plainVec (key : Block16) (P : Vec32) : Nat → Vec32
  | 0 => P + duplicateRoundKey (roundKey key 0)
  | r+1 =>
    (if r+1 = 10 then srMatrix256 else mcSrMatrix256).applyToBytes
      (sboxBytes (plainVec key P r)) + duplicateRoundKey (roundKey key (r+1))

theorem encryptBlock_eq (b key : Block16) : encryptBlock b key = aesPre key b 10 := by
  have hfold : ∀ n, n ≤ 9 → (List.range' 1 n).foldl
      (fun s r => addRoundKey (mixColumns (shiftRows (subBytes s))) (roundKey key r))
      (addRoundKey b (roundKey key 0)) = aesPre key b n := by
    intro n
    induction n with
    | zero => intro _; rfl
    | succ m ih =>
      intro hm
      rw [List.range'_1_concat, List.foldl_append, ih (by omega)]
      show addRoundKey (mixColumns (shiftRows (subBytes (aesPre key b m)))) (roundKey key (1+m))
        = aesPre key b (m+1)
      rw [show aesPre key b (m+1) = if m+1 = 10
          then addRoundKey (shiftRows (subBytes (aesPre key b m))) (roundKey key 10)
          else addRoundKey (mixColumns (shiftRows (subBytes (aesPre key b m))))
            (roundKey key (m+1)) from rfl]
      rw [if_neg (show ¬ m+1 = 10 by omega), Nat.add_comm 1 m]
  show addRoundKey (shiftRows (subBytes ((List.range' 1 9).foldl
      (fun s r => addRoundKey (mixColumns (shiftRows (subBytes s))) (roundKey key r))
      (addRoundKey b (roundKey key 0))))) (roundKey key 10) = aesPre key b 10
  rw [hfold 9 (by omega)]
  rfl

theorem plainVec_halves (key : Block16) (P : Vec32) :
    ∀ n, n ≤ 10 → plainVec key P n
      = joinHalves (aesPre key (firstHalf P) n) (aesPre key (secondHalf P) n) := by
  intro n
  induction n with
  | zero =>
    intro _
    show P + duplicateRoundKey (roundKey key 0)
      = joinHalves (addRoundKey (firstHalf P) (roundKey key 0))
        (addRoundKey (secondHalf P) (roundKey key 0))
    calc P + duplicateRoundKey (roundKey key 0)
        = joinHalves (firstHalf P) (secondHalf P) + joinHalves (roundKey key 0) (roundKey key 0)
          := by rw [joinHalves_halves, ← dup_eq_join]
      _ = joinHalves (firstHalf P + roundKey key 0) (secondHalf P + roundKey key 0)
          := (joinHalves_add _ _ _ _).symm
      _ = joinHalves (addRoundKey (firstHalf P) (roundKey key 0))
            (addRoundKey (secondHalf P) (roundKey key 0)) := rfl
  | succ m ih =>
    intro hm
    show (if m+1 = 10 then srMatrix256 else mcSrMatrix256).applyToBytes
        (sboxBytes (plainVec key P m)) + duplicateRoundKey (roundKey key (m+1))
      = joinHalves (aesPre key (firstHalf P) (m+1)) (aesPre key (secondHalf P) (m+1))
    rw [ih (by omega), sboxBytes_eq, bothHalves_join]
    by_cases h10 : m+1 = 10
    · rw [if_pos h10, srOnly_apply, bothHalves_join, dup_eq_join, ← joinHalves_add]
      rw [show aesPre key (firstHalf P) (m+1) = if m+1 = 10
          then addRoundKey (shiftRows (subBytes (aesPre key (firstHalf P) m))) (roundKey key 10)
          else addRoundKey (mixColumns (shiftRows (subBytes (aesPre key (firstHalf P) m))))
            (roundKey key (m+1)) from rfl,
        show aesPre key (secondHalf P) (m+1) = if m+1 = 10
          then addRoundKey (shiftRows (subBytes (aesPre key (secondHalf P) m))) (roundKey key 10)
          else addRoundKey (mixColumns (shiftRows (subBytes (aesPre key (secondHalf P) m))))
            (roundKey key (m+1)) from rfl]
      rw [if_pos h10, if_pos h10, h10]
      rfl
    · rw [if_neg h10, mcSr_apply, bothHalves_join, dup_eq_join, ← joinHalves_add]
      rw [show aesPre key (firstHalf P) (m+1) = if m+1 = 10
          then addRoundKey (shiftRows (subBytes (aesPre key (firstHalf P) m))) (roundKey key 10)
          else addRoundKey (mixColumns (shiftRows (subBytes (aesPre key (firstHalf P) m))))
            (roundKey key (m+1)) from rfl,
        show aesPre key (secondHalf P) (m+1) = if m+1 = 10
          then addRoundKey (shiftRows (subBytes (aesPre key (secondHalf P) m))) (roundKey key 10)
          else addRoundKey (mixColumns (shiftRows (subBytes (aesPre key (secondHalf P) m))))
            (roundKey key (m+1)) from rfl]
      rw [if_neg h10, if_neg h10]
      rfl

theorem plainVec_encrypt (key : Block16) (P : Vec32) :
    plainVec key P 10 = joinHalves (encryptBlock (firstHalf P) key)
      (encryptBlock (secondHalf P) key) := by
  rw [encryptBlock_eq, encryptBlock_eq]
  exact plainVec_halves key P 10 (by omega)


/-!
The round loop: each generated round advances the carried state by exactly
one round of the plain-AES recurrence, so the ten rounds together map the
encoded initial state to `plainVec key P 10`.
-/

theorem buildRound_some_inv {rng : Rng} {a na : Affine256} {L : Matrix256} {K : Vec32}
    {rt : RoundTables} {rng2 : Rng} (h : buildRound rng a na L K = some (rt, rng2)) :
    ∃ ni, na.lin.invert = some ni := by
  cases hinv : na.lin.invert with
  | none =>
    unfold buildRound at h
    rw [hinv] at h
    cases h
  | some ni => exact ⟨ni, rfl⟩

theorem getD_mem_of_lt {α : Type} (l : List α) (n : Nat) (d : α) (h : n < l.length) :
    l.getD n d ∈ l := by
  rw [List.getD_eq_get?, List.get?_eq_get h, Option.getD_some]
  exact List.get_mem l n h

theorem sampleAEncodings_spec (fuel : Nat) : ∀ (n : Nat) (rng : Rng)
    {lst : List Affine256} {rng2 : Rng},
    sampleAEncodings fuel n rng = some (lst, rng2) →
    lst.length = n ∧ ∀ a ∈ lst, a.lin.SparseBanded := by
  intro n
  induction n with
  | zero =>
    intro rng lst rng2 h
    have h2 : some (([] : List Affine256), rng) = some (lst, rng2) := h
    injection h2 with h2
    have hl : lst = [] := (congrArg Prod.fst h2).symm
    subst hl
    exact ⟨rfl, fun a ha => absurd ha (List.not_mem_nil a)⟩
  | succ m ih =>
    intro rng lst rng2 h
    unfold sampleAEncodings at h
    cases ha : Affine256.randomSparseUnsplit fuel rng with
    | none =>
      rw [ha] at h
      cases h
    | some p =>
      obtain ⟨a, rng1⟩ := p
      rw [ha] at h
      have h2 : (match sampleAEncodings fuel m rng1 with
          | none => none
          | some (rest, rng2'') => some (a :: rest, rng2'')) = some (lst, rng2) := h
      cases hrest : sampleAEncodings fuel m rng1 with
      | none =>
        rw [hrest] at h2
        cases h2
      | some q =>
        obtain ⟨rest, rng2'⟩ := q
        rw [hrest] at h2
        have h3 : some (a :: rest, rng2') = some (lst, rng2) := h2
        injection h3 with h3
        have hl : lst = a :: rest := (congrArg Prod.fst h3).symm
        subst hl
        have hsp : a.lin.SparseBanded := by
          unfold Affine256.randomSparseUnsplit at ha
          cases hm : Matrix256.randomSparseUnsplit fuel rng with
          | none =>
            rw [hm] at ha
            cases ha
          | some mp =>
            obtain ⟨lin, rngm⟩ := mp
            rw [hm] at ha
            have ha2 : some ((⟨lin, rngm.read32⟩ : Affine256), rngm.advance 32)
                = some (a, rng1) := ha
            injection ha2 with ha2
            have hae : a = ⟨lin, rngm.read32⟩ := (congrArg Prod.fst ha2).symm
            rw [hae]
            exact (randomSparseUnsplit_spec fuel rng hm).1
        obtain ⟨hlen, hall⟩ := ih rng1 hrest
        refine ⟨by rw [List.length_cons, hlen], ?_⟩
        intro x hx
        rcases List.mem_cons.mp hx with hx1 | hx2
        · rw [hx1]; exact hsp
        · exact hall x hx2

theorem finRange_foldl_list {α σ : Type} (g : σ → α → σ) (d0 : α) :
    ∀ (n : Nat) (l : List α), l.length = n → ∀ s : σ,
    (List.finRange n).foldl (fun s i => g s (l.getD i.val d0)) s = l.foldl g s := by
  intro n
  induction n with
  | zero =>
    intro l hl s
    rw [List.length_eq_zero.mp hl]
    rfl
  | succ m ih =>
    intro l hl s
    cases l with
    | nil => cases hl
    | cons x xs =>
      rw [List.finRange_succ_eq_map, List.foldl_cons, List.foldl_map]
      simp only [Fin.val_succ, List.getD_cons_succ]
      have hx : (x :: xs).getD (0 : Fin (m+1)).val d0 = x := rfl
      rw [hx, List.foldl_cons]
      exact ih xs (by simpa using hl) (g s x)

theorem buildRounds_eval (key : Block16) (P : Vec32) (aGet : Nat → Affine256) :
    ∀ (d : Nat), ∀ (r : Nat), r + d = 10 →
      (∀ k, r ≤ k → k ≤ 9 → (aGet k).lin.SparseBanded) →
      ∀ (rng : Rng) (lst : List RoundTables) (rng2 : Rng),
        buildRounds aGet none key mcSrMatrix256 srMatrix256 r rng = some (lst, rng2) →
        lst.length = d ∧
        ∀ S : Vec32, (r ≤ 9 → (aGet r).apply S = plainVec key P r) →
          (r = 10 → S = plainVec key P 10) →
          lst.foldl (fun s rt => roundEval rt s) S = plainVec key P 10 := by
  intro d
  induction d with
  | zero =>
    intro r hr hsp rng lst rng2 h
    have hr10 : r = 10 := by omega
    subst hr10
    unfold buildRounds at h
    rw [dif_neg (show ¬ (10:Nat) < 10 by omega)] at h
    injection h with h
    have hl : lst = [] := (congrArg Prod.fst h).symm
    subst hl
    refine ⟨rfl, ?_⟩
    intro S _ h10
    exact h10 rfl
  | succ m ih =>
    intro r hr hsp rng lst rng2 h
    have hlt : r < 10 := by omega
    unfold buildRounds at h
    rw [dif_pos hlt] at h
    have h2 : (match buildRound rng (aGet r)
          (if r = 9 then (none : Option Affine256).getD Affine256.identity else aGet (r+1))
          (if r = 9 then srMatrix256 else mcSrMatrix256)
          (duplicateRoundKey (roundKey key (r+1))) with
        | none => none
        | some (rt, rng1) =>
          match buildRounds aGet none key mcSrMatrix256 srMatrix256 (r+1) rng1 with
          | none => none
          | some (rest, rng2'') => some (rt :: rest, rng2'')) = some (lst, rng2) := h
    by_cases hr9 : r = 9
    · subst hr9
      rw [if_pos rfl, if_pos rfl] at h2
      cases hbrd : buildRound rng (aGet 9)
          ((none : Option Affine256).getD Affine256.identity) srMatrix256
          (duplicateRoundKey (roundKey key (9+1))) with
      | none =>
        rw [hbrd] at h2
        cases h2
      | some p =>
        obtain ⟨rt, rng1⟩ := p
        rw [hbrd] at h2
        have h3 : (match buildRounds aGet none key mcSrMatrix256 srMatrix256 (9+1) rng1 with
            | none => none
            | some (rest, rng2'') => some (rt :: rest, rng2'')) = some (lst, rng2) := h2
        cases hrec : buildRounds aGet none key mcSrMatrix256 srMatrix256 (9+1) rng1 with
        | none =>
          rw [hrec] at h3
          cases h3
        | some q =>
          obtain ⟨rest, rng2'⟩ := q
          rw [hrec] at h3
          have h4 : some ((rt :: rest : List RoundTables), rng2') = some (lst, rng2) := h3
          injection h4 with h4
          have hlst : lst = rt :: rest := (congrArg Prod.fst h4).symm
          subst hlst
          obtain ⟨ni, hinv⟩ := buildRound_some_inv hbrd
          have hinv' : Matrix256.identity.invert = some ni := hinv
          have hni : ∀ v : Vec32, ni.applyToBytes v = v := by
            intro v
            have hcl := Matrix256.invert_cancel_left hinv' v
            rw [Matrix256.applyToBytes_identity] at hcl
            exact hcl
          obtain ⟨hlenr, hfoldr⟩ := ih (9+1) (by omega)
            (fun k hk1 hk2 => absurd (le_trans hk1 hk2) (by omega)) rng1 rest rng2' hrec
          refine ⟨by rw [List.length_cons, hlenr], ?_⟩
          intro S hrel _
          have hS : (aGet 9).apply S = plainVec key P 9 := hrel (by omega)
          have hstep := buildRound_roundEval hinv (hsp 9 (by omega) (by omega)) hbrd S
          rw [hS] at hstep
          have hb0 : ni.applyToBytes
              ((none : Option Affine256).getD Affine256.identity).bias = 0 :=
            Matrix256.applyToBytes_zero ni
          rw [Matrix256.applyToBytes_mul, hb0, zero_add, hni, hni] at hstep
          have hP10 : plainVec key P 10 = (if 10 = 10 then srMatrix256 else mcSrMatrix256
              ).applyToBytes (sboxBytes (plainVec key P 9))
              + duplicateRoundKey (roundKey key 10) := rfl
          have hS' : roundEval rt S = plainVec key P 10 := by
            rw [hstep, hP10, if_pos rfl]
          rw [List.foldl_cons]
          exact hfoldr (roundEval rt S) (fun hle => absurd hle (by omega)) (fun _ => hS')
    · rw [if_neg hr9, if_neg hr9] at h2
      cases hbrd : buildRound rng (aGet r) (aGet (r+1)) mcSrMatrix256
          (duplicateRoundKey (roundKey key (r+1))) with
      | none =>
        rw [hbrd] at h2
        cases h2
      | some p =>
        obtain ⟨rt, rng1⟩ := p
        rw [hbrd] at h2
        have h3 : (match buildRounds aGet none key mcSrMatrix256 srMatrix256 (r+1) rng1 with
            | none => none
            | some (rest, rng2'') => some (rt :: rest, rng2'')) = some (lst, rng2) := h2
        cases hrec : buildRounds aGet none key mcSrMatrix256 srMatrix256 (r+1) rng1 with
        | none =>
          rw [hrec] at h3
          cases h3
        | some q =>
          obtain ⟨rest, rng2'⟩ := q
          rw [hrec] at h3
          have h4 : some ((rt :: rest : List RoundTables), rng2') = some (lst, rng2) := h3
          injection h4 with h4
          have hlst : lst = rt :: rest := (congrArg Prod.fst h4).symm
          subst hlst
          obtain ⟨ni, hinv⟩ := buildRound_some_inv hbrd
          obtain ⟨hlenr, hfoldr⟩ := ih (r+1) (by omega)
            (fun k hk1 hk2 => hsp k (by omega) hk2) rng1 rest rng2' hrec
          refine ⟨by rw [List.length_cons, hlenr], ?_⟩
          intro S hrel _
          have hS : (aGet r).apply S = plainVec key P r := hrel (by omega)
          have hstep := buildRound_roundEval hinv (hsp r (by omega) (by omega)) hbrd S
          rw [hS, Matrix256.applyToBytes_mul] at hstep
          have hnext : (aGet (r+1)).apply (roundEval rt S) = plainVec key P (r+1) := by
            rw [hstep]
            show (aGet (r+1)).lin.applyToBytes
                (ni.applyToBytes (mcSrMatrix256.applyToBytes (sboxBytes (plainVec key P r)))
                  + (ni.applyToBytes (aGet (r+1)).bias
                    + ni.applyToBytes (duplicateRoundKey (roundKey key (r+1)))))
                + (aGet (r+1)).bias = plainVec key P (r+1)
            rw [← Matrix256.applyToBytes_add, ← Matrix256.applyToBytes_add,
              Matrix256.invert_cancel_right hinv]
            rw [show mcSrMatrix256.applyToBytes (sboxBytes (plainVec key P r))
                + ((aGet (r+1)).bias + duplicateRoundKey (roundKey key (r+1)))
                + (aGet (r+1)).bias
              = mcSrMatrix256.applyToBytes (sboxBytes (plainVec key P r))
                + duplicateRoundKey (roundKey key (r+1)) + ((aGet (r+1)).bias
                + (aGet (r+1)).bias) from by abel]
            rw [Vec32.add_self, add_zero]
            show _ = (if r+1 = 10 then srMatrix256 else mcSrMatrix256).applyToBytes
                (sboxBytes (plainVec key P r)) + duplicateRoundKey (roundKey key (r+1))
            rw [if_neg (show ¬ r+1 = 10 by omega)]
          rw [List.foldl_cons]
          exact hfoldr (roundEval rt S) (fun _ => hnext) (fun h10 => absurd h10 (by omega))


theorem finRange_foldl_roundEval (d0 : RoundTables) (n : Nat) (l : List RoundTables)
    (hl : l.length = n) (s : Vec32) :
    (List.finRange n).foldl (fun S r => roundEval (l.getD r.val d0) S) s
      = l.foldl (fun s rt => roundEval rt s) s :=
  finRange_foldl_list (fun s rt => roundEval rt s) d0 n l hl s

/-- Claim C1: with external encodings disabled, evaluating the generated
instance on any 32-byte input — apply `encodings.input`, then run the ten
table rounds, each replacing the state `S` by the XOR over `i` of
`rounds[r].tables[i].get(S[i], S[(i+1) mod 32])` — produces AES-128 of the
first half of the input concatenated with AES-128 of the second half. -/
theorem wb_functional_correctness (fuel : Nat) (key : Block16) (rng : Rng) (P : Vec32) :
    (generateInstance fuel key rng ⟨false⟩).elim True (fun inst =>
      inst.evaluate P
        = joinHalves (encryptBlock (firstHalf P) key) (encryptBlock (secondHalf P) key)) := by
  unfold generateInstance
  cases hsa : sampleAEncodings fuel 10 rng with
  | none => trivial
  | some p =>
    obtain ⟨a_encodings, rng1⟩ := p
    dsimp only
    cases hinv : (a_encodings.getD 0 Affine256.identity).invert with
    | none => trivial
    | some a1_inv =>
      have hne : (⟨false⟩ : GeneratorConfig).external_encodings ≠ true := Bool.false_ne_true
      rw [if_neg hne]
      dsimp only
      cases hbr : buildRounds (fun r => a_encodings.getD r Affine256.identity) none key
          mcSrMatrix256 srMatrix256 0 rng1 with
      | none => trivial
      | some q =>
        obtain ⟨roundsList, rngF⟩ := q
        simp only [Option.elim]
        obtain ⟨hlen, hall⟩ := sampleAEncodings_spec fuel 10 rng hsa
        obtain ⟨hlen10, heval10⟩ := buildRounds_eval key P
          (fun r => a_encodings.getD r Affine256.identity) 10 0 (by omega)
          (fun k _ hk2 => hall _ (getD_mem_of_lt a_encodings k Affine256.identity (by omega)))
          rng1 roundsList rngF hbr
        show (List.finRange 10).foldl
            (fun S r => roundEval (roundsList.getD r.val ⟨fun _ => ⟨fun _ _ => 0⟩⟩) S)
            ((a1_inv.compose (Affine256.identity.compose
              ⟨Matrix256.identity, duplicateRoundKey (roundKey key 0)⟩)).apply P)
          = joinHalves (encryptBlock (firstHalf P) key) (encryptBlock (secondHalf P) key)
        rw [finRange_foldl_roundEval ⟨fun _ => ⟨fun _ _ => 0⟩⟩ 10 roundsList hlen10]
        have hS0 : (a1_inv.compose (Affine256.identity.compose
            ⟨Matrix256.identity, duplicateRoundKey (roundKey key 0)⟩)).apply P
            = a1_inv.apply (P + duplicateRoundKey (roundKey key 0)) := by
          rw [Affine256.identity_compose, Affine256.apply_compose]
          rw [show (⟨Matrix256.identity, duplicateRoundKey (roundKey key 0)⟩ : Affine256).apply P
              = Matrix256.identity.applyToBytes P + duplicateRoundKey (roundKey key 0) from rfl,
            Matrix256.applyToBytes_identity]
        rw [hS0]
        have hrel0 : (0:Nat) ≤ 9 → ((fun r => a_encodings.getD r Affine256.identity) 0).apply
            (a1_inv.apply (P + duplicateRoundKey (roundKey key 0))) = plainVec key P 0 := by
          intro _
          show (a_encodings.getD 0 Affine256.identity).apply (a1_inv.apply
            (P + duplicateRoundKey (roundKey key 0))) = plainVec key P 0
          rw [Affine256.invert_apply_right hinv]
          rfl
        rw [← plainVec_encrypt key P]
        exact heval10 (a1_inv.apply (P + duplicateRoundKey (roundKey key 0))) hrel0
          (fun h10 => absurd h10 (by omega))


end WbAes
